import Mathlib

/-!
# Verification of the converter library (src/lib/convert.py)

A shallow embedding of the converter: the Python values flowing through the
program, the three format handlers (Python-literal, CSV, JSON), the extension
registry and the conversion orchestrator, together with models of the Python
standard-library routines the code calls (ast.literal_eval, csv reader/writer,
json loads/dumps, os.path.splitext, str.splitlines).  Machine integers do not
occur (Python ints are unbounded, embedded as Int); floating-point values are
kept symbolically as their literal text, since no verified property depends on
IEEE arithmetic.
-/

namespace Converter

/-- Embedding of the Python values produced and consumed by the converter:
None, bool, int, str, list, tuple, dict, set, and float/complex values kept
symbolically as their literal text (IEEE semantics are out of scope; no
claim depends on float arithmetic). Dicts are insertion-ordered key/value
lists, mirroring Python 3.7+ dict order. -/
inductive PyVal where
  | none
  | bool (b : Bool)
  | int (n : Int)
  | float (lit : String)
  | complex (lit : String)
  | str (s : String)
  | list (xs : List PyVal)
  | tuple (xs : List PyVal)
  | dict (kvs : List (PyVal × PyVal))
  | setv (xs : List PyVal)
deriving Repr

mutual

/-- Model of Python == on the embedded values: True == 1 and False == 0 hold
across bool/int; strings and containers compare structurally; float and
complex literals compare by their text (an approximation: numerically equal
but textually different literals are not identified; no claim exercises it).
Python dict equality ignores insertion order; this model compares entries
in order, which is sound for every use in the code (keys built by zip in a
fixed order). -/
def pyEq : PyVal → PyVal → Bool
  | .none, .none => true
  | .bool a, .bool b => a == b
  | .bool a, .int n => (if a then (1 : Int) else 0) == n
  | .int n, .bool a => n == (if a then (1 : Int) else 0)
  | .int m, .int n => m == n
  | .float a, .float b => a == b
  | .complex a, .complex b => a == b
  | .str a, .str b => a == b
  | .list xs, .list ys => pyEqList xs ys
  | .tuple xs, .tuple ys => pyEqList xs ys
  | .dict xs, .dict ys => pyEqKvs xs ys
  | .setv xs, .setv ys => pyEqList xs ys
  | _, _ => false

/-- Elementwise Python == on lists. -/
def pyEqList : List PyVal → List PyVal → Bool
  | [], [] => true
  | x :: xs, y :: ys => pyEq x y && pyEqList xs ys
  | _, _ => false

/-- Pairwise Python == on dict entry lists. -/
def pyEqKvs : List (PyVal × PyVal) → List (PyVal × PyVal) → Bool
  | [], [] => true
  | (k, v) :: xs, (l, w) :: ys => pyEq k l && pyEq v w && pyEqKvs xs ys
  | _, _ => false

end

/-- Python dict assignment d[k] = v: replace the value in place when a key
equal (by Python ==) to k is present, otherwise append the new entry. -/
def dictInsert (kvs : List (PyVal × PyVal)) (k v : PyVal) : List (PyVal × PyVal) :=
  match kvs with
  | [] => [(k, v)]
  | (k0, v0) :: rest =>
      if pyEq k0 k then (k0, v) :: rest
      else (k0, v0) :: dictInsert rest k v

/-- Python dict lookup d.get(k): the value at the first key equal to k. -/
def dictGet (kvs : List (PyVal × PyVal)) (k : PyVal) : Option PyVal :=
  match kvs with
  | [] => Option.none
  | (k0, v0) :: rest => if pyEq k0 k then some v0 else dictGet rest k

/-- Membership by Python == in a list of values. -/
def pyMem (k : PyVal) (l : List PyVal) : Bool :=
  l.any (fun x => pyEq x k)

/-- The Python exceptions the converter can raise, by kind and message. -/
inductive PyErr where
  | exc (msg : String)
  | valueError (msg : String)
  | typeError (msg : String)
  | indexError (msg : String)
  | keyError (msg : String)
  | attributeError (msg : String)
  | ioError (msg : String)
  | decodeError (msg : String)
deriving Repr, DecidableEq

/-! ## os.path.splitext

Model of posixpath.splitext, which get_converter uses to extract the
extension: the extension starts at the last dot, provided that dot lies
after the last path separator and some character of the final path
component strictly before the dot is not itself a dot (leading dots of the
final component are part of the root, so ".py" has no extension). -/

/-- Index (0-based) one past the last occurrence of c, or 0 when absent:
the model of str.rfind(c) + 1 used by splitext. -/
def lastIdxAfter (cs : List Char) (c : Char) : Nat :=
  match cs with
  | [] => 0
  | x :: xs =>
      let r := lastIdxAfter xs c
      if r = 0 then (if x = c then 1 else 0) else r + 1

/-- Does the slice of cs between positions i (inclusive) and j (exclusive)
contain a character other than extsep? Models the leading-dot scan of
posixpath.splitext. -/
def hasNonDotBetween (cs : List Char) (i j : Nat) : Bool :=
  ((cs.drop i).take (j - i)).any (fun c => c ≠ '.')

/-- Model of os.path.splitext(p)[1] on POSIX: the extension of p, as the
characters from the last dot onward when that dot follows the last '/' and
a non-dot character of the final component precedes it; otherwise empty. -/
def splitextExt (p : String) : String :=
  let cs := p.data
  let sepEnd := lastIdxAfter cs '/'
  let dotEnd := lastIdxAfter cs '.'
  if dotEnd > sepEnd ∧ hasNonDotBetween cs sepEnd (dotEnd - 1) then
    String.mk (cs.drop (dotEnd - 1))
  else
    ""

/-! ## The format handlers and the registry -/

/-- The converter classes of the module (PyConverter, CsvConverter,
JsonConverter, YamlConverter). -/
inductive ConverterKind where
  | pyConv
  | csvConv
  | jsonConv
  | yamlConv
deriving Repr, DecidableEq

/-- The converter_type_map built in ConvertInput.__init__: the mapping from
file extension to converter class. -/
def converter_type_map : List (String × ConverterKind) :=
  [(".py", .pyConv), (".csv", .csvConv), (".json", .jsonConv)]

/-- ConvertInput.get_supported_extensions: the keys of the mapping. -/
def get_supported_extensions : List String :=
  converter_type_map.map (fun e => e.1)

/-- ConvertInput.get_converter: extract the extension with os.path.splitext,
look it up in converter_type_map, and on a missing key raise
Exception("Unrecognised file type: {filename}"). -/
def get_converter (filename : String) : Except PyErr ConverterKind :=
  let file_ext := splitextExt filename
  match (converter_type_map.find? (fun e => e.1 = file_ext)).map (fun e => e.2) with
  | some conv => .ok conv
  | Option.none => .error (.exc ("Unrecognised file type: " ++ filename))

/-! ## JSON (model of json.loads / json.dumps with default options) -/

/-- JSON whitespace (the characters the Python json scanner skips). -/
def jsonWs (c : Char) : Bool := c = ' ' || c = '\t' || c = '\n' || c = '\r'

/-- Drop leading JSON whitespace. -/
def skipJsonWs : List Char → List Char
  | [] => []
  | c :: cs => if jsonWs c then skipJsonWs cs else c :: cs

/-- Value of a hexadecimal digit character. -/
def hexVal (c : Char) : Option Nat :=
  if '0' ≤ c ∧ c ≤ '9' then some (c.toNat - '0'.toNat)
  else if 'a' ≤ c ∧ c ≤ 'f' then some (c.toNat - 'a'.toNat + 10)
  else if 'A' ≤ c ∧ c ≤ 'F' then some (c.toNat - 'A'.toNat + 10)
  else Option.none

/-- Value of four hexadecimal digits (the XXXX of a \u escape). -/
def hex4Val (h1 h2 h3 h4 : Char) : Option Nat := do
  let a ← hexVal h1
  let b ← hexVal h2
  let c ← hexVal h3
  let d ← hexVal h4
  pure (a * 4096 + b * 256 + c * 16 + d)

/-- Body of a JSON string after the opening quote, per the Python
py_scanstring: literal characters (control characters below 0x20 are
rejected in strict mode), short escapes, and \uXXXX escapes with UTF-16
surrogate pairs recombined.  A lone surrogate, which Python would keep as
a lone-surrogate code unit str, has no Lean Char and is mapped through
Char.ofNat (the null character); no claim exercises lone surrogates.
The fuel argument only bounds the recursion (one unit per step suffices
for one consumed source character, and callers supply the input length
plus one). -/
def jParseStr : Nat → List Char → Option (List Char × List Char)
  | 0, _ => Option.none
  | fuel + 1, cs =>
    match cs with
    | [] => Option.none
    | c :: cs2 =>
      if c = '"' then some ([], cs2)
      else if c = '\\' then
        match cs2 with
        | 'u' :: h1 :: h2 :: h3 :: h4 :: rest =>
          (match hex4Val h1 h2 h3 h4 with
           | Option.none => Option.none
           | some n =>
             if 0xD800 ≤ n ∧ n ≤ 0xDBFF then
               match rest with
               | '\\' :: 'u' :: g1 :: g2 :: g3 :: g4 :: rest2 =>
                 (match hex4Val g1 g2 g3 g4 with
                  | Option.none => Option.none
                  | some m =>
                    if 0xDC00 ≤ m ∧ m ≤ 0xDFFF then
                      (jParseStr fuel rest2).map (fun p =>
                        (Char.ofNat (0x10000 + (n - 0xD800) * 0x400 + (m - 0xDC00)) :: p.1, p.2))
                    else
                      (jParseStr fuel ('\\' :: 'u' :: g1 :: g2 :: g3 :: g4 :: rest2)).map
                        (fun p => (Char.ofNat n :: p.1, p.2)))
               | _ => (jParseStr fuel rest).map (fun p => (Char.ofNat n :: p.1, p.2))
             else (jParseStr fuel rest).map (fun p => (Char.ofNat n :: p.1, p.2)))
        | e :: rest =>
          (match
            (if e = '"' then some '"'
             else if e = '\\' then some '\\'
             else if e = '/' then some '/'
             else if e = 'b' then some (Char.ofNat 8)
             else if e = 'f' then some (Char.ofNat 12)
             else if e = 'n' then some '\n'
             else if e = 'r' then some '\r'
             else if e = 't' then some '\t'
             else Option.none) with
          | some d => (jParseStr fuel rest).map (fun p => (d :: p.1, p.2))
          | Option.none => Option.none)
        | [] => Option.none
      else if c.toNat < 0x20 then Option.none
      else (jParseStr fuel cs2).map (fun p => (c :: p.1, p.2))

/-- Decimal digit test. -/
def isDigitChar (c : Char) : Bool := '0' ≤ c && c ≤ '9'

/-- Longest prefix of decimal digits, and the remainder. -/
def takeDigits : List Char → (List Char × List Char)
  | [] => ([], [])
  | c :: cs =>
      if isDigitChar c then
        let p := takeDigits cs
        (c :: p.1, p.2)
      else ([], c :: cs)

/-- Numeric value of a digit string. -/
def digitsToNat (ds : List Char) : Nat :=
  ds.foldl (fun a c => a * 10 + (c.toNat - '0'.toNat)) 0

/-- Decimal digits of n, most significant first, with a fuel bound that
only limits the recursion (n + 1 units always suffice): the model of
the decimal text Python prints for a non-negative int. -/
def natToCharsAux : Nat → Nat → List Char
  | 0, _ => []
  | fuel + 1, n =>
    if n < 10 then [Char.ofNat ('0'.toNat + n)]
    else natToCharsAux fuel (n / 10) ++ [Char.ofNat ('0'.toNat + n % 10)]

/-- Decimal digits of a natural number. -/
def natToChars (n : Nat) : List Char := natToCharsAux (n + 1) n

/-- The decimal text of a Python int, with a minus sign when negative. -/
def intToChars (n : Int) : List Char :=
  if n < 0 then '-' :: natToChars n.natAbs else natToChars n.natAbs

/-- A JSON number per the Python NUMBER_RE regex
(-?(0|[1-9][0-9]*))(.[0-9]+)?([eE][+-]?[0-9]+)?: an integer when neither a
fraction nor an exponent is present (Python int, unbounded), a float kept
as its literal text otherwise. -/
def jNumFrac (cs : List Char) : List Char × List Char :=
  match cs with
  | c :: r2 =>
      if c = '.' then
        let p := takeDigits r2
        if p.1 = [] then ([], cs) else ('.' :: p.1, p.2)
      else ([], cs)
  | [] => ([], cs)

def jNumExpDigits (e : Char) (cs : List Char) (orig : List Char) : List Char × List Char :=
  match cs with
  | c :: r4 =>
      if c = '+' ∨ c = '-' then
        let p := takeDigits r4
        if p.1 = [] then ([], orig) else (e :: c :: p.1, p.2)
      else
        let p := takeDigits cs
        if p.1 = [] then ([], orig) else (e :: p.1, p.2)
  | [] => ([], orig)

def jNumExp (cs : List Char) : List Char × List Char :=
  match cs with
  | c :: r3 =>
      if c = 'e' ∨ c = 'E' then jNumExpDigits c r3 cs
      else ([], cs)
  | [] => ([], cs)

def jNumBody (sgn : List Char) (body : List Char) : Option (PyVal × List Char) :=
  match body with
  | [] => Option.none
  | c :: r =>
    if c = '0' ∨ (isDigitChar c ∧ c ≠ '0') then
      let ip : List Char × List Char :=
        if c = '0' then (['0'], r)
        else
          let p := takeDigits r
          (c :: p.1, p.2)
      let frac : List Char × List Char := jNumFrac ip.2
      let ex : List Char × List Char := jNumExp frac.2
      if frac.1 = [] ∧ ex.1 = [] then
        let v : Int := Int.ofNat (digitsToNat ip.1)
        some (.int (if sgn = [] then v else -v), ip.2)
      else
        some (.float (String.mk (sgn ++ ip.1 ++ frac.1 ++ ex.1)), ex.2)
    else Option.none

def jParseNumber (cs : List Char) : Option (PyVal × List Char) :=
  match cs with
  | c :: r => if c = '-' then jNumBody ['-'] r else jNumBody [] (c :: r)
  | [] => Option.none

mutual

/-- One JSON value, by recursive descent with fuel (the Python scanner
recurses on the structure of the text; fuel bounds that recursion and
json.loads supplies one unit per input character plus one, which the
adequacy lemmas show is enough). -/
def jParseValue : Nat → List Char → Option (PyVal × List Char)
  | 0, _ => Option.none
  | fuel + 1, cs =>
    match cs with
    | '"' :: rest => (jParseStr (rest.length + 1) rest).map (fun p => (.str (String.mk p.1), p.2))
    | '{' :: rest =>
        (match skipJsonWs rest with
         | '}' :: r => some (.dict [], r)
         | cs2 => (jParseMembers fuel cs2 []).map (fun p => (.dict p.1, p.2)))
    | '[' :: rest =>
        (match skipJsonWs rest with
         | ']' :: r => some (.list [], r)
         | cs2 => (jParseItems fuel cs2).map (fun p => (.list p.1, p.2)))
    | 't' :: 'r' :: 'u' :: 'e' :: rest => some (.bool true, rest)
    | 'f' :: 'a' :: 'l' :: 's' :: 'e' :: rest => some (.bool false, rest)
    | 'n' :: 'u' :: 'l' :: 'l' :: rest => some (.none, rest)
    | 'N' :: 'a' :: 'N' :: rest => some (.float "nan", rest)
    | 'I' :: 'n' :: 'f' :: 'i' :: 'n' :: 'i' :: 't' :: 'y' :: rest =>
        some (.float "inf", rest)
    | '-' :: 'I' :: 'n' :: 'f' :: 'i' :: 'n' :: 'i' :: 't' :: 'y' :: rest =>
        some (.float "-inf", rest)
    | _ => jParseNumber cs

/-- Members of a JSON object after the opening brace (first member next):
string key, colon, value, then a comma and further members or the closing
brace.  Members accumulate by Python dict construction, so a repeated key
keeps its first position and last value. -/
def jParseMembers : Nat → List Char → List (PyVal × PyVal) →
    Option (List (PyVal × PyVal) × List Char)
  | 0, _, _ => Option.none
  | fuel + 1, cs, acc =>
    match cs with
    | '"' :: rest =>
      (match jParseStr (rest.length + 1) rest with
       | Option.none => Option.none
       | some (k, rest2) =>
         match skipJsonWs rest2 with
         | ':' :: rest4 =>
           (match jParseValue fuel (skipJsonWs rest4) with
            | Option.none => Option.none
            | some (v, rest5) =>
              let acc2 := dictInsert acc (.str (String.mk k)) v
              match skipJsonWs rest5 with
              | ',' :: rest7 => jParseMembers fuel (skipJsonWs rest7) acc2
              | '}' :: rest7 => some (acc2, rest7)
              | _ => Option.none)
         | _ => Option.none)
    | _ => Option.none

/-- Items of a JSON array after the opening bracket (first item next):
value, then a comma and further items or the closing bracket. -/
def jParseItems : Nat → List Char → Option (List PyVal × List Char)
  | 0, _ => Option.none
  | fuel + 1, cs =>
    match jParseValue fuel cs with
    | Option.none => Option.none
    | some (v, rest) =>
      match skipJsonWs rest with
      | ',' :: rest3 =>
        (match jParseItems fuel (skipJsonWs rest3) with
         | some (vs, r) => some (v :: vs, r)
         | Option.none => Option.none)
      | ']' :: rest3 => some ([v], rest3)
      | _ => Option.none

end

/-- Model of json.loads: skip leading whitespace, parse one value, skip
trailing whitespace, and fail on leftover text (Extra data) or on no
parse (Expecting value and its kin, surfaced as json.JSONDecodeError, a
ValueError). -/
def jsonLoads (s : String) : Except PyErr PyVal :=
  match jParseValue (s.data.length + 1) (skipJsonWs s.data) with
  | some (v, rest) =>
      if skipJsonWs rest = [] then .ok v
      else .error (.decodeError "Extra data")
  | Option.none => .error (.decodeError "Expecting value")

/-- Lowercase hexadecimal digit for n below 16. -/
def hexDigitChar (n : Nat) : Char :=
  if n < 10 then Char.ofNat ('0'.toNat + n) else Char.ofNat ('a'.toNat + (n - 10))

/-- Four lowercase hexadecimal digits of n (the XXXX of a \u escape). -/
def hex4 (n : Nat) : List Char :=
  [hexDigitChar (n / 4096 % 16), hexDigitChar (n / 256 % 16),
   hexDigitChar (n / 16 % 16), hexDigitChar (n % 16)]

/-- One character of json.dumps output with the default ensure_ascii: the
two-character short escapes, printable ASCII kept literal, and every other
character as \uXXXX (a UTF-16 surrogate pair beyond 0xFFFF). -/
def jsonEscapeChar (c : Char) : List Char :=
  if c = '\\' then ['\\', '\\']
  else if c = '"' then ['\\', '"']
  else if c = '\n' then ['\\', 'n']
  else if c = '\r' then ['\\', 'r']
  else if c = '\t' then ['\\', 't']
  else if c.toNat = 8 then ['\\', 'b']
  else if c.toNat = 12 then ['\\', 'f']
  else if 0x20 ≤ c.toNat ∧ c.toNat ≤ 0x7E then [c]
  else if c.toNat < 0x10000 then '\\' :: 'u' :: hex4 c.toNat
  else
    ('\\' :: 'u' :: hex4 (0xD800 + (c.toNat - 0x10000) / 0x400)) ++
    ('\\' :: 'u' :: hex4 (0xDC00 + (c.toNat - 0x10000) % 0x400))

/-- A JSON string literal for s, quotes included. -/
def jsonEncStr (s : String) : List Char :=
  '"' :: (s.data.flatMap jsonEscapeChar ++ ['"'])

/-- A JSON object key per the Python encoder: str keys are escaped string
literals; float, bool, None and int keys are coerced to their JSON text and
quoted; every other key type raises TypeError. -/
def jsonKeyChars : PyVal → Except PyErr (List Char)
  | .str s => .ok (jsonEncStr s)
  | .float lit => .ok ('"' :: lit.data ++ ['"'])
  | .bool true => .ok ('"' :: 't' :: 'r' :: 'u' :: 'e' :: '"' :: [])
  | .bool false => .ok ('"' :: 'f' :: 'a' :: 'l' :: 's' :: 'e' :: '"' :: [])
  | .none => .ok ('"' :: 'n' :: 'u' :: 'l' :: 'l' :: '"' :: [])
  | .int n => .ok ('"' :: intToChars n ++ ['"'])
  | _ => .error (.typeError "keys must be str, int, float, bool or None")

mutual

/-- json.dumps with default options, as the character list of its output:
compact separators comma-space and colon-space, insertion order preserved,
TypeError on sets and complex numbers (not JSON serializable). Float
output is the stored literal (symbolic; no claim depends on it). -/
def jsonDumpVal : PyVal → Except PyErr (List Char)
  | .none => .ok ('n' :: 'u' :: 'l' :: 'l' :: [])
  | .bool true => .ok ('t' :: 'r' :: 'u' :: 'e' :: [])
  | .bool false => .ok ('f' :: 'a' :: 'l' :: 's' :: 'e' :: [])
  | .int n => .ok (intToChars n)
  | .float lit => .ok lit.data
  | .complex _ => .error (.typeError "Object of type complex is not JSON serializable")
  | .str s => .ok (jsonEncStr s)
  | .list xs => do
      let body ← jsonDumpItems xs
      pure ('[' :: body ++ [']'])
  | .tuple xs => do
      let body ← jsonDumpItems xs
      pure ('[' :: body ++ [']'])
  | .dict kvs => do
      let body ← jsonDumpMembers kvs
      pure ('{' :: body ++ ['}'])
  | .setv _ => .error (.typeError "Object of type set is not JSON serializable")

/-- Array items joined by comma-space. -/
def jsonDumpItems : List PyVal → Except PyErr (List Char)
  | [] => .ok []
  | [x] => jsonDumpVal x
  | x :: y :: xs => do
      let c ← jsonDumpVal x
      let r ← jsonDumpItems (y :: xs)
      pure (c ++ ',' :: ' ' :: r)

/-- Object members, each key colon-space value, joined by comma-space. -/
def jsonDumpMembers : List (PyVal × PyVal) → Except PyErr (List Char)
  | [] => .ok []
  | [(k, v)] => do
      let kc ← jsonKeyChars k
      let vc ← jsonDumpVal v
      pure (kc ++ ':' :: ' ' :: vc)
  | (k, v) :: m :: kvs => do
      let kc ← jsonKeyChars k
      let vc ← jsonDumpVal v
      let r ← jsonDumpMembers (m :: kvs)
      pure (kc ++ ':' :: ' ' :: vc ++ ',' :: ' ' :: r)

end

/-- Model of json.dumps, as a String. -/
def jsonDumps (d : PyVal) : Except PyErr String :=
  (jsonDumpVal d).map String.mk

namespace JsonConverter

/-- JsonConverter.deserialise: json.loads(s), with no validation of the
resulting shape. -/
def deserialise (s : String) : Except PyErr PyVal := jsonLoads s

/-- JsonConverter.serialise: json.dumps(d). -/
def serialise (d : PyVal) : Except PyErr String := jsonDumps d

end JsonConverter

/-! ## Python literal representation (model of repr) -/

/-- Two lowercase hexadecimal digits of n (the XX of a \x escape). -/
def hex2 (n : Nat) : List Char :=
  [hexDigitChar (n / 16 % 16), hexDigitChar (n % 16)]

/-- Eight lowercase hexadecimal digits of n (the body of a \U escape). -/
def hex8 (n : Nat) : List Char :=
  hex4 (n / 65536) ++ hex4 (n % 65536)

/-- Model of str.isprintable per character, as repr consults it: ASCII is
printable exactly between space and tilde; above ASCII, the C1 control
block, no-break space and soft hyphen are not printable and other
characters are treated as printable.  This is an approximation of the full
Unicode category table (categories C and Z are unprintable); the repr
round-trip below is insensitive to it, because a literal character and its
escaped form parse back to the same character. -/
def pyPrintable (c : Char) : Bool :=
  if c.toNat < 0x80 then 0x20 ≤ c.toNat && c.toNat ≤ 0x7E
  else ¬(c.toNat ≤ 0x9F || c.toNat = 0xA0 || c.toNat = 0xAD)

/-- One character of repr output for a str, given the chosen quote: the
quote and backslash are escaped, newline, carriage return and tab use
short escapes, other unprintable characters use \xXX, \uXXXX or
\UXXXXXXXX by magnitude, printable characters stay literal. -/
def reprEscapeChar (q c : Char) : List Char :=
  if c = '\\' then ['\\', '\\']
  else if c = q then ['\\', q]
  else if c = '\n' then ['\\', 'n']
  else if c = '\r' then ['\\', 'r']
  else if c = '\t' then ['\\', 't']
  else if pyPrintable c then [c]
  else if c.toNat < 0x100 then '\\' :: 'x' :: hex2 c.toNat
  else if c.toNat < 0x10000 then '\\' :: 'u' :: hex4 c.toNat
  else '\\' :: 'U' :: hex8 c.toNat

/-- repr of a str: single-quoted, except double-quoted when the text
contains a single quote and no double quote. -/
def pyReprStr (s : String) : List Char :=
  let q : Char := if s.data.contains '\'' ∧ ¬s.data.contains '"' then '"' else '\''
  q :: (s.data.flatMap (reprEscapeChar q) ++ [q])

mutual

/-- Model of repr on the embedded values: None, True, False, decimal ints,
float and complex literals as stored, quoted strings, and the bracketed
container forms with comma-space separators (a one-element tuple gets its
trailing comma, the empty set prints as the set constructor call). -/
def pyReprVal : PyVal → List Char
  | .none => 'N' :: 'o' :: 'n' :: 'e' :: []
  | .bool true => 'T' :: 'r' :: 'u' :: 'e' :: []
  | .bool false => 'F' :: 'a' :: 'l' :: 's' :: 'e' :: []
  | .int n => intToChars n
  | .float lit => lit.data
  | .complex lit => '(' :: lit.data ++ [')']
  | .str s => pyReprStr s
  | .list xs => '[' :: pyReprItems xs ++ [']']
  | .tuple [] => '(' :: ')' :: []
  | .tuple [x] => '(' :: pyReprVal x ++ ',' :: ')' :: []
  | .tuple (x :: y :: xs) => '(' :: pyReprItems (x :: y :: xs) ++ [')']
  | .dict kvs => '{' :: pyReprMembers kvs ++ ['}']
  | .setv [] => 's' :: 'e' :: 't' :: '(' :: ')' :: []
  | .setv (x :: xs) => '{' :: pyReprItems (x :: xs) ++ ['}']

/-- Comma-space joined repr of the elements. -/
def pyReprItems : List PyVal → List Char
  | [] => []
  | [x] => pyReprVal x
  | x :: y :: xs => pyReprVal x ++ ',' :: ' ' :: pyReprItems (y :: xs)

/-- Comma-space joined repr of dict entries, key colon-space value. -/
def pyReprMembers : List (PyVal × PyVal) → List Char
  | [] => []
  | [(k, v)] => pyReprVal k ++ ':' :: ' ' :: pyReprVal v
  | (k, v) :: m :: kvs =>
      pyReprVal k ++ ':' :: ' ' :: pyReprVal v ++ ',' :: ' ' :: pyReprMembers (m :: kvs)

end

/-! ## Python literal parsing (model of ast.literal_eval on text)

The model composes the CPython expression parser, restricted to the
literal grammar that literal_eval accepts, with its _convert folding.
Forms that repr never emits and no claim exercises are omitted and
documented here: string prefixes (r, b, u, f) and implicit adjacent
concatenation beyond plain quotes, octal escapes, digit underscores,
hex/octal/binary integer literals, and the complex sum form such as
1+2j (a BinOp that _convert folds; the AST-level model below covers
it, and no claim exercises complex values). -/

/-- Whitespace skipped between literal tokens (newlines are legal inside
brackets; the model skips them uniformly, which accepts the same texts on
every input the claims exercise). -/
def skipPyWs : List Char → List Char
  | [] => []
  | c :: cs => if c = ' ' || c = '\t' || c = '\n' || c = '\r' then skipPyWs cs else c :: cs

/-- Body of a Python string literal up to the closing quote q: short
escapes, \xXX, \uXXXX and \UXXXXXXXX escapes, escaped newline
continuation, unknown escapes kept verbatim with their backslash, and a
bare newline rejected (unterminated literal).  Code points without a Lean
scalar value (lone surrogates) pass through Char.ofNat. -/
def pyParseStrBody (q : Char) : List Char → Option (List Char × List Char)
  | [] => Option.none
  | c :: cs =>
    if c = '\\' then
      match cs with
      | 'x' :: a :: b :: rest =>
          (match hexVal a, hexVal b with
           | some x, some y =>
               (pyParseStrBody q rest).map (fun p => (Char.ofNat (x * 16 + y) :: p.1, p.2))
           | _, _ => Option.none)
      | 'u' :: a :: b :: c2 :: d :: rest =>
          (match hex4Val a b c2 d with
           | some n => (pyParseStrBody q rest).map (fun p => (Char.ofNat n :: p.1, p.2))
           | Option.none => Option.none)
      | 'U' :: a :: b :: c2 :: d :: e :: f :: g :: h :: rest =>
          (match hex4Val a b c2 d, hex4Val e f g h with
           | some hi, some lo =>
               if hi * 65536 + lo ≤ 0x10FFFF then
                 (pyParseStrBody q rest).map
                   (fun p => (Char.ofNat (hi * 65536 + lo) :: p.1, p.2))
               else Option.none
           | _, _ => Option.none)
      | '\n' :: rest => pyParseStrBody q rest
      | e :: rest =>
          (match
            (if e = '\\' then some '\\'
             else if e = '\'' then some '\''
             else if e = '"' then some '"'
             else if e = 'n' then some '\n'
             else if e = 'r' then some '\r'
             else if e = 't' then some '\t'
             else if e = 'a' then some (Char.ofNat 7)
             else if e = 'b' then some (Char.ofNat 8)
             else if e = 'f' then some (Char.ofNat 12)
             else if e = 'v' then some (Char.ofNat 11)
             else Option.none) with
           | some d => (pyParseStrBody q rest).map (fun p => (d :: p.1, p.2))
           | Option.none =>
               (pyParseStrBody q rest).map (fun p => ('\\' :: e :: p.1, p.2)))
      | [] => Option.none
    else if c = q then some ([], cs)
    else if c = '\n' ∨ c = '\r' then Option.none
    else (pyParseStrBody q cs).map (fun p => (c :: p.1, p.2))

/-- Identifier-continuation test, for keyword boundaries. -/
def isIdentChar (c : Char) : Bool :=
  ('a' ≤ c && c ≤ 'z') || ('A' ≤ c && c ≤ 'Z') || isDigitChar c || c = '_'

/-- A Python numeric literal with at most one leading sign (literal_eval
folds a single unary plus or minus; a doubled sign is malformed): decimal
integer, float with optional fraction and exponent, or a complex literal
with the j suffix, kept symbolically. -/
def pyNumBody (sgn : List Char) (body : List Char) : Option (PyVal × List Char) :=
  let core : Option ((List Char × Bool) × List Char) :=
    match body with
    | c :: r =>
        if c = '.' then
          (match takeDigits r with
           | ([], _) => Option.none
           | (ds, r2) => some (('.' :: ds, true), r2))
        else
          (match takeDigits (c :: r) with
           | ([], _) => Option.none
           | (ds, r2) =>
             match r2 with
             | c2 :: r3 =>
                 if c2 = '.' then
                   let p := takeDigits r3
                   some ((ds ++ '.' :: p.1, true), p.2)
                 else some ((ds, false), r2)
             | [] => some ((ds, false), r2))
    | [] => Option.none
  match core with
  | Option.none => Option.none
  | some ((digits, isFloat), rest) =>
    let ex : List Char × List Char := jNumExp rest
    match ex.2 with
    | c2 :: r2 =>
        if c2 = 'j' ∨ c2 = 'J' then
          some (.complex (String.mk (sgn ++ digits ++ ex.1 ++ [c2])), r2)
        else if isFloat ∨ ex.1 ≠ [] then
          some (.float (String.mk (sgn ++ digits ++ ex.1)), c2 :: r2)
        else
          let v : Int := Int.ofNat (digitsToNat digits)
          some (.int (if sgn = ['-'] then -v else v), c2 :: r2)
    | [] =>
        if isFloat ∨ ex.1 ≠ [] then
          some (.float (String.mk (sgn ++ digits ++ ex.1)), ex.2)
        else
          let v : Int := Int.ofNat (digitsToNat digits)
          some (.int (if sgn = ['-'] then -v else v), ex.2)

def pyParseNumber (cs : List Char) : Option (PyVal × List Char) :=
  match cs with
  | c :: r => if c = '-' ∨ c = '+' then pyNumBody [c] (skipPyWs r) else pyNumBody [] (c :: r)
  | [] => Option.none

mutual

/-- One Python literal expression, by recursive descent with fuel:
strings (with implicit adjacent concatenation), numbers, the three
keyword constants with an identifier boundary, lists, parenthesised
expressions and tuples, dicts and sets (empty braces are a dict), each
container allowing a trailing comma. -/
def pyParseVal : Nat → List Char → Option (PyVal × List Char)
  | 0, _ => Option.none
  | fuel + 1, cs =>
    match skipPyWs cs with
    | '\'' :: rest => pyParseStrTail fuel '\'' rest []
    | '"' :: rest => pyParseStrTail fuel '"' rest []
    | '[' :: rest =>
        (match skipPyWs rest with
         | ']' :: r => some (.list [], r)
         | cs2 => (pyParseItems fuel ']' cs2).map (fun p => (.list p.1, p.2)))
    | '(' :: rest =>
        (match skipPyWs rest with
         | ')' :: r => some (.tuple [], r)
         | cs2 =>
           match pyParseVal fuel cs2 with
           | Option.none => Option.none
           | some (v, rest2) =>
             match skipPyWs rest2 with
             | ')' :: r => some (v, r)
             | ',' :: r =>
                 (match skipPyWs r with
                  | ')' :: r2 => some (.tuple [v], r2)
                  | cs3 => (pyParseItems fuel ')' cs3).map
                             (fun p => (.tuple (v :: p.1), p.2)))
             | _ => Option.none)
    | '{' :: rest =>
        (match skipPyWs rest with
         | '}' :: r => some (.dict [], r)
         | cs2 =>
           match pyParseVal fuel cs2 with
           | Option.none => Option.none
           | some (k, rest2) =>
             match skipPyWs rest2 with
             | ':' :: r =>
                 (match pyParseVal fuel (skipPyWs r) with
                  | Option.none => Option.none
                  | some (v, rest3) =>
                    match skipPyWs rest3 with
                    | '}' :: r2 => some (.dict (dictInsert [] k v), r2)
                    | ',' :: r2 =>
                        (match skipPyWs r2 with
                         | '}' :: r3 => some (.dict (dictInsert [] k v), r3)
                         | cs4 => (pyParseMembers fuel cs4 (dictInsert [] k v)).map
                                    (fun p => (.dict p.1, p.2)))
                    | _ => Option.none)
             | '}' :: r => some (.setv [k], r)
             | ',' :: r =>
                 (match skipPyWs r with
                  | '}' :: r2 => some (.setv [k], r2)
                  | cs3 => (pyParseItems fuel '}' cs3).map
                             (fun p => (.setv (k :: p.1), p.2)))
             | _ => Option.none)
    | 'N' :: 'o' :: 'n' :: 'e' :: rest =>
        (match rest with
         | c :: _ => if isIdentChar c then Option.none else some (.none, rest)
         | [] => some (.none, rest))
    | 'T' :: 'r' :: 'u' :: 'e' :: rest =>
        (match rest with
         | c :: _ => if isIdentChar c then Option.none else some (.bool true, rest)
         | [] => some (.bool true, rest))
    | 'F' :: 'a' :: 'l' :: 's' :: 'e' :: rest =>
        (match rest with
         | c :: _ => if isIdentChar c then Option.none else some (.bool false, rest)
         | [] => some (.bool false, rest))
    | 's' :: 'e' :: 't' :: rest =>
        (match skipPyWs rest with
         | '(' :: r =>
             (match skipPyWs r with
              | ')' :: r2 => some (.setv [], r2)
              | _ => Option.none)
         | _ => Option.none)
    | cs2 => pyParseNumber cs2

/-- A quoted string followed by any implicitly concatenated further
string literals (the acc holds the characters read so far). -/
def pyParseStrTail (fuel : Nat) (q : Char) (cs : List Char) (acc : List Char) :
    Option (PyVal × List Char) :=
  match fuel with
  | 0 => Option.none
  | fuel + 1 =>
    match pyParseStrBody q cs with
    | Option.none => Option.none
    | some (body, rest) =>
      match skipPyWs rest with
      | '\'' :: rest2 => pyParseStrTail fuel '\'' rest2 (acc ++ body)
      | '"' :: rest2 => pyParseStrTail fuel '"' rest2 (acc ++ body)
      | rest2 => some (.str (String.mk (acc ++ body)), rest2)

/-- Comma-separated expressions up to the closing bracket (one element at
least; a trailing comma is allowed). -/
def pyParseItems (fuel : Nat) (close : Char) (cs : List Char) :
    Option (List PyVal × List Char) :=
  match fuel with
  | 0 => Option.none
  | fuel + 1 =>
    match pyParseVal fuel cs with
    | Option.none => Option.none
    | some (v, rest) =>
      match skipPyWs rest with
      | c :: rest2 =>
        if c = close then some ([v], rest2)
        else if c = ',' then
          match skipPyWs rest2 with
          | c2 :: rest3 =>
            if c2 = close then some ([v], rest3)
            else
              (pyParseItems fuel close (c2 :: rest3)).map (fun p => (v :: p.1, p.2))
          | [] => Option.none
        else Option.none
      | [] => Option.none

/-- Comma-separated key colon value entries up to the closing brace (one
entry at least; a trailing comma is allowed).  Entries accumulate by
Python dict assignment, so a repeated key keeps its first position and
last value, as in a Python dict display. -/
def pyParseMembers (fuel : Nat) (cs : List Char) (acc : List (PyVal × PyVal)) :
    Option (List (PyVal × PyVal) × List Char) :=
  match fuel with
  | 0 => Option.none
  | fuel + 1 =>
    match pyParseVal fuel cs with
    | Option.none => Option.none
    | some (k, rest) =>
      match skipPyWs rest with
      | ':' :: rest2 =>
        (match pyParseVal fuel (skipPyWs rest2) with
         | Option.none => Option.none
         | some (v, rest3) =>
           match skipPyWs rest3 with
           | '}' :: r => some (dictInsert acc k v, r)
           | ',' :: r =>
               (match skipPyWs r with
                | '}' :: r2 => some (dictInsert acc k v, r2)
                | cs4 => pyParseMembers fuel cs4 (dictInsert acc k v))
           | _ => Option.none)
      | _ => Option.none

end

/-- Model of ast.literal_eval on text: parse one literal expression and
require only trailing whitespace after it; SyntaxError and the
ValueError for malformed nodes are both failures of the converter. -/
def pyLiteralEval (s : String) : Except PyErr PyVal :=
  match pyParseVal (s.data.length + 1) s.data with
  | some (v, rest) =>
      if skipPyWs rest = [] then .ok v
      else .error (.valueError "malformed node or string")
  | Option.none => .error (.valueError "malformed node or string")

namespace PyConverter

/-- PyConverter.deserialise: ast.literal_eval(s). -/
def deserialise (s : String) : Except PyErr PyVal := pyLiteralEval s

/-- PyConverter.serialise: repr(d). -/
def serialise (d : PyVal) : String := String.mk (pyReprVal d)

end PyConverter

/-! ## The AST-level model of ast.literal_eval

ast.literal_eval first parses the text into an expression AST (a pure
parse; no evaluation), then folds the AST with its internal _convert,
which raises ValueError("malformed node or string...") at every node that
is not one of the permitted literal forms.  The AST type below includes
the non-literal expression nodes (names, calls, operators, and a
constructor standing for every other expression kind), so that rejection
of non-literal programs is a provable property rather than one true by
construction. -/

/-- Unary operator kinds of the Python ast module. -/
inductive UnaryK where
  | uAdd
  | uSub
  | uNot
  | uInvert
deriving Repr, DecidableEq

/-- Binary operator kinds of the Python ast module (the ones _convert
inspects, and a constructor for all others). -/
inductive BinK where
  | add
  | sub
  | otherOp (desc : String)
deriving Repr, DecidableEq

/-- Python expression ASTs: the literal forms together with the
non-literal nodes literal_eval must reject.  Dict nodes keep their keys
and values zipped (the parser always produces equally long key and value
lists; the length-mismatch check of _convert is vacuous here).  The
otherNode constructor stands for every remaining expression kind
(lambdas, comprehensions, attributes, subscripts, ...). -/
inductive PyAst where
  | constant (v : PyVal)
  | tupleE (elts : List PyAst)
  | listE (elts : List PyAst)
  | setE (elts : List PyAst)
  | dictE (entries : List (PyAst × PyAst))
  | call (func : PyAst) (args : List PyAst) (numKeywords : Nat)
  | name (id : String)
  | binOp (op : BinK) (l r : PyAst)
  | unaryOp (op : UnaryK) (operand : PyAst)
  | otherNode (desc : String)
deriving Repr

/-- The malformed-node failure of _convert. -/
def malformedErr : PyErr := .valueError "malformed node or string"

/-- _convert_num: a Constant whose value is an int, float or complex
(bools are excluded: Python bool is a distinct type here). -/
def convertNum : PyAst → Except PyErr PyVal
  | .constant (.int n) => .ok (.int n)
  | .constant (.float lit) => .ok (.float lit)
  | .constant (.complex lit) => .ok (.complex lit)
  | _ => .error malformedErr

/-- Negation of a numeric value, symbolically on float and complex
literals (their numeric value is out of scope; no claim depends on it). -/
def pyNegNum : PyVal → PyVal
  | .int n => .int (-n)
  | .float lit => .float ("-" ++ lit)
  | .complex lit => .complex ("-" ++ lit)
  | v => v

/-- Is a value an int or a float (a real number for the BinOp test of
_convert)? -/
def isRealVal : PyVal → Bool
  | .int _ => true
  | .float _ => true
  | _ => false

/-- _convert_signed_num: an optional single unary plus or minus applied
to a numeric Constant, else _convert_num directly. -/
def convertSignedNum : PyAst → Except PyErr PyVal
  | .unaryOp .uAdd operand => convertNum operand
  | .unaryOp .uSub operand => (convertNum operand).map pyNegNum
  | a => convertNum a

/-- The test of _convert for the bare call set(): a Call whose func is
the Name set and whose args and keywords are both empty. -/
def isEmptySetCall (f : PyAst) (args : List PyAst) (kws : Nat) : Bool :=
  match f with
  | .name id => id = "set" && args.isEmpty && kws == 0
  | _ => false

mutual

/-- _convert, the recursive folding of literal_eval: Constants pass
through; tuple, list, set and dict displays fold their elements; the call
set() with no arguments is the empty set; an Add or Sub BinOp whose left
side is a signed number and whose right side is a complex constant folds
to a complex value (kept symbolically); everything else falls through to
_convert_signed_num and hence raises ValueError on every non-literal
node. -/
def astConvert : PyAst → Except PyErr PyVal
  | .constant v => .ok v
  | .tupleE elts => (astConvertList elts).map PyVal.tuple
  | .listE elts => (astConvertList elts).map PyVal.list
  | .setE elts => (astConvertList elts).map PyVal.setv
  | .call f args kws =>
      if isEmptySetCall f args kws then .ok (.setv [])
      else convertSignedNum (.call f args kws)
  | .dictE entries => (astConvertKvs entries).map PyVal.dict
  | .binOp .add l r => do
      let lv ← convertSignedNum l
      let rv ← convertNum r
      match lv, rv with
      | .int _, .complex cr => .ok (.complex (String.mk (pyReprVal lv) ++ "+" ++ cr))
      | .float _, .complex cr => .ok (.complex (String.mk (pyReprVal lv) ++ "+" ++ cr))
      | _, _ => .error malformedErr
  | .binOp .sub l r => do
      let lv ← convertSignedNum l
      let rv ← convertNum r
      match lv, rv with
      | .int _, .complex cr => .ok (.complex (String.mk (pyReprVal lv) ++ "-" ++ cr))
      | .float _, .complex cr => .ok (.complex (String.mk (pyReprVal lv) ++ "-" ++ cr))
      | _, _ => .error malformedErr
  | a => convertSignedNum a

/-- _convert over element lists. -/
def astConvertList : List PyAst → Except PyErr (List PyVal)
  | [] => .ok []
  | a :: as => do
      let v ← astConvert a
      let vs ← astConvertList as
      pure (v :: vs)

/-- _convert over dict entries. -/
def astConvertKvs : List (PyAst × PyAst) → Except PyErr (List (PyVal × PyVal))
  | [] => .ok []
  | (k, v) :: es => do
      let kv ← astConvert k
      let vv ← astConvert v
      let rest ← astConvertKvs es
      pure ((kv, vv) :: rest)

end

/-- Is an AST node a numeric constant (int, float or complex)? -/
def isNumConst : PyAst → Bool
  | .constant (.int _) => true
  | .constant (.float _) => true
  | .constant (.complex _) => true
  | _ => false

/-- Is an AST node a numeric constant under at most one unary sign? -/
def isSignedNumAst : PyAst → Bool
  | .unaryOp .uAdd operand => isNumConst operand
  | .unaryOp .uSub operand => isNumConst operand
  | a => isNumConst a

/-- Is an AST a signed int or float constant (not complex)? -/
def isSignedRealAst : PyAst → Bool
  | .unaryOp .uAdd (.constant (.int _)) => true
  | .unaryOp .uAdd (.constant (.float _)) => true
  | .unaryOp .uSub (.constant (.int _)) => true
  | .unaryOp .uSub (.constant (.float _)) => true
  | .constant (.int _) => true
  | .constant (.float _) => true
  | _ => false

mutual

/-- The literal expressions: constants; tuple, list, set and dict
displays of literal expressions; the bare call set(); a single unary
plus or minus on a numeric constant; and a sum or difference of a signed
real constant and a complex constant.  Names, other calls, and every
other expression form are not literal. -/
def isLiteralAst : PyAst → Bool
  | .constant _ => true
  | .tupleE elts => isLiteralList elts
  | .listE elts => isLiteralList elts
  | .setE elts => isLiteralList elts
  | .call f args kws => isEmptySetCall f args kws
  | .dictE entries => isLiteralKvs entries
  | .binOp .add l r => isSignedRealAst l && (match r with | .constant (.complex _) => true | _ => false)
  | .binOp .sub l r => isSignedRealAst l && (match r with | .constant (.complex _) => true | _ => false)
  | .binOp (.otherOp _) _ _ => false
  | .unaryOp .uAdd operand => isNumConst operand
  | .unaryOp .uSub operand => isNumConst operand
  | .unaryOp .uNot _ => false
  | .unaryOp .uInvert _ => false
  | .name _ => false
  | .otherNode _ => false

/-- Literal test over element lists. -/
def isLiteralList : List PyAst → Bool
  | [] => true
  | a :: as => isLiteralAst a && isLiteralList as

/-- Literal test over dict entries. -/
def isLiteralKvs : List (PyAst × PyAst) → Bool
  | [] => true
  | (k, v) :: es => isLiteralAst k && isLiteralAst v && isLiteralKvs es

end

/-! ## CSV (model of str.splitlines, csv.reader, csv.DictReader and
csv.DictWriter with the excel dialect: delimiter comma, quotechar double
quote, doublequote on, no escapechar, QUOTE_MINIMAL, lineterminator
CRLF, non-strict) -/

/-- The line-boundary characters of str.splitlines. -/
def isLineBoundary (c : Char) : Bool :=
  c = '\n' || c = '\r' || c.toNat = 0x0B || c.toNat = 0x0C ||
  c.toNat = 0x1C || c.toNat = 0x1D || c.toNat = 0x1E || c.toNat = 0x85 ||
  c.toNat = 0x2028 || c.toNat = 0x2029

/-- Worker for str.splitlines: boundaries are dropped, CRLF counts as one
boundary, and a trailing boundary yields no empty final line. -/
def pySplitlinesAux : List Char → List Char → List String
  | [], acc => if acc = [] then [] else [String.mk acc.reverse]
  | '\r' :: '\n' :: rest, acc => String.mk acc.reverse :: pySplitlinesAux rest []
  | c :: rest, acc =>
      if isLineBoundary c then String.mk acc.reverse :: pySplitlinesAux rest []
      else pySplitlinesAux rest (c :: acc)

/-- Model of str.splitlines (without keepends), as CsvConverter feeds it
to csv.reader: the line terminators are removed, so the reader never sees
them. -/
def pySplitlines (s : String) : List String :=
  pySplitlinesAux s.data []

/-- The parser states of the C csv reader. -/
inductive RState where
  | startRecord
  | startField
  | inField
  | inQuotedField
  | quoteInQuotedField
  | eatCrnl
deriving Repr, DecidableEq

/-- The mutable reader state: parser state, fields of the record so far,
characters of the field so far. -/
structure RdState where
  st : RState
  fields : List String
  field : List Char
deriving Repr

/-- parse_save_field: close the pending field. -/
def rdSave (m : RdState) : RdState :=
  { m with fields := m.fields ++ [String.mk m.field], field := [] }

/-- One character of one input chunk, per the C parse_process_char with
the excel dialect (non-strict, doublequote, no escapechar): field
delimiters and quotes drive the state machine; a carriage return or
newline inside a chunk ends the record into the newline-eating state,
and any further character there is the reader error (with splitlines
input the chunks contain no such characters). -/
def rdStep (m : RdState) (c : Char) : Except PyErr RdState :=
  match m.st with
  | .startRecord =>
      if c = '\n' ∨ c = '\r' then .ok { m with st := .eatCrnl }
      else if c = '"' then .ok { m with st := .inQuotedField }
      else if c = ',' then .ok { (rdSave m) with st := .startField }
      else .ok { m with st := .inField, field := m.field ++ [c] }
  | .startField =>
      if c = '\n' ∨ c = '\r' then .ok { (rdSave m) with st := .eatCrnl }
      else if c = '"' then .ok { m with st := .inQuotedField }
      else if c = ',' then .ok { (rdSave m) with st := .startField }
      else .ok { m with st := .inField, field := m.field ++ [c] }
  | .inField =>
      if c = '\n' ∨ c = '\r' then .ok { (rdSave m) with st := .eatCrnl }
      else if c = ',' then .ok { (rdSave m) with st := .startField }
      else .ok { m with field := m.field ++ [c] }
  | .inQuotedField =>
      if c = '"' then .ok { m with st := .quoteInQuotedField }
      else .ok { m with field := m.field ++ [c] }
  | .quoteInQuotedField =>
      if c = '"' then .ok { m with st := .inQuotedField, field := m.field ++ [c] }
      else if c = ',' then .ok { (rdSave m) with st := .startField }
      else if c = '\n' ∨ c = '\r' then .ok { (rdSave m) with st := .eatCrnl }
      else .ok { m with st := .inField, field := m.field ++ [c] }
  | .eatCrnl =>
      if c = '\n' ∨ c = '\r' then .ok m
      else .error (.exc "new-line character seen in unquoted field")

/-- End of one input chunk (the EOL marker of the C reader): a record is
produced unless the chunk ends inside a quoted field, in which case the
reader keeps its state and continues with the next chunk; note that no
newline character is added to the pending field, which is how an embedded
newline inside a quoted field disappears when the input went through
splitlines. -/
def rdEol (m : RdState) : Option (List String) × RdState :=
  match m.st with
  | .startRecord => (some m.fields, { st := .startRecord, fields := [], field := [] })
  | .startField =>
      let m2 := rdSave m
      (some m2.fields, { st := .startRecord, fields := [], field := [] })
  | .inField =>
      let m2 := rdSave m
      (some m2.fields, { st := .startRecord, fields := [], field := [] })
  | .inQuotedField => (Option.none, m)
  | .quoteInQuotedField =>
      let m2 := rdSave m
      (some m2.fields, { st := .startRecord, fields := [], field := [] })
  | .eatCrnl => (some m.fields, { st := .startRecord, fields := [], field := [] })

/-- Fold the reader over the characters of one chunk. -/
def rdChunk (m : RdState) : List Char → Except PyErr RdState
  | [] => .ok m
  | c :: cs => do
      let m2 ← rdStep m c
      rdChunk m2 cs

/-- All records of csv.reader over a list of chunks: each chunk is
processed and closed with the end-of-line marker; at end of input a
pending field or an open quoted field is flushed as a final record. -/
def csvReadRows (chunks : List String) (m : RdState) : Except PyErr (List (List String)) :=
  match chunks with
  | [] =>
      if m.field ≠ [] ∨ m.st = .inQuotedField then
        .ok [(rdSave m).fields]
      else .ok []
  | ch :: rest => do
      let m2 ← rdChunk m ch.data
      match rdEol m2 with
      | (some row, m3) => do
          let rows ← csvReadRows rest m3
          pure (row :: rows)
      | (Option.none, m3) => csvReadRows rest m3

/-- One row of csv.DictReader with the default restkey and restval, both
None: the fields are zipped with the header (the zip stops at the
shorter), surplus row values go under the None key as a list, and
missing header fields are filled with None. -/
def dictReaderRow (fieldnames : List String) (row : List String) : PyVal :=
  let lf := fieldnames.length
  let lr := row.length
  let base := (List.zip fieldnames row).foldl
    (fun d p => dictInsert d (.str p.1) (.str p.2)) []
  let d2 :=
    if lf < lr then dictInsert base .none (.list ((row.drop lf).map PyVal.str))
    else if lf > lr then (fieldnames.drop lr).foldl
      (fun d k => dictInsert d (.str k) .none) base
    else base
  .dict d2

namespace CsvConverter

/-- CsvConverter.deserialise: list(csv.DictReader(s.splitlines())) — the
first record is the header, empty records among the data are skipped,
and each remaining record becomes a dict keyed by the header. -/
def deserialise (s : String) : Except PyErr PyVal := do
  let rows ← csvReadRows (pySplitlines s) { st := .startRecord, fields := [], field := [] }
  match rows with
  | [] => pure (.list [])
  | header :: rest =>
      pure (.list ((rest.filter (fun r => r ≠ [])).map (dictReaderRow header)))

end CsvConverter

/-- Model of str(v) for the values the csv writer can meet: a str is
itself, every other value prints as its repr (which coincides with str
for the types here). -/
def pyStr : PyVal → String
  | .str s => s
  | v => String.mk (pyReprVal v)

/-- One output field of csv.writer under QUOTE_MINIMAL: None becomes the
empty text, other values their str; the field is quoted when it contains
the delimiter, the quote character or a line-terminator character, or
when it is the single empty field of its record (so that the record is
not an empty line); quoting doubles embedded quote characters. -/
def csvFieldChars (numFields : Nat) (v : PyVal) : List Char :=
  let raw : List Char :=
    match v with
    | .none => []
    | _ => (pyStr v).data
  let needQuote :=
    raw.any (fun c => c = ',' ∨ c = '"' ∨ c = '\r' ∨ c = '\n') ∨
    (numFields = 1 ∧ raw = [])
  if needQuote then
    '"' :: (raw.flatMap (fun c => if c = '"' then ['"', '"'] else [c]) ++ ['"'])
  else raw

/-- One record of csv.writer output: comma-joined fields and the CRLF
terminator. -/
def csvWriteRecord (vals : List PyVal) : List Char :=
  match vals with
  | [] => ['\r', '\n']
  | [v] => csvFieldChars 1 v ++ ['\r', '\n']
  | v :: w :: rest =>
      csvFieldChars (vals.length) v ++ ',' ::
        (List.intercalate [','] ((w :: rest).map (csvFieldChars vals.length))) ++ ['\r', '\n']

/-- DictWriter._dict_to_list with extrasaction raise and restval the
empty string: a row key absent from the fieldnames raises ValueError;
the values are read off in fieldname order with the empty string for a
missing key. -/
def dictToList (fieldnames : List PyVal) (rowdict : List (PyVal × PyVal)) :
    Except PyErr (List PyVal) :=
  let wrong := (rowdict.map (fun p => p.1)).filter (fun k => ¬ pyMem k fieldnames)
  if ¬ wrong.isEmpty then
    .error (.valueError ("dict contains fields not in fieldnames: " ++
      String.intercalate ", " (wrong.map (fun k => String.mk (pyReprVal k)))))
  else
    .ok (fieldnames.map (fun k => (dictGet rowdict k).getD (.str "")))

/-- DictWriter.writerows over the records: each row must have the dict
interface and conforming keys; the text of all records accumulates. -/
def csvWriteRows (fieldnames : List PyVal) (rowdicts : List PyVal) :
    Except PyErr (List Char) :=
  match rowdicts with
  | [] => .ok []
  | r :: rest => do
      let kvs ← (match r with
                 | .dict kvs => Except.ok kvs
                 | _ => Except.error (PyErr.attributeError "object has no attribute keys"))
      let vals ← dictToList fieldnames kvs
      let restChars ← csvWriteRows fieldnames rest
      pure (csvWriteRecord vals ++ restChars)

/-- The header row and all data rows, given the first row (whose keys, in
insertion order, are the fieldnames) and every row. -/
def csvSerialiseRows (r0 : PyVal) (rows : List PyVal) : Except PyErr String :=
  match r0 with
  | .dict kvs0 =>
      let fieldnames := kvs0.map (fun p => p.1)
      do
        let body ← csvWriteRows fieldnames rows
        pure (String.mk (csvWriteRecord fieldnames ++ body))
  | _ => .error (.attributeError "object has no attribute keys")

namespace CsvConverter

/-- CsvConverter.serialise: csv.DictWriter(output, fieldnames=d[0].keys())
then writeheader() and writerows(d).  An empty list raises IndexError at
d[0]; a non-list input fails at its first failing operation (subscript,
keys, or iteration), with the error kind of the Python exception. -/
def serialise (d : PyVal) : Except PyErr String :=
  match d with
  | .list [] => .error (.indexError "list index out of range")
  | .tuple [] => .error (.indexError "tuple index out of range")
  | .list (r0 :: rest) => csvSerialiseRows r0 (r0 :: rest)
  | .tuple (r0 :: rest) => csvSerialiseRows r0 (r0 :: rest)
  | .dict kvs =>
      (match dictGet kvs (.int 0) with
       | Option.none => .error (.keyError "0")
       | some v => csvSerialiseRows v (kvs.map (fun p => p.1)))
  | .str s =>
      (match s.data with
       | [] => .error (.indexError "string index out of range")
       | c :: _ =>
           csvSerialiseRows (.str (String.mk [c]))
             (s.data.map (fun ch => .str (String.mk [ch]))))
  | _ => .error (.typeError "object is not subscriptable")

end CsvConverter

namespace YamlConverter

/-- YamlConverter.deserialise executes raise NotImplemented; NotImplemented
is not an exception in Python 3, so the statement itself raises
TypeError("exceptions must derive from BaseException"). -/
def deserialise (_ : String) : Except PyErr PyVal :=
  .error (.typeError "exceptions must derive from BaseException")

/-- YamlConverter.serialise, likewise raise NotImplemented. -/
def serialise (_ : PyVal) : Except PyErr String :=
  .error (.typeError "exceptions must derive from BaseException")

end YamlConverter

namespace BaseConverter

/-- BaseConverter.deserialise returns the empty dict regardless of input. -/
def deserialise (_ : String) : Except PyErr PyVal := .ok (.dict [])

/-- BaseConverter.serialise returns the empty string regardless of input. -/
def serialise (_ : PyVal) : Except PyErr String := .ok ""

end BaseConverter

/-! ## The conversion orchestrator (ConvertInput.do_conversion) -/

/-- The file system the orchestrator reads and writes: contents by path. -/
def Fs := String → Option String

/-- Writing a file replaces its contents wholly. -/
def fsWrite (fs : Fs) (p content : String) : Fs :=
  fun q => if q = p then some content else fs q

/-- deserialise of the class the registry resolved. -/
def deserialiseOf : ConverterKind → String → Except PyErr PyVal
  | .pyConv, s => PyConverter.deserialise s
  | .csvConv, s => CsvConverter.deserialise s
  | .jsonConv, s => JsonConverter.deserialise s
  | .yamlConv, s => YamlConverter.deserialise s

/-- serialise of the class the registry resolved. -/
def serialiseOf : ConverterKind → PyVal → Except PyErr String
  | .pyConv, d => .ok (PyConverter.serialise d)
  | .csvConv, d => CsvConverter.serialise d
  | .jsonConv, d => JsonConverter.serialise d
  | .yamlConv, d => YamlConverter.serialise d

/-- ConvertInput.do_conversion, with the file system passed explicitly: in
source order, resolve the input handler, resolve the output handler, read
the input file (IOError when absent), deserialise, serialise, and only
then open the output file for writing and write the whole text.  A raise
anywhere propagates with the file system untouched, so the pair holds the
outcome and the file system after the call. -/
def do_conversion (fs : Fs) (input_file output_file : String) :
    Except PyErr PyVal × Fs :=
  match get_converter input_file with
  | .error e => (.error e, fs)
  | .ok cin =>
    match get_converter output_file with
    | .error e => (.error e, fs)
    | .ok cout =>
      match fs input_file with
      | Option.none =>
          (.error (.ioError ("No such file or directory: " ++ input_file)), fs)
      | some input_string =>
        match deserialiseOf cin input_string with
        | .error e => (.error e, fs)
        | .ok data =>
          match serialiseOf cout data with
          | .error e => (.error e, fs)
          | .ok output_string => (.ok data, fsWrite fs output_file output_string)

/-! ## The Record domain of the round-trip claims and fuel bookkeeping -/

/-- Does the string s occur among the (string) keys of the entries? -/
def keyOccurs (s : String) : List (PyVal × PyVal) → Bool
  | [] => false
  | (k, _) :: rest =>
      (match k with | .str t => t = s | _ => false) || keyOccurs s rest

mutual

/-- The values the round-trip claims range over — the Record model and
the literal-compatible values shared by the JSON and Python-literal
formats: None, bools, unbounded ints, text, lists of such values, and
string-keyed dicts with pairwise distinct keys (a Python dict cannot
hold two equal keys).  Floats are excluded: shortest-round-trip float
printing is IEEE behaviour outside this embedding. -/
def goodVal : PyVal → Bool
  | .none => true
  | .bool _ => true
  | .int _ => true
  | .str _ => true
  | .list xs => goodValList xs
  | .dict kvs => goodValKvs kvs
  | _ => false

/-- goodVal over list elements. -/
def goodValList : List PyVal → Bool
  | [] => true
  | x :: xs => goodVal x && goodValList xs

/-- goodVal over dict entries: every key a string that does not recur
later, every value good. -/
def goodValKvs : List (PyVal × PyVal) → Bool
  | [] => true
  | (k, v) :: rest =>
      (match k with
       | .str s => !keyOccurs s rest
       | _ => false) && goodVal v && goodValKvs rest

end

/-- No key of the entries occurs in the accumulator. -/
def keysDisjoint (acc : List (PyVal × PyVal)) (kvs : List (PyVal × PyVal)) : Bool :=
  kvs.all (fun p => match p.1 with | .str s => !keyOccurs s acc | _ => true)

/-- The characters that may legally follow a JSON number in dumps
output: end of input, a separator comma, or a closing bracket. -/
def jStop (rest : List Char) : Prop :=
  match rest with
  | [] => True
  | c :: _ => c = ',' ∨ c = ']' ∨ c = '}'

/-- The characters that may legally follow a number in repr output. -/
def pyStop (rest : List Char) : Prop :=
  match rest with
  | [] => True
  | c :: _ => c = ',' ∨ c = ']' ∨ c = '}' ∨ c = ')' ∨ c = ':'

mutual

/-- Fuel needed by the JSON parser on the dumps output of a value (one
unit per parser frame; always at most the output length). -/
def jNodes : PyVal → Nat
  | .list xs => 1 + jNodesList xs
  | .dict kvs => 1 + jNodesKvs kvs
  | _ => 1

/-- Fuel for the items of an array. -/
def jNodesList : List PyVal → Nat
  | [] => 0
  | x :: xs => 1 + jNodes x + jNodesList xs

/-- Fuel for the members of an object. -/
def jNodesKvs : List (PyVal × PyVal) → Nat
  | [] => 0
  | (_, v) :: rest => 1 + jNodes v + jNodesKvs rest

end

mutual

/-- Fuel needed by the literal parser on the repr output of a value. -/
def pNodes : PyVal → Nat
  | .str _ => 2
  | .list xs => 1 + pNodesList xs
  | .dict kvs => 1 + pNodesKvs kvs
  | _ => 1

/-- Fuel for the elements of a list display. -/
def pNodesList : List PyVal → Nat
  | [] => 0
  | x :: xs => 1 + pNodes x + pNodesList xs

/-- Fuel for the entries of a dict display. -/
def pNodesKvs : List (PyVal × PyVal) → Nat
  | [] => 0
  | (k, v) :: rest => 1 + pNodes k + pNodes v + pNodesKvs rest

end

/-! ## Spec-side extraction rules (for comparison with the code) -/

/-- The extraction rule in the words of the claim: the substring from the
last dot of the filename to the end, dot included, and the empty string
when the filename has no dot. -/
def specLastDotExt (filename : String) : String :=
  let cs := filename.data
  let d := lastIdxAfter cs '.'
  if d = 0 then "" else String.mk (cs.drop (d - 1))

/-- The amended extraction rule in words: within the final path component
(after the last slash), the substring from its last dot to the end,
provided some character of the component before that dot is not itself a
dot; otherwise the empty string. -/
def specSplitextExt (filename : String) : String :=
  let base := filename.data.drop (lastIdxAfter filename.data '/')
  let d := lastIdxAfter base '.'
  if d = 0 then ""
  else if (base.take (d - 1)).all (fun c => c = '.') then ""
  else String.mk (base.drop (d - 1))

/-! ## Theorems -/

/-- C6: the CSV text "name,age\r\nJoe,21\r\n" deserialises to the
single-row Record [{name: "Joe", age: "21"}], and serialising that Record
returns exactly the same text, CRLF terminators included. -/
theorem csv_literal_example :
    CsvConverter.deserialise "name,age\r\nJoe,21\r\n" =
      .ok (.list [.dict [(.str "name", .str "Joe"), (.str "age", .str "21")]]) ∧
    CsvConverter.serialise
        (.list [.dict [(.str "name", .str "Joe"), (.str "age", .str "21")]]) =
      .ok "name,age\r\nJoe,21\r\n" :=
  ⟨rfl, rfl⟩

/-- C7: a quoted field with an embedded CRLF is not preserved by
CsvConverter.deserialise.  The writer does produce the standard quoted
form (second conjunct), but deserialise feeds csv.reader from
str.splitlines, which strips the terminators, and the reader resumes the
quoted field on the next chunk without restoring any newline: the field
comes back as "xy" instead of "x\r\ny".  This contradicts the claim that
quoted embedded newlines reach the Record unchanged. -/
theorem csv_quoted_newline_mangled :
    CsvConverter.serialise (.list [.dict [(.str "a", .str "x\r\ny")]]) =
      .ok "a\r\n\"x\r\ny\"\r\n" ∧
    CsvConverter.deserialise "a\r\n\"x\r\ny\"\r\n" =
      .ok (.list [.dict [(.str "a", .str "xy")]]) ∧
    CsvConverter.deserialise "a\r\n\"x\ny\"\r\n" =
      .ok (.list [.dict [(.str "a", .str "xy")]]) :=
  ⟨rfl, rfl, rfl⟩

/-- C9 counterexample: the registry contains no .yaml entry, so a .yaml
filename does not resolve to a handler; get_converter raises instead, and
likewise for .yml. -/
theorem yaml_extension_not_resolvable :
    get_converter "data.yaml" = .error (.exc "Unrecognised file type: data.yaml") ∧
    get_converter "data.yml" = .error (.exc "Unrecognised file type: data.yml") :=
  ⟨rfl, rfl⟩

/-- C9 amended: .yaml and .yml are absent from converter_type_map, so
resolution fails for them with the unsupported-file-type error; the
YamlConverter class exists but is unregistered, and calling its
deserialise or serialise raises — via raise NotImplemented, which in
Python 3 is itself a TypeError (exceptions must derive from
BaseException), not a distinct NotImplemented error. -/
theorem yaml_unregistered_and_unimplemented :
    (".yaml" ∉ get_supported_extensions ∧ ".yml" ∉ get_supported_extensions) ∧
    get_converter "data.yaml" = .error (.exc "Unrecognised file type: data.yaml") ∧
    get_converter "data.yml" = .error (.exc "Unrecognised file type: data.yml") ∧
    (∀ s, YamlConverter.deserialise s =
      .error (.typeError "exceptions must derive from BaseException")) ∧
    (∀ d, YamlConverter.serialise d =
      .error (.typeError "exceptions must derive from BaseException")) :=
  ⟨by decide, rfl, rfl, fun _ => rfl, fun _ => rfl⟩

/-- C10: JsonConverter.deserialise returns whatever json.loads parses,
with no validation that it is an array of objects: a bare number or a
bare string round through unchanged, and do_conversion hands the value
straight to the output serialiser — converting a file holding the JSON
text 3 to the Python-literal format writes the text 3. -/
theorem json_deserialise_no_shape_validation :
    JsonConverter.deserialise "3" = .ok (.int 3) ∧
    JsonConverter.deserialise "\"hi\"" = .ok (.str "hi") ∧
    (do_conversion (fun p => if p = "in.json" then some "3" else Option.none)
        "in.json" "out.py").1 = .ok (.int 3) ∧
    (do_conversion (fun p => if p = "in.json" then some "3" else Option.none)
        "in.json" "out.py").2 "out.py" = some "3" :=
  ⟨rfl, rfl, rfl, rfl⟩

/-- Bind of an ok value in Except computes. -/
theorem except_ok_bind {e a b : Type} (x : a) (f : a → Except e b) :
    ((Except.ok x : Except e a) >>= f) = f x := rfl

/-- Bind of an error in Except propagates the error. -/
theorem except_error_bind {e a b : Type} (err : e) (f : a → Except e b) :
    ((Except.error err : Except e a) >>= f) = Except.error err := rfl

/-- Map over an ok value in Except computes. -/
theorem except_map_ok {e a b : Type} (g : a → b) (x : a) :
    (g <$> (Except.ok x : Except e a)) = Except.ok (g x) := rfl

/-- Map over an error in Except propagates the error. -/
theorem except_map_error {e a b : Type} (g : a → b) (err : e) :
    (g <$> (Except.error err : Except e a)) = (Except.error err : Except e b) := rfl

/-- DictWriter._dict_to_list either succeeds or raises ValueError. -/
theorem dictToList_ok_or_valueError (fieldnames : List PyVal) (rowdict : List (PyVal × PyVal)) :
    (∃ vals, dictToList fieldnames rowdict = .ok vals) ∨
    (∃ msg, dictToList fieldnames rowdict = .error (.valueError msg)) := by
  by_cases hc : ((rowdict.map (fun p => p.1)).filter (fun k => ¬ pyMem k fieldnames)).isEmpty
  · have hgoal : dictToList fieldnames rowdict =
        .ok (fieldnames.map (fun k => (dictGet rowdict k).getD (PyVal.str ""))) := by
      simp only [dictToList]
      rw [if_neg (not_not_intro hc)]
    exact Or.inl ⟨_, hgoal⟩
  · have hgoal : dictToList fieldnames rowdict =
        .error (.valueError ("dict contains fields not in fieldnames: " ++
          String.intercalate ", " (((rowdict.map (fun p => p.1)).filter
            (fun k => ¬ pyMem k fieldnames)).map (fun k => String.mk (pyReprVal k))))) := by
      simp only [dictToList]
      rw [if_pos hc]
    exact Or.inr ⟨_, hgoal⟩

/-- A row key absent from the fieldnames makes DictWriter._dict_to_list
raise ValueError. -/
theorem dictToList_extra_key (fieldnames : List PyVal) (rowdict : List (PyVal × PyVal))
    (k : PyVal) (hk : k ∈ rowdict.map (fun p => p.1)) (hnm : pyMem k fieldnames = false) :
    ∃ msg, dictToList fieldnames rowdict = .error (.valueError msg) := by
  have hmem : k ∈ (rowdict.map (fun p => p.1)).filter (fun k => ¬ pyMem k fieldnames) :=
    List.mem_filter.mpr ⟨hk, by simp [hnm]⟩
  have hne : ((rowdict.map (fun p => p.1)).filter (fun k => ¬ pyMem k fieldnames)).isEmpty = false := by
    cases hcase : ((rowdict.map (fun p => p.1)).filter (fun k => ¬ pyMem k fieldnames)) with
    | nil => rw [hcase] at hmem; simp at hmem
    | cons a l => simp [hcase]
  have hgoal : dictToList fieldnames rowdict =
      .error (.valueError ("dict contains fields not in fieldnames: " ++
        String.intercalate ", " (((rowdict.map (fun p => p.1)).filter
          (fun k => ¬ pyMem k fieldnames)).map (fun k => String.mk (pyReprVal k))))) := by
    simp only [dictToList]
    rw [if_pos (by rw [hne]; decide)]
  exact ⟨_, hgoal⟩

/-- If every row is a dict and some row holds a key outside the
fieldnames, DictWriter.writerows raises ValueError. -/
theorem csvWriteRows_extra_key (fieldnames : List PyVal) (rows : List PyVal)
    (hall : ∀ r ∈ rows, ∃ kvs, r = PyVal.dict kvs)
    (hbad : ∃ kvs k, PyVal.dict kvs ∈ rows ∧ k ∈ kvs.map (fun p => p.1) ∧
      pyMem k fieldnames = false) :
    ∃ msg, csvWriteRows fieldnames rows = .error (.valueError msg) := by
  induction rows with
  | nil =>
    obtain ⟨kvs, k, hmem, _, _⟩ := hbad
    simp at hmem
  | cons r rest ih =>
    obtain ⟨kvs, hr⟩ := hall r (List.mem_cons_self r rest)
    subst hr
    obtain ⟨kvs1, k, hmem, hk, hnm⟩ := hbad
    rcases List.mem_cons.mp hmem with hhead | htail
    · injection hhead with h
      subst h
      obtain ⟨msg, hmsg⟩ := dictToList_extra_key fieldnames kvs1 k hk hnm
      exact ⟨msg, by simp [csvWriteRows, except_ok_bind, except_error_bind, except_map_error, hmsg]⟩
    · rcases dictToList_ok_or_valueError fieldnames kvs with ⟨vals, hok⟩ | ⟨msg, herr⟩
      · obtain ⟨msg, hmsg⟩ := ih (fun r hr => hall r (List.mem_cons_of_mem _ hr))
          ⟨kvs1, k, htail, hk, hnm⟩
        exact ⟨msg, by simp [csvWriteRows, except_ok_bind, except_error_bind, except_map_error, hok, hmsg]⟩
      · exact ⟨msg, by simp [csvWriteRows, except_ok_bind, except_error_bind, except_map_error, herr]⟩

/-- C3 counterexample: a Record whose second row is missing a key of the
header serialises successfully — the missing value is silently written as
the empty string — so CSV serialise does not fail whenever a row's key
set differs from the first row's. -/
theorem csv_mismatched_keys_serialise_ok :
    CsvConverter.serialise
        (.list [.dict [(.str "a", .str "1"), (.str "b", .str "2")],
                .dict [(.str "a", .str "3")]]) =
      .ok "a,b\r\n1,2\r\n3,\r\n" := rfl

/-- C3 amended: CSV serialise fails on the empty Record — with IndexError
at d[0], there is no EncodeError type in the code — and fails with
ValueError when some row contains a key that is not among the first
row's keys; but a row lacking some of the header's keys does not fail:
its missing values are written as empty strings (csv restval), as the
third conjunct shows on a concrete Record. -/
theorem csv_serialise_failure_modes :
    (CsvConverter.serialise (.list []) = .error (.indexError "list index out of range")) ∧
    (∀ kvs0 rest, (∀ r ∈ rest, ∃ kvs, r = PyVal.dict kvs) →
      (∃ kvs k, PyVal.dict kvs ∈ rest ∧ k ∈ kvs.map (fun p => p.1) ∧
        pyMem k (kvs0.map (fun p => p.1)) = false) →
      ∃ msg, CsvConverter.serialise (.list (.dict kvs0 :: rest)) =
        .error (.valueError msg)) ∧
    (CsvConverter.serialise
        (.list [.dict [(.str "a", .str "1"), (.str "b", .str "2")], .dict [(.str "a", .str "3")]]) =
      .ok "a,b\r\n1,2\r\n3,\r\n") := by
  refine ⟨rfl, ?_, rfl⟩
  intro kvs0 rest hall hbad
  have hall2 : ∀ r ∈ (PyVal.dict kvs0 :: rest), ∃ kvs, r = PyVal.dict kvs := by
    intro r hr
    rcases List.mem_cons.mp hr with h | h
    · exact ⟨kvs0, h⟩
    · exact hall r h
  obtain ⟨kvs, k, hmem, hk, hnm⟩ := hbad
  obtain ⟨msg, hmsg⟩ := csvWriteRows_extra_key (kvs0.map (fun p => p.1)) (PyVal.dict kvs0 :: rest)
    hall2 ⟨kvs, k, List.mem_cons_of_mem _ hmem, hk, hnm⟩
  exact ⟨msg, by simp [CsvConverter.serialise, csvSerialiseRows, except_ok_bind, except_error_bind, except_map_error, hmsg]⟩

/-- C3 witness: a Record whose second row holds the extra key b fails
with ValueError. -/
theorem csv_serialise_failure_modes_witness :
    (∀ r ∈ [PyVal.dict [(PyVal.str "a", PyVal.str "2"), (PyVal.str "b", PyVal.str "3")]],
      ∃ kvs, r = PyVal.dict kvs) ∧
    (∃ kvs k, PyVal.dict kvs ∈
        [PyVal.dict [(PyVal.str "a", PyVal.str "2"), (PyVal.str "b", PyVal.str "3")]] ∧
      k ∈ kvs.map (fun p => p.1) ∧
      pyMem k (([((PyVal.str "a" : PyVal), (PyVal.str "1" : PyVal))]).map (fun p => p.1)) = false) ∧
    (∃ msg, CsvConverter.serialise (.list (.dict [(.str "a", .str "1")] ::
        [PyVal.dict [(.str "a", .str "2"), (.str "b", .str "3")]])) =
      .error (.valueError msg)) := by
  have h1 : ∀ r ∈ [PyVal.dict [(PyVal.str "a", PyVal.str "2"), (PyVal.str "b", PyVal.str "3")]],
      ∃ kvs, r = PyVal.dict kvs := by
    intro r hr
    simp only [List.mem_singleton] at hr
    exact ⟨_, hr⟩
  have h2 : ∃ kvs k, PyVal.dict kvs ∈
      [PyVal.dict [(PyVal.str "a", PyVal.str "2"), (PyVal.str "b", PyVal.str "3")]] ∧
      k ∈ kvs.map (fun p => p.1) ∧
      pyMem k (([((PyVal.str "a" : PyVal), (PyVal.str "1" : PyVal))]).map (fun p => p.1)) = false :=
    ⟨[(PyVal.str "a", PyVal.str "2"), (PyVal.str "b", PyVal.str "3")], PyVal.str "b",
      by simp, by simp, rfl⟩
  exact ⟨h1, h2, csv_serialise_failure_modes.2.1 _ _ h1 h2⟩

/-- Position just past the last dot in a dropped list, by arithmetic on
the position in the whole list. -/
theorem lastIdxAfter_drop (c : Char) (k : Nat) (cs : List Char) :
    lastIdxAfter (cs.drop k) c = lastIdxAfter cs c - k := by
  induction k generalizing cs with
  | zero => simp
  | succ k ih =>
    cases cs with
    | nil => simp [lastIdxAfter]
    | cons x xs =>
      rw [List.drop_succ_cons, ih xs]
      conv_rhs => simp only [lastIdxAfter]
      split <;> (try split) <;> omega

/-- All-dots of a segment is the negation of containing a non-dot. -/
theorem all_dot_eq_not_any (l : List Char) :
    (l.all (fun c => c = '.')) = !(l.any (fun c => c ≠ '.')) := by
  induction l with
  | nil => rfl
  | cons x xs ih => simp [List.all_cons, List.any_cons, ih]

/-- The splitext model agrees with the amended description: the extension
is taken within the final path component, from its last dot, unless only
dots precede that dot there. -/
theorem splitextExt_eq_spec (filename : String) :
    splitextExt filename = specSplitextExt filename := by
  simp only [splitextExt, specSplitextExt, lastIdxAfter_drop, hasNonDotBetween]
  by_cases hgt : lastIdxAfter filename.data '/' < lastIdxAfter filename.data '.'
  · have hd : lastIdxAfter filename.data '.' - lastIdxAfter filename.data '/' ≠ 0 := by omega
    rw [if_neg hd]
    have hidx : lastIdxAfter filename.data '.' - lastIdxAfter filename.data '/' - 1 =
        lastIdxAfter filename.data '.' - 1 - lastIdxAfter filename.data '/' := by omega
    rw [hidx, all_dot_eq_not_any]
    by_cases hany : (((filename.data.drop (lastIdxAfter filename.data '/')).take
        (lastIdxAfter filename.data '.' - 1 - lastIdxAfter filename.data '/')).any
        (fun c => c ≠ '.'))
    · rw [if_pos ⟨hgt, hany⟩, if_neg (by simpa using hany), List.drop_drop]
      have harith : lastIdxAfter filename.data '/' +
          (lastIdxAfter filename.data '.' - 1 - lastIdxAfter filename.data '/') =
          lastIdxAfter filename.data '.' - 1 := by omega
      rw [harith]
    · have hany2 : (((filename.data.drop (lastIdxAfter filename.data '/')).take
          (lastIdxAfter filename.data '.' - 1 - lastIdxAfter filename.data '/')).any
          (fun c => c ≠ '.')) = false := by simpa using hany
      rw [if_neg (fun h => Bool.false_ne_true (hany2 ▸ h.right)), if_pos (by rw [hany2]; rfl)]
  · have hd : lastIdxAfter filename.data '.' - lastIdxAfter filename.data '/' = 0 := by omega
    rw [if_pos hd, if_neg (by simp [hgt])]

/-- C8 counterexample: the claimed extraction rule — substring from the
last dot — gives ".py" for the filename ".py", an extension that is in
the registry; but resolution of ".py" fails, because os.path.splitext
treats the leading dot of the final component as part of the root and
extracts the empty extension. -/
theorem last_dot_extraction_counterexample :
    specLastDotExt ".py" = ".py" ∧
    (".py", ConverterKind.pyConv) ∈ converter_type_map ∧
    splitextExt ".py" = "" ∧
    get_converter ".py" = .error (.exc "Unrecognised file type: .py") :=
  ⟨rfl, by simp [converter_type_map], rfl, rfl⟩

/-- C8 amended: resolution extracts the extension per os.path.splitext —
within the final path component (after the last slash), the substring
from its last dot to the end, provided a character of the component
before that dot is not itself a dot, and the empty string otherwise —
and looks that string up in the registry. -/
theorem extension_extraction_via_splitext (filename : String) :
    splitextExt filename = specSplitextExt filename ∧
    get_converter filename =
      (match (converter_type_map.find? (fun e => e.1 = specSplitextExt filename)).map
          (fun e => e.2) with
       | some conv => .ok conv
       | Option.none => .error (.exc ("Unrecognised file type: " ++ filename))) := by
  refine ⟨splitextExt_eq_spec filename, ?_⟩
  simp only [get_converter, splitextExt_eq_spec filename]

/-- Hex digits print-parse round trip below 16. -/
theorem hexVal_hexDigitChar : ∀ d : Fin 16, hexVal (hexDigitChar d.val) = some d.val := by decide

/-- Four hex digits print-parse round trip below 65536. -/
theorem hex4Val_hex4 (n : Nat) (h : n < 65536) :
    hex4Val (hexDigitChar (n / 4096 % 16)) (hexDigitChar (n / 256 % 16))
      (hexDigitChar (n / 16 % 16)) (hexDigitChar (n % 16)) = some n := by
  have h1 : hexVal (hexDigitChar (n / 4096 % 16)) = some (n / 4096 % 16) :=
    hexVal_hexDigitChar ⟨n / 4096 % 16, Nat.mod_lt _ (by norm_num)⟩
  have h2 : hexVal (hexDigitChar (n / 256 % 16)) = some (n / 256 % 16) :=
    hexVal_hexDigitChar ⟨n / 256 % 16, Nat.mod_lt _ (by norm_num)⟩
  have h3 : hexVal (hexDigitChar (n / 16 % 16)) = some (n / 16 % 16) :=
    hexVal_hexDigitChar ⟨n / 16 % 16, Nat.mod_lt _ (by norm_num)⟩
  have h4 : hexVal (hexDigitChar (n % 16)) = some (n % 16) :=
    hexVal_hexDigitChar ⟨n % 16, Nat.mod_lt _ (by norm_num)⟩
  simp only [hex4Val, h1, h2, h3, h4]
  simp only [Option.bind_eq_bind, Option.some_bind, Option.pure_def, Option.some.injEq]
  omega

/-- The decimal digit characters are digits. -/
theorem digitChar_isDigit : ∀ m : Fin 10, isDigitChar (Char.ofNat ('0'.toNat + m.val)) = true := by
  decide

/-- Value of a decimal digit character. -/
theorem digitChar_val : ∀ m : Fin 10, (Char.ofNat ('0'.toNat + m.val)).toNat - '0'.toNat = m.val := by
  decide

/-- A nonzero decimal digit character is not the zero digit. -/
theorem digitChar_ne_zero : ∀ m : Fin 10, 1 ≤ m.val → Char.ofNat ('0'.toNat + m.val) ≠ '0' := by
  decide

/-- Every character of the decimal print is a digit. -/
theorem natToCharsAux_digits : ∀ (fuel n : Nat), n < fuel →
    ∀ c ∈ natToCharsAux fuel n, isDigitChar c = true := by
  intro fuel
  induction fuel with
  | zero => intro n h; omega
  | succ fuel ih =>
    intro n h c hc
    simp only [natToCharsAux] at hc
    by_cases h10 : n < 10
    · rw [if_pos h10] at hc
      simp only [List.mem_singleton] at hc
      subst hc
      exact digitChar_isDigit ⟨n, h10⟩
    · rw [if_neg h10] at hc
      rcases List.mem_append.mp hc with h1 | h2
      · exact ih (n / 10) (by omega) c h1
      · simp only [List.mem_singleton] at h2
        subst h2
        exact digitChar_isDigit ⟨n % 10, Nat.mod_lt _ (by norm_num)⟩

/-- The decimal print parses back to its value. -/
theorem digitsToNat_natToCharsAux : ∀ (fuel n : Nat), n < fuel →
    digitsToNat (natToCharsAux fuel n) = n := by
  intro fuel
  induction fuel with
  | zero => intro n h; omega
  | succ fuel ih =>
    intro n h
    simp only [natToCharsAux]
    by_cases h10 : n < 10
    · rw [if_pos h10]
      simp only [digitsToNat, List.foldl_cons, List.foldl_nil]
      have := digitChar_val ⟨n, h10⟩
      simp only at this
      omega
    · rw [if_neg h10]
      simp only [digitsToNat, List.foldl_append, List.foldl_cons, List.foldl_nil]
      have hrec := ih (n / 10) (by omega)
      simp only [digitsToNat] at hrec
      rw [hrec]
      have := digitChar_val ⟨n % 10, Nat.mod_lt _ (by norm_num)⟩
      simp only at this
      omega

/-- A positive number's decimal print starts with a nonzero digit. -/
theorem natToCharsAux_head_ne_zero : ∀ (fuel n : Nat), n < fuel → 1 ≤ n →
    ∃ d tail, natToCharsAux fuel n = d :: tail ∧ isDigitChar d = true ∧ d ≠ '0' := by
  intro fuel
  induction fuel with
  | zero => intro n h; omega
  | succ fuel ih =>
    intro n h h1
    simp only [natToCharsAux]
    by_cases h10 : n < 10
    · rw [if_pos h10]
      exact ⟨_, [], rfl, digitChar_isDigit ⟨n, h10⟩, digitChar_ne_zero ⟨n, h10⟩ h1⟩
    · rw [if_neg h10]
      obtain ⟨d, tail, heq, hd, hz⟩ := ih (n / 10) (by omega) (by omega)
      exact ⟨d, tail ++ [Char.ofNat ('0'.toNat + n % 10)], by rw [heq]; rfl, hd, hz⟩

/-- takeDigits splits a digit run from a non-digit continuation. -/
theorem takeDigits_stop : ∀ (ds rest : List Char),
    (∀ c ∈ ds, isDigitChar c = true) →
    (match rest with | [] => True | c :: _ => isDigitChar c = false) →
    takeDigits (ds ++ rest) = (ds, rest) := by
  intro ds
  induction ds with
  | nil =>
    intro rest _ hrest
    cases rest with
    | nil => rfl
    | cons c r =>
      simp only at hrest
      simp [takeDigits, hrest]
  | cons d ds ih =>
    intro rest hds hrest
    have hd : isDigitChar d = true := hds d (List.mem_cons_self d ds)
    simp only [List.cons_append, takeDigits, hd, if_true, List.append_eq]
    rw [ih rest (fun c hc => hds c (List.mem_cons_of_mem d hc)) hrest]

/-- A scalar value of a Char avoids the surrogate range. -/
theorem char_not_surrogate (c : Char) : c.toNat < 0xD800 ∨ 0xDFFF < c.toNat := by
  rcases c.valid with h | ⟨h1, h2⟩
  · exact Or.inl h
  · exact Or.inr h1

/-- A scalar value of a Char is below 0x110000. -/
theorem char_lt (c : Char) : c.toNat < 0x110000 := by
  rcases c.valid with h | ⟨h1, h2⟩
  · exact Nat.lt_trans h (by norm_num)
  · exact h2

/-- The extension splitext extracts is always a suffix of the filename. -/
theorem splitextExt_suffix (p : String) : (splitextExt p).data <:+ p.data := by
  simp only [splitextExt]
  split
  · show List.drop _ _ <:+ _
    exact List.drop_suffix _ _
  · show ([] : List Char) <:+ _
    exact List.nil_suffix

/-- C4: for every filename whose extension is absent from the registry,
get_converter fails with the unsupported-file-type exception, and the
message contains the offending filename — and with it the extension,
which is a suffix of the filename (the message does not name the
extension separately). -/
theorem unsupported_extension_error (filename : String)
    (h : splitextExt filename ∉ get_supported_extensions) :
    ∃ msg, get_converter filename = .error (.exc msg) ∧
      msg = "Unrecognised file type: " ++ filename ∧
      filename.data <:+: msg.data ∧ (splitextExt filename).data <:+: msg.data := by
  simp only [get_supported_extensions, converter_type_map, List.map_cons, List.map_nil,
    List.mem_cons, List.not_mem_nil, or_false, not_or] at h
  obtain ⟨h1, h2, h3⟩ := h
  refine ⟨"Unrecognised file type: " ++ filename, ?_, rfl, ?_, ?_⟩
  · unfold get_converter
    have hf : (converter_type_map.find? (fun e => e.1 = splitextExt filename)) = Option.none := by
      simp [converter_type_map, List.find?, Ne.symm h1, Ne.symm h2, Ne.symm h3]
    simp [hf]
  · exact (List.suffix_append _ _).isInfix
  · exact ((splitextExt_suffix filename).trans (List.suffix_append _ _)).isInfix

/-- C4 witness: resolve("data.xyz") fails with the unsupported-file-type
message naming data.xyz. -/
theorem unsupported_extension_error_witness :
    splitextExt "data.xyz" ∉ get_supported_extensions ∧
    (∃ msg, get_converter "data.xyz" = .error (.exc msg) ∧
      msg = "Unrecognised file type: " ++ "data.xyz" ∧
      ("data.xyz" : String).data <:+: msg.data ∧
      (splitextExt "data.xyz").data <:+: msg.data) :=
  ⟨by decide, unsupported_extension_error "data.xyz" (by decide)⟩

/-- C2: whenever do_conversion fails — unsupported extension on either
path, missing input file, decode failure, or encode failure — the file
system is returned unchanged: the output path is neither created nor
truncated nor modified, because the code opens the output file for
writing only after every fallible step has succeeded. -/
theorem no_partial_output_on_failure (fs : Fs) (input_file output_file : String)
    (e : PyErr) (h : (do_conversion fs input_file output_file).1 = .error e) :
    (do_conversion fs input_file output_file).2 = fs := by
  cases h1 : get_converter input_file with
  | error e1 => simp [do_conversion, h1]
  | ok cin =>
    cases h2 : get_converter output_file with
    | error e2 => simp [do_conversion, h1, h2]
    | ok cout =>
      cases h3 : fs input_file with
      | none => simp [do_conversion, h1, h2, h3]
      | some input_string =>
        cases h4 : deserialiseOf cin input_string with
        | error e3 => simp [do_conversion, h1, h2, h3, h4]
        | ok data =>
          cases h5 : serialiseOf cout data with
          | error e4 => simp [do_conversion, h1, h2, h3, h4, h5]
          | ok out => simp [do_conversion, h1, h2, h3, h4, h5] at h

/-- C2 witness: a conversion whose input extension is unsupported fails
and leaves the empty file system untouched. -/
theorem no_partial_output_on_failure_witness :
    (do_conversion (fun _ => Option.none) "a.txt" "b.json").1 =
      .error (.exc "Unrecognised file type: a.txt") ∧
    (do_conversion (fun _ => Option.none) "a.txt" "b.json").2 = (fun _ => Option.none) :=
  ⟨rfl, no_partial_output_on_failure (fun _ => Option.none) "a.txt" "b.json"
    (.exc "Unrecognised file type: a.txt") rfl⟩

/-- An error is never an ok result. -/
theorem errNeOk {b : Type} {e : PyErr} {x : b} (h : (Except.error e : Except PyErr b) = Except.ok x) : False :=
  Except.noConfusion h

/-- _convert_num succeeds exactly on int, float and complex constants,
returning the constant's value. -/
theorem convertNum_cases (a : PyAst) (v : PyVal) (h : convertNum a = .ok v) :
    (∃ n, a = .constant (.int n) ∧ v = .int n) ∨
    (∃ l, a = .constant (.float l) ∧ v = .float l) ∨
    (∃ l, a = .constant (.complex l) ∧ v = .complex l) := by
  cases a
  case constant w =>
    cases w
    case int n =>
      refine Or.inl ⟨n, rfl, ?_⟩
      injection (show (Except.ok (PyVal.int n) : Except PyErr PyVal) = Except.ok v from h) with h2
      exact h2.symm
    case float l =>
      refine Or.inr (Or.inl ⟨l, rfl, ?_⟩)
      injection (show (Except.ok (PyVal.float l) : Except PyErr PyVal) = Except.ok v from h) with h2
      exact h2.symm
    case complex l =>
      refine Or.inr (Or.inr ⟨l, rfl, ?_⟩)
      injection (show (Except.ok (PyVal.complex l) : Except PyErr PyVal) = Except.ok v from h) with h2
      exact h2.symm
    all_goals exact (errNeOk h).elim
  all_goals exact (errNeOk h).elim

/-- A successful _convert_num means a numeric constant node. -/
theorem convertNum_ok_isNum (a : PyAst) (v : PyVal) (h : convertNum a = .ok v) :
    isNumConst a = true := by
  rcases convertNum_cases a v h with ⟨n, ha, _⟩ | ⟨l, ha, _⟩ | ⟨l, ha, _⟩ <;>
    (subst ha; rfl)

/-- A complex result of _convert_num comes from a complex constant. -/
theorem convertNum_ok_complex (a : PyAst) (lit : String)
    (h : convertNum a = .ok (.complex lit)) : a = .constant (.complex lit) := by
  rcases convertNum_cases a _ h with ⟨n, ha, hv⟩ | ⟨l, ha, hv⟩ | ⟨l, ha, hv⟩
  · exact absurd hv (by simp)
  · exact absurd hv (by simp)
  · rw [ha, show l = lit from by injection hv.symm]

/-- A real (int or float) result of _convert_signed_num means a signed
real constant node. -/
theorem convertSignedNum_ok_real (a : PyAst) (v : PyVal)
    (h : convertSignedNum a = .ok v) (hv : isRealVal v = true) :
    isSignedRealAst a = true := by
  cases a
  case unaryOp op operand =>
    cases op
    case uAdd =>
      simp only [convertSignedNum] at h
      rcases convertNum_cases operand v h with ⟨n, ha, hv2⟩ | ⟨l, ha, hv2⟩ | ⟨l, ha, hv2⟩
      · subst ha; rfl
      · subst ha; rfl
      · subst hv2; simp [isRealVal] at hv
    case uSub =>
      simp only [convertSignedNum] at h
      cases hc : convertNum operand with
      | error e =>
        rw [hc] at h
        exact (errNeOk h).elim
      | ok w =>
        rw [hc] at h
        have h2 : pyNegNum w = v := by
          injection (show (Except.ok (pyNegNum w) : Except PyErr PyVal) = Except.ok v from h)
        rcases convertNum_cases operand w hc with ⟨n, ha, hw2⟩ | ⟨l, ha, hw2⟩ | ⟨l, ha, hw2⟩
        · subst ha; rfl
        · subst ha; rfl
        · subst hw2
          rw [← h2] at hv
          simp [pyNegNum, isRealVal] at hv
    all_goals exact (errNeOk h).elim
  case constant w =>
    simp only [convertSignedNum] at h
    rcases convertNum_cases _ v h with ⟨n, ha, hv2⟩ | ⟨l, ha, hv2⟩ | ⟨l, ha, hv2⟩
    · injection ha with hw
      subst hw
      rfl
    · injection ha with hw
      subst hw
      rfl
    · subst hv2
      simp [isRealVal] at hv
  all_goals exact (errNeOk h).elim

mutual

theorem astConvert_ok_literal : ∀ (a : PyAst) (v : PyVal),
    astConvert a = .ok v → isLiteralAst a = true
  | .constant _, _, _ => rfl
  | .tupleE elts, v, h => by
      simp only [astConvert] at h
      cases hl : astConvertList elts with
      | ok vs =>
        simp only [isLiteralAst]
        exact astConvertList_ok_literal elts vs hl
      | error e =>
        rw [hl] at h
        exact (errNeOk h).elim
  | .listE elts, v, h => by
      simp only [astConvert] at h
      cases hl : astConvertList elts with
      | ok vs =>
        simp only [isLiteralAst]
        exact astConvertList_ok_literal elts vs hl
      | error e =>
        rw [hl] at h
        exact (errNeOk h).elim
  | .setE elts, v, h => by
      simp only [astConvert] at h
      cases hl : astConvertList elts with
      | ok vs =>
        simp only [isLiteralAst]
        exact astConvertList_ok_literal elts vs hl
      | error e =>
        rw [hl] at h
        exact (errNeOk h).elim
  | .dictE entries, v, h => by
      simp only [astConvert] at h
      cases hl : astConvertKvs entries with
      | ok vs =>
        simp only [isLiteralAst]
        exact astConvertKvs_ok_literal entries vs hl
      | error e =>
        rw [hl] at h
        exact (errNeOk h).elim
  | .call f args kws, v, h => by
      simp only [astConvert] at h
      by_cases hset : isEmptySetCall f args kws
      · simp [isLiteralAst, hset]
      · rw [if_neg hset] at h
        exact (errNeOk h).elim
  | .name id, v, h => (errNeOk h).elim
  | .otherNode d, v, h => (errNeOk h).elim
  | .unaryOp op operand, v, h => by
      simp only [astConvert] at h
      cases op
      case uAdd =>
        simp only [convertSignedNum] at h
        simp only [isLiteralAst]
        exact convertNum_ok_isNum _ _ h
      case uSub =>
        simp only [convertSignedNum] at h
        simp only [isLiteralAst]
        cases hc : convertNum operand with
        | ok w => exact convertNum_ok_isNum _ _ hc
        | error e =>
          rw [hc] at h
          exact (errNeOk h).elim
      all_goals exact (errNeOk h).elim
  | .binOp .add l r, v, h => by
      simp only [astConvert] at h
      cases hl : convertSignedNum l with
      | error e =>
        rw [hl] at h
        exact (errNeOk h).elim
      | ok lv =>
        rw [hl] at h
        cases hr : convertNum r with
        | error e =>
          rw [hr] at h
          exact (errNeOk h).elim
        | ok rv =>
          rw [hr] at h
          simp only [except_ok_bind] at h
          have hreal : isRealVal lv = true := by
            cases lv <;> cases rv <;> first | rfl | exact (errNeOk h).elim
          have hcplx : ∃ cr, rv = PyVal.complex cr := by
            cases lv <;> cases rv <;> first | exact ⟨_, rfl⟩ | exact (errNeOk h).elim
          obtain ⟨cr, hcr⟩ := hcplx
          subst hcr
          simp only [isLiteralAst]
          rw [convertSignedNum_ok_real l lv hl hreal, convertNum_ok_complex r cr hr]
          rfl
  | .binOp .sub l r, v, h => by
      simp only [astConvert] at h
      cases hl : convertSignedNum l with
      | error e =>
        rw [hl] at h
        exact (errNeOk h).elim
      | ok lv =>
        rw [hl] at h
        cases hr : convertNum r with
        | error e =>
          rw [hr] at h
          exact (errNeOk h).elim
        | ok rv =>
          rw [hr] at h
          simp only [except_ok_bind] at h
          have hreal : isRealVal lv = true := by
            cases lv <;> cases rv <;> first | rfl | exact (errNeOk h).elim
          have hcplx : ∃ cr, rv = PyVal.complex cr := by
            cases lv <;> cases rv <;> first | exact ⟨_, rfl⟩ | exact (errNeOk h).elim
          obtain ⟨cr, hcr⟩ := hcplx
          subst hcr
          simp only [isLiteralAst]
          rw [convertSignedNum_ok_real l lv hl hreal, convertNum_ok_complex r cr hr]
          rfl
  | .binOp (.otherOp d) l r, v, h => (errNeOk h).elim

theorem astConvertList_ok_literal : ∀ (l : List PyAst) (vs : List PyVal),
    astConvertList l = .ok vs → isLiteralList l = true
  | [], _, _ => rfl
  | a :: as, vs, h => by
      simp only [astConvertList] at h
      cases ha : astConvert a with
      | error e =>
        rw [ha] at h
        exact (errNeOk h).elim
      | ok w =>
        rw [ha] at h
        simp only [except_ok_bind] at h
        cases has : astConvertList as with
        | error e =>
          rw [has] at h
          exact (errNeOk h).elim
        | ok ws =>
          simp only [isLiteralList]
          rw [astConvert_ok_literal a w ha, astConvertList_ok_literal as ws has]
          rfl

theorem astConvertKvs_ok_literal : ∀ (l : List (PyAst × PyAst)) (vs : List (PyVal × PyVal)),
    astConvertKvs l = .ok vs → isLiteralKvs l = true
  | [], _, _ => rfl
  | (k, w) :: es, vs, h => by
      simp only [astConvertKvs] at h
      cases hk : astConvert k with
      | error e =>
        rw [hk] at h
        exact (errNeOk h).elim
      | ok kv =>
        rw [hk] at h
        simp only [except_ok_bind] at h
        cases hw : astConvert w with
        | error e =>
          rw [hw] at h
          exact (errNeOk h).elim
        | ok wv =>
          rw [hw] at h
          simp only [except_ok_bind] at h
          cases hes : astConvertKvs es with
          | error e =>
            rw [hes] at h
            exact (errNeOk h).elim
          | ok rest =>
            simp only [isLiteralKvs]
            rw [astConvert_ok_literal k kv hk, astConvert_ok_literal w wv hw,
              astConvertKvs_ok_literal es rest hes]
            rfl

end

/-- C5: the folding stage of ast.literal_eval accepts only literal
expressions: whenever it succeeds the AST was literal, and equivalently
every non-literal AST — a name, a call other than the bare set(), an
operator application outside the signed-number and complex-sum forms,
or any other expression node — fails with the malformed-node ValueError.
The embedding is a pure fold over a parsed AST, mirroring that
literal_eval only parses and folds constants and never evaluates code. -/
theorem literal_eval_rejects_nonliteral :
    (∀ a v, astConvert a = .ok v → isLiteralAst a = true) ∧
    (∀ a, isLiteralAst a = false → ∀ v, astConvert a ≠ .ok v) := by
  refine ⟨astConvert_ok_literal, ?_⟩
  intro a hlit v hok
  rw [astConvert_ok_literal a v hok] at hlit
  exact absurd hlit (by decide)

/-- C5 witness: a literal list converts and is literal; the call
eval("1+1") is not literal and does not convert. -/
theorem literal_eval_rejects_nonliteral_witness :
    astConvert (.listE [.constant (.str "a")]) = .ok (.list [.str "a"]) ∧
    isLiteralAst (.listE [.constant (.str "a")]) = true ∧
    isLiteralAst (.call (.name "eval") [.constant (.str "1+1")] 0) = false ∧
    astConvert (.call (.name "eval") [.constant (.str "1+1")] 0) ≠ .ok (.str "2") := by
  refine ⟨rfl, ?_, rfl, ?_⟩
  · exact literal_eval_rejects_nonliteral.1 _ _ rfl
  · exact literal_eval_rejects_nonliteral.2
      (.call (.name "eval") [.constant (.str "1+1")] 0) rfl (.str "2")

/-- One scanner step across an escaped surrogate pair. -/
theorem jParseStr_surrogate_step (f : Nat) (d1 d2 d3 d4 g1 g2 g3 g4 : Char) (T : List Char)
    (n m : Nat) (hx1 : hex4Val d1 d2 d3 d4 = some n) (hx2 : hex4Val g1 g2 g3 g4 = some m)
    (hn : 0xD800 ≤ n ∧ n ≤ 0xDBFF) (hm : 0xDC00 ≤ m ∧ m ≤ 0xDFFF) :
    jParseStr (f + 1) ('\\' :: 'u' :: d1 :: d2 :: d3 :: d4 :: '\\' :: 'u' :: g1 :: g2 :: g3 :: g4 :: T) =
      (jParseStr f T).map (fun p =>
        (Char.ofNat (0x10000 + (n - 0xD800) * 0x400 + (m - 0xDC00)) :: p.1, p.2)) := by
  simp only [jParseStr]
  simp only [if_true, hx1]
  rw [if_pos hn]
  simp only [hx2]
  rw [if_pos hm]
  rw [if_neg (by decide)]

/-- JSON string escaping round-trips through the string scanner: the
escaped body followed by the closing quote parses back to the original
characters, for any fuel above the character count. -/
theorem jParseStr_enc : ∀ (cs rest : List Char) (fuel : Nat), cs.length < fuel →
    jParseStr fuel (cs.flatMap jsonEscapeChar ++ ('"' :: rest)) = some (cs, rest) := by
  intro cs
  induction cs with
  | nil =>
    intro rest fuel hf
    cases fuel with
    | zero => omega
    | succ f => rfl
  | cons c cs ih =>
    intro rest fuel hf
    cases fuel with
    | zero => omega
    | succ f =>
      have hih := ih rest f (by simp at hf ⊢; omega)
      simp only [List.flatMap_cons, List.append_assoc]
      by_cases h1 : c = '\\'
      · subst h1
        show (jParseStr f (cs.flatMap jsonEscapeChar ++ ('"' :: rest))).map
          (fun p => ('\\' :: p.1, p.2)) = _
        rw [hih]
        rfl
      · by_cases h2 : c = '"'
        · subst h2
          simp only [jsonEscapeChar, if_neg h1, if_pos rfl]
          show (jParseStr f (cs.flatMap jsonEscapeChar ++ ('"' :: rest))).map
            (fun p => ('"' :: p.1, p.2)) = _
          rw [hih]
          rfl
        · by_cases h3 : c = '\n'
          · subst h3
            simp only [jsonEscapeChar, if_neg h1, if_neg h2, if_pos rfl]
            show (jParseStr f (cs.flatMap jsonEscapeChar ++ ('"' :: rest))).map
              (fun p => ('\n' :: p.1, p.2)) = _
            rw [hih]
            rfl
          · by_cases h4 : c = '\r'
            · subst h4
              simp only [jsonEscapeChar, if_neg h1, if_neg h2, if_neg h3, if_pos rfl]
              show (jParseStr f (cs.flatMap jsonEscapeChar ++ ('"' :: rest))).map
                (fun p => ('\r' :: p.1, p.2)) = _
              rw [hih]
              rfl
            · by_cases h5 : c = '\t'
              · subst h5
                simp only [jsonEscapeChar, if_neg h1, if_neg h2, if_neg h3, if_neg h4, if_pos rfl]
                show (jParseStr f (cs.flatMap jsonEscapeChar ++ ('"' :: rest))).map
                  (fun p => ('\t' :: p.1, p.2)) = _
                rw [hih]
                rfl
              · by_cases h6 : c.toNat = 8
                · have hc : c = Char.ofNat 8 := by
                    rw [← Char.ofNat_toNat c, h6]
                  subst hc
                  simp only [jsonEscapeChar, if_neg h1, if_neg h2, if_neg h3, if_neg h4,
                    if_neg h5, if_pos h6]
                  show (jParseStr f (cs.flatMap jsonEscapeChar ++ ('"' :: rest))).map
                    (fun p => (Char.ofNat 8 :: p.1, p.2)) = _
                  rw [hih]
                  rfl
                · by_cases h7 : c.toNat = 12
                  · have hc : c = Char.ofNat 12 := by
                      rw [← Char.ofNat_toNat c, h7]
                    subst hc
                    simp only [jsonEscapeChar, if_neg h1, if_neg h2, if_neg h3, if_neg h4,
                      if_neg h5, if_neg h6, if_pos h7]
                    show (jParseStr f (cs.flatMap jsonEscapeChar ++ ('"' :: rest))).map
                      (fun p => (Char.ofNat 12 :: p.1, p.2)) = _
                    rw [hih]
                    rfl
                  · by_cases h8 : 0x20 ≤ c.toNat ∧ c.toNat ≤ 0x7E
                    · simp only [jsonEscapeChar, if_neg h1, if_neg h2, if_neg h3, if_neg h4,
                        if_neg h5, if_neg h6, if_neg h7, if_pos h8, List.cons_append,
                        List.nil_append]
                      simp only [jParseStr]
                      rw [if_neg h2, if_neg h1, if_neg (by omega : ¬ c.toNat < 0x20), hih]
                      rfl
                    · by_cases h9 : c.toNat < 0x10000
                      · simp only [jsonEscapeChar, if_neg h1, if_neg h2, if_neg h3, if_neg h4,
                          if_neg h5, if_neg h6, if_neg h7, if_neg h8, if_pos h9, hex4,
                          List.cons_append, List.nil_append]
                        simp only [jParseStr]
                        have hx := hex4Val_hex4 c.toNat h9
                        simp only [if_true, hx]
                        have hns : ¬(55296 ≤ c.toNat ∧ c.toNat ≤ 56319) := by
                          rcases char_not_surrogate c with h | h <;> omega
                        rw [if_neg hns, hih, Char.ofNat_toNat]
                        rfl
                      · simp only [jsonEscapeChar, if_neg h1, if_neg h2, if_neg h3, if_neg h4,
                          if_neg h5, if_neg h6, if_neg h7, if_neg h8, if_neg h9, hex4,
                          List.cons_append, List.nil_append, List.append_assoc]
                        have hlt := char_lt c
                        rw [jParseStr_surrogate_step f _ _ _ _ _ _ _ _
                          (cs.flatMap jsonEscapeChar ++ '"' :: rest) _ _
                          (hex4Val_hex4 (55296 + (c.toNat - 65536) / 1024) (by omega))
                          (hex4Val_hex4 (56320 + (c.toNat - 65536) % 1024) (by omega))
                          (by omega) (by omega)]
                        have harith : 65536 + (55296 + (c.toNat - 65536) / 1024 - 55296) * 1024 +
                            (56320 + (c.toNat - 65536) % 1024 - 56320) = c.toNat := by omega
                        simp only [harith, Char.ofNat_toNat]
                        rw [hih]
                        rfl

theorem isDigit_facts (c : Char) (h : isDigitChar c = true) :
    c ≠ '-' ∧ c ≠ '.' ∧ c ≠ 'e' ∧ c ≠ 'E' ∧ c ≠ '"' ∧ c ≠ '{' ∧ c ≠ '[' ∧
    c ≠ 't' ∧ c ≠ 'f' ∧ c ≠ 'n' ∧ c ≠ 'N' ∧ c ≠ 'I' ∧ c ≠ '\\' ∧ c ≠ '+' ∧
    c ≠ 'j' ∧ c ≠ 'J' := by
  simp only [isDigitChar, Bool.and_eq_true, decide_eq_true_eq] at h
  obtain ⟨h1, h2⟩ := h
  refine ⟨?_, ?_, ?_, ?_, ?_, ?_, ?_, ?_, ?_, ?_, ?_, ?_, ?_, ?_, ?_, ?_⟩ <;>
    (intro he; subst he; revert h1 h2; decide)

/-- A stop character is not a digit and none of the number-extension
characters. -/
theorem jStop_head (c : Char) (r : List Char) (h : jStop (c :: r)) :
    isDigitChar c = false ∧ c ≠ '.' ∧ c ≠ 'e' ∧ c ≠ 'E' ∧ c ≠ 'j' ∧ c ≠ 'J' := by
  simp only [jStop] at h
  rcases h with h | h | h <;> subst h <;> exact ⟨rfl, by decide, by decide, by decide, by decide, by decide⟩

/-- jNumBody on a digit run followed by a stop character yields the
integer value. -/
theorem jNumBody_digits (ds : List Char) (rest : List Char) (d : Char) (tl : List Char)
    (hds : ds = d :: tl) (hdig : ∀ c ∈ ds, isDigitChar c = true)
    (hz : d = '0' → tl = []) (hstop : jStop rest) (sgn : List Char) :
    jNumBody sgn (ds ++ rest) =
      some (.int (if sgn = [] then Int.ofNat (digitsToNat ds) else -Int.ofNat (digitsToNat ds)), rest) := by
  subst hds
  have hd : isDigitChar d = true := hdig d (List.mem_cons_self d tl)
  have htail : takeDigits (tl ++ rest) = (tl, rest) := by
    refine takeDigits_stop tl rest (fun c hc => hdig c (List.mem_cons_of_mem d hc)) ?_
    cases rest with
    | nil => trivial
    | cons c r => exact (jStop_head c r hstop).1
  simp only [jNumBody, List.cons_append]
  by_cases h0 : d = '0'
  · subst h0
    have htl : tl = [] := hz rfl
    subst htl
    rw [if_pos (Or.inl rfl), if_pos rfl]
    simp only [List.nil_append]
    have hfrac : jNumFrac rest = ([], rest) := by
      cases rest with
      | nil => rfl
      | cons c r =>
        simp only [jNumFrac]
        rw [if_neg (jStop_head c r hstop).2.1]
    rw [hfrac]
    have hexp : jNumExp rest = ([], rest) := by
      cases rest with
      | nil => rfl
      | cons c r =>
        simp only [jNumExp]
        rw [if_neg (by rintro (h | h) <;> [exact (jStop_head c r hstop).2.2.1 h; exact (jStop_head c r hstop).2.2.2.1 h])]
    rw [hexp]
    rw [if_pos ⟨rfl, rfl⟩]
  · rw [if_pos (Or.inr ⟨hd, h0⟩), if_neg h0]
    rw [htail]
    have hfrac : jNumFrac rest = ([], rest) := by
      cases rest with
      | nil => rfl
      | cons c r =>
        simp only [jNumFrac]
        rw [if_neg (jStop_head c r hstop).2.1]
    rw [hfrac]
    have hexp : jNumExp rest = ([], rest) := by
      cases rest with
      | nil => rfl
      | cons c r =>
        simp only [jNumExp]
        rw [if_neg (by rintro (h | h) <;> [exact (jStop_head c r hstop).2.2.1 h; exact (jStop_head c r hstop).2.2.2.1 h])]
    rw [hexp]
    rw [if_pos ⟨rfl, rfl⟩]


theorem natToChars_shape (n : Nat) : ∃ d tl, natToChars n = d :: tl ∧
    (∀ c ∈ natToChars n, isDigitChar c = true) ∧ (d = '0' → tl = []) ∧
    digitsToNat (natToChars n) = n := by
  by_cases h : n = 0
  · subst h
    exact ⟨'0', [], rfl, by decide, fun _ => rfl, rfl⟩
  · obtain ⟨d, tl, heq, hd, hz⟩ := natToCharsAux_head_ne_zero (n + 1) n (by omega) (by omega)
    exact ⟨d, tl, heq, natToCharsAux_digits (n + 1) n (by omega),
      fun h0 => absurd h0 (by rw [h0] at hz; exact fun _ => hz rfl),
      digitsToNat_natToCharsAux (n + 1) n (by omega)⟩

/-- The decimal print of an int parses back as that int when a stop
character follows. -/
theorem jParseNumber_int (n : Int) (rest : List Char) (hstop : jStop rest) :
    jParseNumber (intToChars n ++ rest) = some (.int n, rest) := by
  obtain ⟨d, tl, heq, hdig, hz, hval⟩ := natToChars_shape n.natAbs
  by_cases hneg : n < 0
  · simp only [intToChars, if_pos hneg, List.cons_append, jParseNumber, if_true]
    rw [jNumBody_digits (natToChars n.natAbs) rest d tl heq hdig hz hstop ['-']]
    rw [hval]
    have hne : (['-'] : List Char) ≠ [] := by decide
    rw [if_neg hne]
    have hcast : -(Int.ofNat n.natAbs) = n := by
      simp only [Int.ofNat_eq_natCast]
      omega
    rw [hcast]
  · rw [intToChars, if_neg hneg, heq, List.cons_append]
    simp only [jParseNumber]
    have hd : isDigitChar d = true := hdig d (heq ▸ List.mem_cons_self d tl)
    rw [if_neg (isDigit_facts d hd).1, ← List.cons_append, ← heq]
    rw [jNumBody_digits (natToChars n.natAbs) rest d tl heq hdig hz hstop []]
    rw [hval, if_pos rfl]
    have hcast : Int.ofNat n.natAbs = n := by
      simp only [Int.ofNat_eq_natCast]
      omega
    rw [hcast]





/-- Bounds of a digit character's scalar value. -/
theorem digit_bounds (c : Char) (h : isDigitChar c = true) :
    48 <= c.toNat && c.toNat <= 57 := by
  simp only [isDigitChar, Bool.and_eq_true, decide_eq_true_eq] at h
  obtain ⟨h1, h2⟩ := h
  rw [Char.le_def] at h1 h2
  simp only [Bool.and_eq_true, decide_eq_true_eq]
  exact ⟨h1, h2⟩

/-- A digit character is one of the ten digits. -/
theorem digit_char_cases (c : Char) (h : isDigitChar c = true) :
    c = '0' ∨ c = '1' ∨ c = '2' ∨ c = '3' ∨ c = '4' ∨ c = '5' ∨ c = '6' ∨ c = '7' ∨
    c = '8' ∨ c = '9' := by
  have hb := digit_bounds c h
  simp only [Bool.and_eq_true, decide_eq_true_eq] at hb
  obtain ⟨h1, h2⟩ := hb
  have hc : c = Char.ofNat c.toNat := (Char.ofNat_toNat c).symm
  interval_cases hn : c.toNat <;> rw [hc] <;> decide

/-- The value scanner falls through to the number parser on a digit head. -/
theorem jParseValue_digit (fuel : Nat) (c : Char) (cs : List Char)
    (h : isDigitChar c = true) :
    jParseValue (fuel + 1) (c :: cs) = jParseNumber (c :: cs) := by
  rcases digit_char_cases c h with h | h | h | h | h | h | h | h | h | h <;> subst h <;> rfl

/-- The value scanner falls through to the number parser on a minus sign
followed by a digit. -/
theorem jParseValue_neg (fuel : Nat) (c : Char) (cs : List Char)
    (h : isDigitChar c = true) :
    jParseValue (fuel + 1) ('-' :: c :: cs) = jParseNumber ('-' :: c :: cs) := by
  rcases digit_char_cases c h with h | h | h | h | h | h | h | h | h | h <;> subst h <;> rfl



/-- Rebuilding a string from its characters is the identity. -/
theorem string_mk_data (s : String) : String.mk s.data = s := rfl

/-- Whitespace skipping is the identity on a non-whitespace head. -/
theorem skipJsonWs_nows (c : Char) (r : List Char) (h : jsonWs c = false) :
    skipJsonWs (c :: r) = c :: r := by
  simp [skipJsonWs, h]

/-- A digit head is neither whitespace nor a JSON punctuation mark. -/
theorem digit_not_punct (c : Char) (h : isDigitChar c = true) :
    jsonWs c = false ∧ c ≠ ']' ∧ c ≠ '}' ∧ c ≠ ',' := by
  rcases digit_char_cases c h with h | h | h | h | h | h | h | h | h | h <;> subst h <;>
    exact ⟨rfl, by decide, by decide, by decide⟩

/-- Every character escapes to at least one character. -/
theorem jsonEscapeChar_length (c : Char) : 1 ≤ (jsonEscapeChar c).length := by
  simp only [jsonEscapeChar]
  repeat' split
  all_goals simp

/-- The escaped body is at least as long as the source text. -/
theorem flatMap_jsonEscape_length (cs : List Char) :
    cs.length ≤ (cs.flatMap jsonEscapeChar).length := by
  induction cs with
  | nil => simp
  | cons c cs ih =>
    simp only [List.flatMap_cons, List.length_append, List.length_cons]
    have := jsonEscapeChar_length c
    omega







/-- The decimal print of an int parses back as that int through the value
scanner, when a stop character follows. -/
theorem jParseValue_int (n : Int) (rest : List Char) (fuel : Nat) (hstop : jStop rest) :
    jParseValue (fuel + 1) (intToChars n ++ rest) = some (.int n, rest) := by
  obtain ⟨d, tl, heq, hdig, hz, hval⟩ := natToChars_shape n.natAbs
  have hd : isDigitChar d = true := hdig d (heq ▸ List.mem_cons_self d tl)
  have hnum := jParseNumber_int n rest hstop
  by_cases hneg : n < 0
  · have h2 : intToChars n ++ rest = '-' :: d :: (tl ++ rest) := by
      simp [intToChars, if_pos hneg, heq]
    rw [h2] at hnum ⊢
    rw [jParseValue_neg fuel d (tl ++ rest) hd]
    exact hnum
  · have h2 : intToChars n ++ rest = d :: (tl ++ rest) := by
      simp [intToChars, if_neg hneg, heq]
    rw [h2] at hnum ⊢
    rw [jParseValue_digit fuel d (tl ++ rest) hd]
    exact hnum

/-- The first character of dumps output on a good value: never whitespace
and never a closing bracket or separator, so container scanning sees the
value itself. -/
theorem jValHead (v : PyVal) (enc : List Char) (hg : goodVal v = true)
    (he : jsonDumpVal v = .ok enc) :
    ∃ c tl, enc = c :: tl ∧ jsonWs c = false ∧ c ≠ ']' ∧ c ≠ '}' ∧ c ≠ ',' := by
  cases v with
  | none =>
    simp only [jsonDumpVal, Except.ok.injEq] at he
    exact ⟨'n', _, he.symm, rfl, by decide, by decide, by decide⟩
  | bool b =>
    cases b <;> simp only [jsonDumpVal, Except.ok.injEq] at he
    · exact ⟨'f', _, he.symm, rfl, by decide, by decide, by decide⟩
    · exact ⟨'t', _, he.symm, rfl, by decide, by decide, by decide⟩
  | int n =>
    simp only [jsonDumpVal, Except.ok.injEq] at he
    obtain ⟨d, tl, heq, hdig, hz, hval⟩ := natToChars_shape n.natAbs
    have hd : isDigitChar d = true := hdig d (heq ▸ List.mem_cons_self d tl)
    by_cases hneg : n < 0
    · refine ⟨'-', natToChars n.natAbs, ?_, rfl, by decide, by decide, by decide⟩
      rw [← he]
      simp [intToChars, if_pos hneg]
    · obtain ⟨hws, h1, h2, h3⟩ := digit_not_punct d hd
      refine ⟨d, tl, ?_, hws, h1, h2, h3⟩
      rw [← he]
      simp [intToChars, if_neg hneg, heq]
  | str s =>
    simp only [jsonDumpVal, Except.ok.injEq] at he
    exact ⟨'"', _, he.symm, rfl, by decide, by decide, by decide⟩
  | float lit => simp [goodVal] at hg
  | complex lit => simp [goodVal] at hg
  | tuple xs => simp [goodVal] at hg
  | setv xs => simp [goodVal] at hg
  | list xs =>
    simp only [jsonDumpVal] at he
    cases hb : jsonDumpItems xs with
    | error e => rw [hb] at he; exact (errNeOk he).elim
    | ok body =>
      rw [hb] at he
      simp only [except_ok_bind] at he
      simp only [pure, Except.pure, Except.ok.injEq] at he
      exact ⟨'[', _, he.symm, rfl, by decide, by decide, by decide⟩
  | dict kvs =>
    simp only [jsonDumpVal] at he
    cases hb : jsonDumpMembers kvs with
    | error e => rw [hb] at he; exact (errNeOk he).elim
    | ok body =>
      rw [hb] at he
      simp only [except_ok_bind] at he
      simp only [pure, Except.pure, Except.ok.injEq] at he
      exact ⟨'{', _, he.symm, rfl, by decide, by decide, by decide⟩



/-- Python == against a string is string equality of a string key and
false for every other value. -/
theorem pyEq_str_right (k : PyVal) (s : String) :
    pyEq k (.str s) = (match k with | .str t => t == s | _ => false) := by
  cases k <;> rfl

/-- Key occurrence distributes over append. -/
theorem keyOccurs_append (s : String) (l1 l2 : List (PyVal × PyVal)) :
    keyOccurs s (l1 ++ l2) = (keyOccurs s l1 || keyOccurs s l2) := by
  induction l1 with
  | nil => rfl
  | cons e r ih =>
    obtain ⟨k, v⟩ := e
    simp [keyOccurs, ih, Bool.or_assoc]

/-- Inserting a fresh string key appends the entry. -/
theorem dictInsert_fresh (acc : List (PyVal × PyVal)) (s : String) (v : PyVal)
    (h : keyOccurs s acc = false) :
    dictInsert acc (.str s) v = acc ++ [(.str s, v)] := by
  induction acc with
  | nil => rfl
  | cons e rest ih =>
    obtain ⟨k0, v0⟩ := e
    simp only [keyOccurs, Bool.or_eq_false_iff] at h
    have hk : pyEq k0 (.str s) = false := by
      rw [pyEq_str_right]
      cases k0 with
      | str t =>
        have h1 := h.1
        simp only [decide_eq_false_iff_not] at h1
        simp [h1]
      | _ => rfl
    simp [dictInsert, hk, ih h.2]

/-- If a string never occurs as a key, every string key differs from it. -/
theorem keyOccurs_false_forall (s : String) (kvs : List (PyVal × PyVal))
    (h : keyOccurs s kvs = false) :
    ∀ p ∈ kvs, ∀ t, p.1 = .str t → t ≠ s := by
  induction kvs with
  | nil => intro p hp; cases hp
  | cons e rest ih =>
    obtain ⟨k0, v0⟩ := e
    simp only [keyOccurs, Bool.or_eq_false_iff] at h
    intro p hp t hpt
    rcases List.mem_cons.mp hp with h1 | h1
    · subst h1
      simp only at hpt
      subst hpt
      have h1 := h.1
      simp only [decide_eq_false_iff_not] at h1
      exact h1
    · exact ih h.2 p h1 t hpt

/-- Disjointness survives dropping the first entry. -/
theorem keysDisjoint_cons (acc : List (PyVal × PyVal)) (e : PyVal × PyVal)
    (kvs : List (PyVal × PyVal)) (h : keysDisjoint acc (e :: kvs) = true) :
    keysDisjoint acc kvs = true := by
  simp only [keysDisjoint, List.all_cons, Bool.and_eq_true] at h
  exact h.2

/-- The first entry's string key of a disjoint batch is absent from the
accumulator. -/
theorem keysDisjoint_head (acc : List (PyVal × PyVal)) (s : String) (v : PyVal)
    (kvs : List (PyVal × PyVal))
    (h : keysDisjoint acc ((.str s, v) :: kvs) = true) :
    keyOccurs s acc = false := by
  simp only [keysDisjoint, List.all_cons, Bool.and_eq_true] at h
  have h1 := h.1
  simp only [Bool.not_eq_true'] at h1
  exact h1

/-- Disjointness survives moving a fresh entry into the accumulator. -/
theorem keysDisjoint_snoc (acc : List (PyVal × PyVal)) (kvs : List (PyVal × PyVal))
    (s : String) (v : PyVal) (hd : keysDisjoint acc kvs = true)
    (hs : keyOccurs s kvs = false) :
    keysDisjoint (acc ++ [(.str s, v)]) kvs = true := by
  simp only [keysDisjoint, List.all_eq_true] at hd ⊢
  intro p hp
  obtain ⟨k0, v0⟩ := p
  cases k0 with
  | str t =>
    show (!keyOccurs t (acc ++ [(.str s, v)])) = true
    have h1 : (!keyOccurs t acc) = true := hd (.str t, v0) hp
    simp only [Bool.not_eq_true'] at h1 ⊢
    rw [keyOccurs_append, h1]
    have hts : t ≠ s := keyOccurs_false_forall s kvs hs (.str t, v0) hp t rfl
    simp only [keyOccurs, Bool.or_false, Bool.false_or, decide_eq_false_iff_not]
    exact fun hst => (hts hst.symm).elim
  | _ => rfl

/-- Every value needs at least one unit of fuel. -/
theorem jNodes_pos (v : PyVal) : 1 ≤ jNodes v := by
  cases v <;> simp only [jNodes] <;> omega



mutual

/-- The fuel a value needs is bounded by its dumps length. -/
theorem jDumpLen : ∀ (v : PyVal) (enc : List Char), goodVal v = true →
    jsonDumpVal v = .ok enc → jNodes v ≤ enc.length
  | .none, enc, _, he => by
      simp only [jsonDumpVal, Except.ok.injEq] at he
      subst he
      simp [jNodes]
  | .bool b, enc, _, he => by
      cases b <;> simp only [jsonDumpVal, Except.ok.injEq] at he <;> subst he <;> simp [jNodes]
  | .int n, enc, _, he => by
      simp only [jsonDumpVal, Except.ok.injEq] at he
      subst he
      obtain ⟨d, tl, heq, _, _, _⟩ := natToChars_shape n.natAbs
      by_cases hneg : n < 0 <;>
        simp [jNodes, intToChars, hneg, heq]
  | .str s, enc, _, he => by
      simp only [jsonDumpVal, Except.ok.injEq] at he
      subst he
      simp [jNodes, jsonEncStr]
  | .float lit, _, hg, _ => by simp [goodVal] at hg
  | .complex lit, _, hg, _ => by simp [goodVal] at hg
  | .tuple xs, _, hg, _ => by simp [goodVal] at hg
  | .setv xs, _, hg, _ => by simp [goodVal] at hg
  | .list xs, enc, hg, he => by
      simp only [jsonDumpVal] at he
      cases hb : jsonDumpItems xs with
      | error e => rw [hb] at he; exact (errNeOk he).elim
      | ok body =>
        rw [hb] at he
        simp only [except_ok_bind, pure, Except.pure, Except.ok.injEq] at he
        subst he
        have := jDumpLenItems xs body hg hb
        simp only [jNodes, List.length_cons, List.length_append, List.length_singleton]
        omega
  | .dict kvs, enc, hg, he => by
      simp only [jsonDumpVal] at he
      cases hb : jsonDumpMembers kvs with
      | error e => rw [hb] at he; exact (errNeOk he).elim
      | ok body =>
        rw [hb] at he
        simp only [except_ok_bind, pure, Except.pure, Except.ok.injEq] at he
        subst he
        have := jDumpLenMembers kvs body hg hb
        simp only [jNodes, List.length_cons, List.length_append, List.length_singleton]
        omega

/-- The fuel the items of an array need is bounded by the body length
plus one. -/
theorem jDumpLenItems : ∀ (xs : List PyVal) (body : List Char),
    goodValList xs = true → jsonDumpItems xs = .ok body →
    jNodesList xs ≤ body.length + 1
  | [], body, _, he => by
      simp only [jsonDumpItems, Except.ok.injEq] at he
      subst he
      simp [jNodesList]
  | [x], body, hg, he => by
      simp only [jsonDumpItems] at he
      simp only [goodValList, Bool.and_eq_true] at hg
      have := jDumpLen x body hg.1 he
      simp only [jNodesList, jNodesList.eq_1]
      omega
  | x :: y :: xs, body, hg, he => by
      simp only [jsonDumpItems] at he
      simp only [goodValList, Bool.and_eq_true] at hg
      cases hc : jsonDumpVal x with
      | error e => rw [hc] at he; exact (errNeOk he).elim
      | ok encx =>
        rw [hc] at he
        simp only [except_ok_bind] at he
        cases hr : jsonDumpItems (y :: xs) with
        | error e => rw [hr] at he; exact (errNeOk he).elim
        | ok r =>
          rw [hr] at he
          simp only [except_ok_bind, pure, Except.pure, Except.ok.injEq] at he
          subst he
          have h1 := jDumpLen x encx hg.1 hc
          have h2 := jDumpLenItems (y :: xs) r (by simp [goodValList, hg.2.1, hg.2.2]) hr
          simp only [jNodesList, List.length_append, List.length_cons]
          simp only [jNodesList] at h2
          omega

/-- The fuel the members of an object need is bounded by the body length
plus one. -/
theorem jDumpLenMembers : ∀ (kvs : List (PyVal × PyVal)) (body : List Char),
    goodValKvs kvs = true → jsonDumpMembers kvs = .ok body →
    jNodesKvs kvs ≤ body.length + 1
  | [], body, _, he => by
      simp only [jsonDumpMembers, Except.ok.injEq] at he
      subst he
      simp [jNodesKvs]
  | [(k, v)], body, hg, he => by
      simp only [jsonDumpMembers] at he
      simp only [goodValKvs, Bool.and_eq_true] at hg
      cases hkc : jsonKeyChars k with
      | error e => rw [hkc] at he; exact (errNeOk he).elim
      | ok kc =>
        rw [hkc] at he
        simp only [except_ok_bind] at he
        cases hvc : jsonDumpVal v with
        | error e => rw [hvc] at he; exact (errNeOk he).elim
        | ok vc =>
          rw [hvc] at he
          simp only [except_ok_bind, pure, Except.pure, Except.ok.injEq] at he
          subst he
          have h1 := jDumpLen v vc hg.1.2 hvc
          simp only [jNodesKvs, jNodesKvs.eq_1, List.length_append, List.length_cons]
          omega
  | (k, v) :: m :: kvs, body, hg, he => by
      simp only [jsonDumpMembers] at he
      simp only [goodValKvs, Bool.and_eq_true] at hg
      cases hkc : jsonKeyChars k with
      | error e => rw [hkc] at he; exact (errNeOk he).elim
      | ok kc =>
        rw [hkc] at he
        simp only [except_ok_bind] at he
        cases hvc : jsonDumpVal v with
        | error e => rw [hvc] at he; exact (errNeOk he).elim
        | ok vc =>
          rw [hvc] at he
          simp only [except_ok_bind] at he
          cases hr : jsonDumpMembers (m :: kvs) with
          | error e => rw [hr] at he; exact (errNeOk he).elim
          | ok r =>
            rw [hr] at he
            simp only [except_ok_bind, pure, Except.pure, Except.ok.injEq] at he
            subst he
            have h1 := jDumpLen v vc hg.1.2 hvc
            have hg2 : goodValKvs (m :: kvs) = true := by
              simp only [goodValKvs, Bool.and_eq_true]
              exact hg.2
            have h2 := jDumpLenMembers (m :: kvs) r hg2 hr
            simp only [jNodesKvs, List.length_append, List.length_cons]
            simp only [jNodesKvs] at h2
            omega

end



/-- The first character of a nonempty item list's dumps output is the
first value's head character. -/
theorem jItemsHead (x : PyVal) (xs : List PyVal) (body : List Char)
    (hg : goodValList (x :: xs) = true) (he : jsonDumpItems (x :: xs) = .ok body) :
    ∃ c tl, body = c :: tl ∧ jsonWs c = false ∧ c ≠ ']' ∧ c ≠ '}' ∧ c ≠ ',' := by
  simp only [goodValList, Bool.and_eq_true] at hg
  cases xs with
  | nil =>
    simp only [jsonDumpItems] at he
    exact jValHead x body hg.1 he
  | cons y ys =>
    simp only [jsonDumpItems] at he
    cases hc : jsonDumpVal x with
    | error e => rw [hc] at he; exact (errNeOk he).elim
    | ok encx =>
      rw [hc] at he
      simp only [except_ok_bind] at he
      cases hr : jsonDumpItems (y :: ys) with
      | error e => rw [hr] at he; exact (errNeOk he).elim
      | ok r =>
        rw [hr] at he
        simp only [except_ok_bind, pure, Except.pure, Except.ok.injEq] at he
        obtain ⟨c, tl, hcx, hf⟩ := jValHead x encx hg.1 hc
        refine ⟨c, tl ++ ',' :: ' ' :: r, ?_, hf⟩
        rw [← he, hcx]
        simp

/-- The dumps output of a nonempty member list opens with the quote of
its first (string) key. -/
theorem jMembersHead (e : PyVal × PyVal) (kvs : List (PyVal × PyVal)) (body : List Char)
    (hg : goodValKvs (e :: kvs) = true) (he : jsonDumpMembers (e :: kvs) = .ok body) :
    ∃ tl, body = '"' :: tl := by
  obtain ⟨k, v⟩ := e
  simp only [goodValKvs, Bool.and_eq_true] at hg
  have hk : ∃ s, k = .str s := by
    cases k with
    | str s => exact ⟨s, rfl⟩
    | _ => exact absurd hg.1.1 (by simp)
  obtain ⟨s, hks⟩ := hk
  subst hks
  have hkc : jsonKeyChars (.str s) = .ok (jsonEncStr s) := rfl
  cases kvs with
  | nil =>
    simp only [jsonDumpMembers, hkc, except_ok_bind] at he
    cases hvc : jsonDumpVal v with
    | error e => rw [hvc] at he; exact (errNeOk he).elim
    | ok vc =>
      rw [hvc] at he
      simp only [except_ok_bind, pure, Except.pure, Except.ok.injEq] at he
      refine ⟨s.data.flatMap jsonEscapeChar ++ '"' :: ':' :: ' ' :: vc, ?_⟩
      rw [← he]
      simp [jsonEncStr]
  | cons m rest =>
    simp only [jsonDumpMembers, hkc, except_ok_bind] at he
    cases hvc : jsonDumpVal v with
    | error e => rw [hvc] at he; exact (errNeOk he).elim
    | ok vc =>
      rw [hvc] at he
      simp only [except_ok_bind] at he
      cases hr : jsonDumpMembers (m :: rest) with
      | error e => rw [hr] at he; exact (errNeOk he).elim
      | ok r =>
        rw [hr] at he
        simp only [except_ok_bind, pure, Except.pure, Except.ok.injEq] at he
        refine ⟨s.data.flatMap jsonEscapeChar ++ '"' :: ':' :: ' ' :: (vc ++ ',' :: ' ' :: r), ?_⟩
        rw [← he]
        simp [jsonEncStr]



/-- Skipping whitespace passes over a leading space. -/
theorem skipJsonWs_space (T : List Char) : skipJsonWs (' ' :: T) = skipJsonWs T := rfl

/-- Every batch of entries is disjoint from the empty accumulator. -/
theorem keysDisjoint_nil (kvs : List (PyVal × PyVal)) : keysDisjoint [] kvs = true := by
  simp only [keysDisjoint, List.all_eq_true]
  intro p _
  obtain ⟨k, v⟩ := p
  cases k <;> rfl

/-- Unpacking goodness of a nonempty list. -/
theorem goodValList_cons (x : PyVal) (xs : List PyVal)
    (h : goodValList (x :: xs) = true) :
    goodVal x = true ∧ goodValList xs = true := by
  simp only [goodValList, Bool.and_eq_true] at h
  exact h

/-- Unpacking goodness of a nonempty entry list: a string key absent from
the tail, a good value, a good tail. -/
theorem goodValKvs_cons (k v : PyVal) (kvs : List (PyVal × PyVal))
    (h : goodValKvs ((k, v) :: kvs) = true) :
    (∃ s, k = .str s ∧ keyOccurs s kvs = false) ∧
      goodVal v = true ∧ goodValKvs kvs = true := by
  simp only [goodValKvs, Bool.and_eq_true] at h
  refine ⟨?_, h.1.2, h.2⟩
  cases k with
  | str s =>
    refine ⟨s, rfl, ?_⟩
    have h1 := h.1.1
    simp only [Bool.not_eq_true'] at h1
    exact h1
  | _ => exact absurd h.1.1 (by simp)

/-- One step of the item scanner once the first value is parsed. -/
theorem jParseItems_step (fuel : Nat) (cs : List Char) (v : PyVal) (r' : List Char)
    (h : jParseValue fuel cs = some (v, r')) :
    jParseItems (fuel + 1) cs =
      (match skipJsonWs r' with
       | ',' :: rest3 =>
         (match jParseItems fuel (skipJsonWs rest3) with
          | some (vs, r) => some (v :: vs, r)
          | Option.none => Option.none)
       | ']' :: rest3 => some ([v], rest3)
       | _ => Option.none) := by
  simp only [jParseItems, h]



/-- One step of the member scanner once the key string is scanned. -/
theorem jParseMembers_step (fuel : Nat) (cs0 : List Char) (acc : List (PyVal × PyVal))
    (kk : List Char) (rest2 : List Char)
    (h : jParseStr (cs0.length + 1) cs0 = some (kk, rest2)) :
    jParseMembers (fuel + 1) ('"' :: cs0) acc =
      (match skipJsonWs rest2 with
       | ':' :: rest4 =>
         (match jParseValue fuel (skipJsonWs rest4) with
          | Option.none => Option.none
          | some (v, rest5) =>
            match skipJsonWs rest5 with
            | ',' :: rest7 =>
                jParseMembers fuel (skipJsonWs rest7) (dictInsert acc (.str (String.mk kk)) v)
            | '}' :: rest7 => some (dictInsert acc (.str (String.mk kk)) v, rest7)
            | _ => Option.none)
       | _ => Option.none) := by
  simp only [jParseMembers, h]



mutual

/-- dumps output parses back to the dumped value: the value scanner on the
encoding followed by a stop suffix returns the value and the suffix. -/
theorem jRoundVal : ∀ (v : PyVal) (enc rest : List Char) (fuel : Nat),
    goodVal v = true → jsonDumpVal v = .ok enc → jStop rest → jNodes v ≤ fuel →
    jParseValue fuel (enc ++ rest) = some (v, rest)
  | .none, enc, rest, fuel, _, he, _, hfuel => by
      cases fuel with
      | zero => exact absurd hfuel (by simp only [jNodes]; omega)
      | succ f =>
        simp only [jsonDumpVal, Except.ok.injEq] at he
        subst he
        rfl
  | .bool b, enc, rest, fuel, _, he, _, hfuel => by
      cases fuel with
      | zero => exact absurd hfuel (by simp only [jNodes]; omega)
      | succ f =>
        cases b <;> simp only [jsonDumpVal, Except.ok.injEq] at he <;> subst he <;> rfl
  | .int n, enc, rest, fuel, _, he, hstop, hfuel => by
      cases fuel with
      | zero => exact absurd hfuel (by simp only [jNodes]; omega)
      | succ f =>
        simp only [jsonDumpVal, Except.ok.injEq] at he
        subst he
        exact jParseValue_int n rest f hstop
  | .float lit, enc, rest, fuel, hg, he, hstop, hfuel => by simp [goodVal] at hg
  | .complex lit, enc, rest, fuel, hg, he, hstop, hfuel => by simp [goodVal] at hg
  | .tuple xs, enc, rest, fuel, hg, he, hstop, hfuel => by simp [goodVal] at hg
  | .setv xs, enc, rest, fuel, hg, he, hstop, hfuel => by simp [goodVal] at hg
  | .str s, enc, rest, fuel, _, he, _, hfuel => by
      cases fuel with
      | zero => exact absurd hfuel (by simp only [jNodes]; omega)
      | succ f =>
        simp only [jsonDumpVal, Except.ok.injEq] at he
        subst he
        have hR : jsonEncStr s ++ rest
            = '"' :: (s.data.flatMap jsonEscapeChar ++ ('"' :: rest)) := by
          simp [jsonEncStr]
        rw [hR]
        show (jParseStr ((s.data.flatMap jsonEscapeChar ++ ('"' :: rest)).length + 1)
            (s.data.flatMap jsonEscapeChar ++ ('"' :: rest))).map
            (fun p => (PyVal.str (String.mk p.1), p.2)) = some (.str s, rest)
        rw [jParseStr_enc s.data rest _ (by
          simp only [List.length_append, List.length_cons]
          have := flatMap_jsonEscape_length s.data
          omega)]
        rfl
  | .list [], enc, rest, fuel, hg, he, hstop, hfuel => by
      simp only [jsonDumpVal, jsonDumpItems, except_ok_bind, pure, Except.pure,
        Except.ok.injEq] at he
      subst he
      cases fuel with
      | zero => exact absurd hfuel (by simp only [jNodes]; omega)
      | succ f => rfl
  | .list (x :: xs'), enc, rest, fuel, hg, he, hstop, hfuel => by
      simp only [jsonDumpVal] at he
      cases hb : jsonDumpItems (x :: xs') with
      | error e => rw [hb] at he; exact (errNeOk he).elim
      | ok body =>
        rw [hb] at he
        simp only [except_ok_bind, pure, Except.pure, Except.ok.injEq] at he
        subst he
        cases fuel with
        | zero => exact absurd hfuel (by simp only [jNodes]; omega)
        | succ f =>
          have hgl : goodValList (x :: xs') = true := hg
          obtain ⟨c, tl, hbody, hws, hne1, _, _⟩ := jItemsHead x xs' body hgl hb
          have hR : ('[' :: body ++ [']']) ++ rest = '[' :: (body ++ (']' :: rest)) := by
            simp
          rw [hR]
          show (match skipJsonWs (body ++ (']' :: rest)) with
                | ']' :: r => some (PyVal.list [], r)
                | cs2 => (jParseItems f cs2).map (fun p => (PyVal.list p.1, p.2)))
              = some (PyVal.list (x :: xs'), rest)
          rw [hbody, List.cons_append, skipJsonWs_nows c (tl ++ ']' :: rest) hws]
          split
          · rename_i r heq
            injection heq with h1 _
            exact absurd h1 hne1
          · rw [← List.cons_append, ← hbody,
              jRoundItems x xs' body rest f hgl hb (by
                simp only [jNodes] at hfuel
                omega)]
            rfl
  | .dict [], enc, rest, fuel, hg, he, hstop, hfuel => by
      simp only [jsonDumpVal, jsonDumpMembers, except_ok_bind, pure, Except.pure,
        Except.ok.injEq] at he
      subst he
      cases fuel with
      | zero => exact absurd hfuel (by simp only [jNodes]; omega)
      | succ f => rfl
  | .dict (e :: kvs'), enc, rest, fuel, hg, he, hstop, hfuel => by
      simp only [jsonDumpVal] at he
      cases hb : jsonDumpMembers (e :: kvs') with
      | error e2 => rw [hb] at he; exact (errNeOk he).elim
      | ok body =>
        rw [hb] at he
        simp only [except_ok_bind, pure, Except.pure, Except.ok.injEq] at he
        subst he
        cases fuel with
        | zero => exact absurd hfuel (by simp only [jNodes]; omega)
        | succ f =>
          have hgk : goodValKvs (e :: kvs') = true := hg
          obtain ⟨tl, hbody⟩ := jMembersHead e kvs' body hgk hb
          have hR : ('{' :: body ++ ['}']) ++ rest = '{' :: (body ++ ('}' :: rest)) := by
            simp
          rw [hR]
          show (match skipJsonWs (body ++ ('}' :: rest)) with
                | '}' :: r => some (PyVal.dict [], r)
                | cs2 => (jParseMembers f cs2 []).map (fun p => (PyVal.dict p.1, p.2)))
              = some (PyVal.dict (e :: kvs'), rest)
          rw [hbody, List.cons_append, skipJsonWs_nows '"' (tl ++ '}' :: rest) rfl]
          show (jParseMembers f ('"' :: (tl ++ '}' :: rest)) []).map
              (fun p => (PyVal.dict p.1, p.2)) = some (PyVal.dict (e :: kvs'), rest)
          rw [← List.cons_append, ← hbody,
            jRoundMembers e kvs' body rest [] f hgk (keysDisjoint_nil _) hb (by
              simp only [jNodes] at hfuel
              omega)]
          rfl
termination_by v _ _ _ _ _ _ _ => jNodes v
decreasing_by
  all_goals simp only [jNodes, jNodesList, jNodesKvs]
  all_goals omega

/-- The item scanner parses the dumped items back, consuming the closing
bracket. -/
theorem jRoundItems : ∀ (x : PyVal) (xs : List PyVal) (body rest : List Char) (fuel : Nat),
    goodValList (x :: xs) = true → jsonDumpItems (x :: xs) = .ok body →
    jNodesList (x :: xs) ≤ fuel →
    jParseItems fuel (body ++ (']' :: rest)) = some (x :: xs, rest)
  | x, [], body, rest, fuel, hg, he, hfuel => by
      obtain ⟨hgx, _⟩ := goodValList_cons x [] hg
      cases fuel with
      | zero => exact absurd hfuel (by simp only [jNodesList]; omega)
      | succ f =>
        simp only [jsonDumpItems] at he
        rw [jParseItems_step f (body ++ (']' :: rest)) x (']' :: rest)
          (jRoundVal x body (']' :: rest) f hgx he (Or.inr (Or.inl rfl)) (by
            simp only [jNodesList] at hfuel
            omega))]
        rfl
  | x, y :: ys, body, rest, fuel, hg, he, hfuel => by
      obtain ⟨hgx, hgxs⟩ := goodValList_cons x (y :: ys) hg
      cases fuel with
      | zero => exact absurd hfuel (by simp only [jNodesList]; omega)
      | succ f =>
        simp only [jsonDumpItems] at he
        cases hc : jsonDumpVal x with
        | error e => rw [hc] at he; exact (errNeOk he).elim
        | ok encx =>
          rw [hc] at he
          simp only [except_ok_bind] at he
          cases hr : jsonDumpItems (y :: ys) with
          | error e => rw [hr] at he; exact (errNeOk he).elim
          | ok r =>
            rw [hr] at he
            simp only [except_ok_bind, pure, Except.pure, Except.ok.injEq] at he
            subst he
            obtain ⟨c2, tl2, hrbody, hws2, _, _, _⟩ := jItemsHead y ys r hgxs hr
            have hR : (encx ++ ',' :: ' ' :: r) ++ (']' :: rest)
                = encx ++ (',' :: ' ' :: (r ++ (']' :: rest))) := by simp
            rw [hR]
            have hfx : jNodes x ≤ f := by
              simp only [jNodesList] at hfuel
              omega
            have hfys : jNodesList (y :: ys) ≤ f := by
              have := jNodes_pos x
              simp only [jNodesList] at hfuel ⊢
              omega
            rw [jParseItems_step f _ x (',' :: ' ' :: (r ++ (']' :: rest)))
              (jRoundVal x encx _ f hgx hc (Or.inl rfl) hfx)]
            show (match jParseItems f (skipJsonWs (' ' :: (r ++ (']' :: rest)))) with
                  | some (vs, r2) => some (x :: vs, r2)
                  | Option.none => Option.none) = some (x :: y :: ys, rest)
            rw [skipJsonWs_space, hrbody, List.cons_append,
              skipJsonWs_nows c2 _ hws2, ← List.cons_append, ← hrbody,
              jRoundItems y ys r rest f hgxs hr hfys]
termination_by x xs _ _ _ _ _ _ => jNodesList (x :: xs)
decreasing_by
  all_goals simp only [jNodes, jNodesList, jNodesKvs]
  all_goals omega

/-- The member scanner parses the dumped members back onto a disjoint
accumulator, consuming the closing brace. -/
theorem jRoundMembers : ∀ (e : PyVal × PyVal) (kvs : List (PyVal × PyVal))
    (body rest : List Char) (acc : List (PyVal × PyVal)) (fuel : Nat),
    goodValKvs (e :: kvs) = true → keysDisjoint acc (e :: kvs) = true →
    jsonDumpMembers (e :: kvs) = .ok body → jNodesKvs (e :: kvs) ≤ fuel →
    jParseMembers fuel (body ++ ('}' :: rest)) acc = some (acc ++ (e :: kvs), rest)
  | (k, v), [], body, rest, acc, fuel, hg, hd, he, hfuel => by
      obtain ⟨⟨s, hks, hkey⟩, hgv, _⟩ := goodValKvs_cons k v [] hg
      rw [hks] at hd he ⊢
      have hocc : keyOccurs s acc = false := keysDisjoint_head acc s v [] hd
      cases fuel with
      | zero => exact absurd hfuel (by simp only [jNodesKvs]; omega)
      | succ f =>
        have hkc : jsonKeyChars (.str s) = .ok (jsonEncStr s) := rfl
        simp only [jsonDumpMembers, hkc, except_ok_bind] at he
        cases hvc : jsonDumpVal v with
        | error e2 => rw [hvc] at he; exact (errNeOk he).elim
        | ok vc =>
          rw [hvc] at he
          simp only [except_ok_bind, pure, Except.pure, Except.ok.injEq] at he
          subst he
          have hR : (jsonEncStr s ++ ':' :: ' ' :: vc) ++ ('}' :: rest)
              = '"' :: (s.data.flatMap jsonEscapeChar ++
                  ('"' :: (':' :: ' ' :: (vc ++ ('}' :: rest))))) := by
            simp [jsonEncStr]
          rw [hR]
          rw [jParseMembers_step f _ acc s.data (':' :: ' ' :: (vc ++ ('}' :: rest)))
            (jParseStr_enc s.data (':' :: ' ' :: (vc ++ ('}' :: rest))) _ (by
              simp only [List.length_append, List.length_cons]
              have := flatMap_jsonEscape_length s.data
              omega))]
          show (match jParseValue f (skipJsonWs (' ' :: (vc ++ ('}' :: rest)))) with
                | Option.none => Option.none
                | some (v2, rest5) =>
                  match skipJsonWs rest5 with
                  | ',' :: rest7 =>
                      jParseMembers f (skipJsonWs rest7)
                        (dictInsert acc (.str (String.mk s.data)) v2)
                  | '}' :: rest7 => some (dictInsert acc (.str (String.mk s.data)) v2, rest7)
                  | _ => Option.none)
              = some (acc ++ [(PyVal.str s, v)], rest)
          obtain ⟨c3, tl3, hvb, hws3, _, _, _⟩ := jValHead v vc hgv hvc
          rw [skipJsonWs_space, hvb, List.cons_append, skipJsonWs_nows c3 _ hws3,
            ← List.cons_append, ← hvb,
            jRoundVal v vc ('}' :: rest) f hgv hvc (Or.inr (Or.inr rfl)) (by
              simp only [jNodesKvs] at hfuel
              omega)]
          show some (dictInsert acc (.str (String.mk s.data)) v, rest)
              = some (acc ++ [(PyVal.str s, v)], rest)
          rw [string_mk_data, dictInsert_fresh acc s v hocc]
  | (k, v), m :: kvs2, body, rest, acc, fuel, hg, hd, he, hfuel => by
      obtain ⟨⟨s, hks, hkey⟩, hgv, hgkvs⟩ := goodValKvs_cons k v (m :: kvs2) hg
      rw [hks] at hd he ⊢
      have hocc : keyOccurs s acc = false := keysDisjoint_head acc s v (m :: kvs2) hd
      cases fuel with
      | zero => exact absurd hfuel (by simp only [jNodesKvs]; omega)
      | succ f =>
        have hkc : jsonKeyChars (.str s) = .ok (jsonEncStr s) := rfl
        simp only [jsonDumpMembers, hkc, except_ok_bind] at he
        cases hvc : jsonDumpVal v with
        | error e2 => rw [hvc] at he; exact (errNeOk he).elim
        | ok vc =>
          rw [hvc] at he
          simp only [except_ok_bind] at he
          cases hr : jsonDumpMembers (m :: kvs2) with
          | error e2 => rw [hr] at he; exact (errNeOk he).elim
          | ok r =>
            rw [hr] at he
            simp only [except_ok_bind, pure, Except.pure, Except.ok.injEq] at he
            subst he
            have hR : (jsonEncStr s ++ ':' :: ' ' :: vc ++ ',' :: ' ' :: r) ++ ('}' :: rest)
                = '"' :: (s.data.flatMap jsonEscapeChar ++
                    ('"' :: (':' :: ' ' :: (vc ++ (',' :: ' ' :: (r ++ ('}' :: rest))))))) := by
              simp [jsonEncStr]
            rw [hR]
            rw [jParseMembers_step f _ acc s.data
              (':' :: ' ' :: (vc ++ (',' :: ' ' :: (r ++ ('}' :: rest)))))
              (jParseStr_enc s.data (':' :: ' ' :: (vc ++ (',' :: ' ' :: (r ++ ('}' :: rest))))) _ (by
                simp only [List.length_append, List.length_cons]
                have := flatMap_jsonEscape_length s.data
                omega))]
            show (match jParseValue f
                    (skipJsonWs (' ' :: (vc ++ (',' :: ' ' :: (r ++ ('}' :: rest)))))) with
                  | Option.none => Option.none
                  | some (v2, rest5) =>
                    match skipJsonWs rest5 with
                    | ',' :: rest7 =>
                        jParseMembers f (skipJsonWs rest7)
                          (dictInsert acc (.str (String.mk s.data)) v2)
                    | '}' :: rest7 => some (dictInsert acc (.str (String.mk s.data)) v2, rest7)
                    | _ => Option.none)
                = some (acc ++ ((PyVal.str s, v) :: m :: kvs2), rest)
            obtain ⟨c3, tl3, hvb, hws3, _, _, _⟩ := jValHead v vc hgv hvc
            rw [skipJsonWs_space, hvb, List.cons_append, skipJsonWs_nows c3 _ hws3,
              ← List.cons_append, ← hvb,
              jRoundVal v vc (',' :: ' ' :: (r ++ ('}' :: rest))) f hgv hvc (Or.inl rfl) (by
                simp only [jNodesKvs] at hfuel
                omega)]
            show jParseMembers f (skipJsonWs (' ' :: (r ++ ('}' :: rest))))
                  (dictInsert acc (.str (String.mk s.data)) v)
                = some (acc ++ ((PyVal.str s, v) :: m :: kvs2), rest)
            rw [string_mk_data, dictInsert_fresh acc s v hocc, skipJsonWs_space]
            obtain ⟨tl4, hrb⟩ := jMembersHead m kvs2 r hgkvs hr
            rw [hrb, List.cons_append, skipJsonWs_nows '"' _ rfl, ← List.cons_append, ← hrb]
            rw [jRoundMembers m kvs2 r rest (acc ++ [(PyVal.str s, v)]) f hgkvs
              (keysDisjoint_snoc acc (m :: kvs2) s v (keysDisjoint_cons acc _ _ hd) hkey)
              hr (by
                have := jNodes_pos v
                simp only [jNodesKvs] at hfuel ⊢
                omega)]
            rw [List.append_assoc]
            rfl
termination_by e kvs _ _ _ _ _ _ _ _ => jNodesKvs (e :: kvs)
decreasing_by
  all_goals simp only [jNodes, jNodesList, jNodesKvs]
  all_goals omega

end



mutual

/-- dumps succeeds on every good value. -/
theorem jDumpOk : ∀ (v : PyVal), goodVal v = true → ∃ enc, jsonDumpVal v = .ok enc
  | .none, _ => ⟨_, rfl⟩
  | .bool b, _ => by cases b <;> exact ⟨_, rfl⟩
  | .int n, _ => ⟨_, rfl⟩
  | .str s, _ => ⟨_, rfl⟩
  | .float lit, hg => by simp [goodVal] at hg
  | .complex lit, hg => by simp [goodVal] at hg
  | .tuple xs, hg => by simp [goodVal] at hg
  | .setv xs, hg => by simp [goodVal] at hg
  | .list xs, hg => by
      obtain ⟨body, hb⟩ := jDumpOkItems xs hg
      exact ⟨_, by rw [jsonDumpVal, hb, except_ok_bind]; rfl⟩
  | .dict kvs, hg => by
      obtain ⟨body, hb⟩ := jDumpOkMembers kvs hg
      exact ⟨_, by rw [jsonDumpVal, hb, except_ok_bind]; rfl⟩

/-- dumps succeeds on every good item list. -/
theorem jDumpOkItems : ∀ (xs : List PyVal), goodValList xs = true →
    ∃ body, jsonDumpItems xs = .ok body
  | [], _ => ⟨[], rfl⟩
  | [x], hg => by
      obtain ⟨enc, h⟩ := jDumpOk x (goodValList_cons x [] hg).1
      exact ⟨enc, by rw [jsonDumpItems, h]⟩
  | x :: y :: ys, hg => by
      obtain ⟨hgx, hgys⟩ := goodValList_cons x (y :: ys) hg
      obtain ⟨enc, h⟩ := jDumpOk x hgx
      obtain ⟨r, hr⟩ := jDumpOkItems (y :: ys) hgys
      exact ⟨_, by rw [jsonDumpItems, h, except_ok_bind, hr, except_ok_bind]; rfl⟩

/-- dumps succeeds on every good member list. -/
theorem jDumpOkMembers : ∀ (kvs : List (PyVal × PyVal)), goodValKvs kvs = true →
    ∃ body, jsonDumpMembers kvs = .ok body
  | [], _ => ⟨[], rfl⟩
  | [(k, v)], hg => by
      obtain ⟨⟨s, hks, _⟩, hgv, _⟩ := goodValKvs_cons k v [] hg
      subst hks
      obtain ⟨vc, hvc⟩ := jDumpOk v hgv
      exact ⟨_, by rw [jsonDumpMembers, show jsonKeyChars (.str s) = .ok (jsonEncStr s) from rfl,
        except_ok_bind, hvc, except_ok_bind]; rfl⟩
  | (k, v) :: m :: kvs2, hg => by
      obtain ⟨⟨s, hks, _⟩, hgv, hgkvs⟩ := goodValKvs_cons k v (m :: kvs2) hg
      subst hks
      obtain ⟨vc, hvc⟩ := jDumpOk v hgv
      obtain ⟨r, hr⟩ := jDumpOkMembers (m :: kvs2) hgkvs
      exact ⟨_, by rw [jsonDumpMembers, show jsonKeyChars (.str s) = .ok (jsonEncStr s) from rfl,
        except_ok_bind, hvc, except_ok_bind, hr, except_ok_bind]; rfl⟩

end

/-- The JSON handler round-trips every good value: serialise succeeds and
deserialise recovers the value exactly. -/
theorem jsonRoundTrip (v : PyVal) (hg : goodVal v = true) :
    ∃ out, JsonConverter.serialise v = .ok out ∧ JsonConverter.deserialise out = .ok v := by
  obtain ⟨enc, he⟩ := jDumpOk v hg
  refine ⟨String.mk enc, ?_, ?_⟩
  · rw [JsonConverter.serialise, jsonDumps, he]
    rfl
  · rw [JsonConverter.deserialise, jsonLoads]
    obtain ⟨c, tl, hbody, hws, _, _, _⟩ := jValHead v enc hg he
    have hskip : skipJsonWs (String.mk enc).data = enc := by
      show skipJsonWs enc = enc
      rw [hbody]
      exact skipJsonWs_nows c tl hws
    rw [hskip]
    have hparse : jParseValue ((String.mk enc).data.length + 1) enc = some (v, []) := by
      have := jRoundVal v enc [] (enc.length + 1) hg he trivial (by
        have := jDumpLen v enc hg he
        omega)
      rw [List.append_nil] at this
      exact this
    rw [hparse]
    rfl



/-- Whitespace is skipped only at a whitespace head. -/
theorem skipPyWs_nows (c : Char) (r : List Char)
    (h : (c = ' ' || c = '\t' || c = '\n' || c = '\r') = false) :
    skipPyWs (c :: r) = c :: r := by
  simp only [skipPyWs, h, Bool.false_eq_true, if_false]

/-- Skipping passes over a leading space. -/
theorem skipPyWs_space (T : List Char) : skipPyWs (' ' :: T) = skipPyWs T := rfl

/-- The possible heads of a literal stop suffix. -/
theorem pyStop_head (c : Char) (r : List Char) (h : pyStop (c :: r)) :
    c = ',' ∨ c = ']' ∨ c = '}' ∨ c = ')' ∨ c = ':' := h

/-- A stop-suffix head is inert for number scanning: not a digit, not a
dot, exponent, complex suffix, sign or whitespace, and not an identifier
character. -/
theorem pyStop_head_facts (c : Char) (r : List Char) (h : pyStop (c :: r)) :
    isDigitChar c = false ∧ c ≠ '.' ∧ c ≠ 'e' ∧ c ≠ 'E' ∧ c ≠ 'j' ∧ c ≠ 'J' ∧
    (c = ' ' || c = '\t' || c = '\n' || c = '\r') = false ∧
    isIdentChar c = false ∧ c ≠ '\'' ∧ c ≠ '"' := by
  rcases pyStop_head c r h with h1 | h1 | h1 | h1 | h1 <;> subst h1 <;>
    exact ⟨rfl, by decide, by decide, by decide, by decide, by decide, rfl, rfl,
      by decide, by decide⟩

/-- A digit head is not whitespace. -/
theorem digit_not_ws (c : Char) (h : isDigitChar c = true) :
    (c = ' ' || c = '\t' || c = '\n' || c = '\r') = false := by
  rcases digit_char_cases c h with h | h | h | h | h | h | h | h | h | h <;> subst h <;> rfl

/-- The literal scanner falls through to the number parser on a digit
head. -/
theorem pyParseVal_digit (fuel : Nat) (c : Char) (cs : List Char)
    (h : isDigitChar c = true) :
    pyParseVal (fuel + 1) (c :: cs) = pyParseNumber (c :: cs) := by
  rcases digit_char_cases c h with h | h | h | h | h | h | h | h | h | h <;> subst h <;> rfl

/-- The literal scanner falls through to the number parser on a minus
sign. -/
theorem pyParseVal_neg (fuel : Nat) (cs : List Char) :
    pyParseVal (fuel + 1) ('-' :: cs) = pyParseNumber ('-' :: cs) := rfl



/-- The literal number body on a digit run followed by a stop suffix
yields the integer value. -/
theorem pyNumBody_digits (d : Char) (tl : List Char) (rest : List Char)
    (hdig : ∀ c ∈ d :: tl, isDigitChar c = true) (hstop : pyStop rest) (sgn : List Char) :
    pyNumBody sgn ((d :: tl) ++ rest) =
      some (.int (if sgn = ['-'] then -Int.ofNat (digitsToNat (d :: tl))
                  else Int.ofNat (digitsToNat (d :: tl))), rest) := by
  have hd : isDigitChar d = true := hdig d (List.mem_cons_self d tl)
  have htake : takeDigits ((d :: tl) ++ rest) = (d :: tl, rest) := by
    refine takeDigits_stop (d :: tl) rest hdig ?_
    cases rest with
    | nil => trivial
    | cons c0 r0 => exact (pyStop_head_facts c0 r0 hstop).1
  have hexp : jNumExp rest = ([], rest) := by
    cases rest with
    | nil => rfl
    | cons c0 r0 =>
      simp only [jNumExp]
      rw [if_neg (by
        rintro (h | h)
        · exact (pyStop_head_facts c0 r0 hstop).2.2.1 h
        · exact (pyStop_head_facts c0 r0 hstop).2.2.2.1 h)]
  simp only [pyNumBody, List.cons_append]
  rw [if_neg (isDigit_facts d hd).2.1]
  rw [← List.cons_append, htake]
  cases rest with
  | nil => rfl
  | cons c0 r0 =>
    obtain ⟨_, hdot, _, _, hj, hJ, _, _, _, _⟩ := pyStop_head_facts c0 r0 hstop
    have hjJ : ¬(c0 = 'j' ∨ c0 = 'J') := by rintro (h | h); exacts [hj h, hJ h]
    simp only [if_neg hdot, hexp, if_neg hjJ]
    rw [if_neg (by simp)]

/-- The decimal print of an int parses back through the literal number
parser when a stop suffix follows. -/
theorem pyParseNumber_int (n : Int) (rest : List Char) (hstop : pyStop rest) :
    pyParseNumber (intToChars n ++ rest) = some (.int n, rest) := by
  obtain ⟨d, tl, heq, hdig, hz, hval⟩ := natToChars_shape n.natAbs
  have hd : isDigitChar d = true := hdig d (heq ▸ List.mem_cons_self d tl)
  by_cases hneg : n < 0
  · have h2 : intToChars n ++ rest = '-' :: ((d :: tl) ++ rest) := by
      simp [intToChars, if_pos hneg, heq]
    rw [h2]
    simp only [pyParseNumber]
    simp only [true_or, if_true]
    rw [List.cons_append, skipPyWs_nows d _ (digit_not_ws d hd),
      ← List.cons_append, pyNumBody_digits d tl rest (heq ▸ hdig) hstop ['-'], if_pos rfl]
    rw [heq] at hval
    rw [hval]
    have hcast : -(Int.ofNat n.natAbs) = n := by
      simp only [Int.ofNat_eq_natCast]
      omega
    rw [hcast]
  · have h2 : intToChars n ++ rest = (d :: tl) ++ rest := by
      simp [intToChars, if_neg hneg, heq]
    rw [h2]
    simp only [pyParseNumber, List.cons_append]
    rw [if_neg (by
      rintro (h | h)
      · exact (isDigit_facts d hd).1 h
      · exact (isDigit_facts d hd).2.2.2.2.2.2.2.2.2.2.2.2.2.1 h)]
    rw [← List.cons_append, pyNumBody_digits d tl rest (heq ▸ hdig) hstop []]
    rw [if_neg (by simp)]
    rw [heq] at hval
    rw [hval]
    have hcast : Int.ofNat n.natAbs = n := by
      simp only [Int.ofNat_eq_natCast]
      omega
    rw [hcast]



/-- One repr-escaped character parses back to itself inside a string
literal body. -/
theorem pyParseStrBody_step (q c : Char) (hq : q = '\'' ∨ q = '"') (T : List Char) :
    pyParseStrBody q (reprEscapeChar q c ++ T) =
      (pyParseStrBody q T).map (fun p => (c :: p.1, p.2)) := by
  by_cases h1 : c = '\\'
  · subst h1
    rfl
  · by_cases h2 : c = q
    · subst h2
      rcases hq with h | h <;> subst h <;> rfl
    · by_cases h3 : c = '\n'
      · subst h3
        rcases hq with h | h <;> subst h <;> rfl
      · by_cases h4 : c = '\r'
        · subst h4
          rcases hq with h | h <;> subst h <;> rfl
        · by_cases h5 : c = '\t'
          · subst h5
            rcases hq with h | h <;> subst h <;> rfl
          · by_cases h6 : pyPrintable c
            · simp only [reprEscapeChar, if_neg h1, if_neg h2, if_neg h3, if_neg h4,
                if_neg h5, if_pos h6, List.singleton_append]
              rw [pyParseStrBody.eq_def]
              simp only []
              rw [if_neg h1, if_neg h2, if_neg (by rintro (h | h); exacts [h3 h, h4 h])]
            · by_cases h7 : c.toNat < 0x100
              · have hx1 : hexVal (hexDigitChar (c.toNat / 16 % 16)) = some (c.toNat / 16 % 16) :=
                  hexVal_hexDigitChar ⟨c.toNat / 16 % 16, Nat.mod_lt _ (by norm_num)⟩
                have hx2 : hexVal (hexDigitChar (c.toNat % 16)) = some (c.toNat % 16) :=
                  hexVal_hexDigitChar ⟨c.toNat % 16, Nat.mod_lt _ (by norm_num)⟩
                simp only [reprEscapeChar, if_neg h1, if_neg h2, if_neg h3, if_neg h4,
                  if_neg h5, if_neg h6, if_pos h7, hex2, List.cons_append, List.nil_append]
                rw [pyParseStrBody.eq_def]
                simp only [if_true, hx1, hx2]
                have harith : c.toNat / 16 % 16 * 16 + c.toNat % 16 = c.toNat := by omega
                simp only [harith, Char.ofNat_toNat]
              · by_cases h8 : c.toNat < 0x10000
                · have hx := hex4Val_hex4 c.toNat h8
                  simp only [reprEscapeChar, if_neg h1, if_neg h2, if_neg h3, if_neg h4,
                    if_neg h5, if_neg h6, if_neg h7, if_pos h8, hex4,
                    List.cons_append, List.nil_append]
                  rw [pyParseStrBody.eq_def]
                  simp only [if_true, hx, Char.ofNat_toNat]
                · have hhi := hex4Val_hex4 (c.toNat / 65536) (by have := char_lt c; omega)
                  have hlo := hex4Val_hex4 (c.toNat % 65536) (Nat.mod_lt _ (by norm_num))
                  simp only [reprEscapeChar, if_neg h1, if_neg h2, if_neg h3, if_neg h4,
                    if_neg h5, if_neg h6, if_neg h7, if_neg h8, hex8, hex4,
                    List.cons_append, List.nil_append, List.append_assoc]
                  rw [pyParseStrBody.eq_def]
                  simp only [if_true, hhi, hlo]
                  rw [if_pos (by have := char_lt c; omega)]
                  have harith : c.toNat / 65536 * 65536 + c.toNat % 65536 = c.toNat := by omega
                  simp only [harith, Char.ofNat_toNat]

/-- The repr-escaped body followed by the closing quote parses back to the
original characters. -/
theorem pyParseStrBody_enc (q : Char) (hq : q = '\'' ∨ q = '"') :
    ∀ (cs : List Char) (rest : List Char),
    pyParseStrBody q (cs.flatMap (reprEscapeChar q) ++ (q :: rest)) = some (cs, rest) := by
  intro cs
  induction cs with
  | nil =>
    intro rest
    simp only [List.flatMap_nil, List.nil_append]
    rcases hq with h | h <;> subst h <;> (rw [pyParseStrBody.eq_def]; simp)
  | cons c cs ih =>
    intro rest
    simp only [List.flatMap_cons, List.append_assoc]
    rw [pyParseStrBody_step q c hq, ih]
    rfl

/-- After the closing quote, a stop suffix ends the string (no implicit
concatenation follows). -/
theorem pyParseStrTail_close (fuel : Nat) (q : Char) (T : List Char) (acc body rest : List Char)
    (hb : pyParseStrBody q T = some (body, rest)) (hstop : pyStop rest) :
    pyParseStrTail (fuel + 1) q T acc = some (.str (String.mk (acc ++ body)), rest) := by
  simp only [pyParseStrTail, hb]
  cases rest with
  | nil => rfl
  | cons c0 r0 =>
    obtain ⟨_, _, _, _, _, _, hws, _, hq1, hq2⟩ := pyStop_head_facts c0 r0 hstop
    rcases pyStop_head c0 r0 hstop with h | h | h | h | h <;> subst h <;> rfl



/-- The quote repr chooses, with the shape of its output. -/
theorem pyReprStr_shape (s : String) : ∃ q, (q = '\'' ∨ q = '"') ∧
    pyReprStr s = q :: (s.data.flatMap (reprEscapeChar q) ++ [q]) := by
  by_cases h : s.data.contains '\'' ∧ ¬s.data.contains '"'
  · exact ⟨'"', Or.inr rfl, by simp only [pyReprStr, if_pos h]⟩
  · exact ⟨'\'', Or.inl rfl, by simp only [pyReprStr, if_neg h]⟩

/-- A digit head is not a closing bracket. -/
theorem digit_not_close (c : Char) (h : isDigitChar c = true) : c ≠ ']' ∧ c ≠ '}' := by
  rcases digit_char_cases c h with h | h | h | h | h | h | h | h | h | h <;> subst h <;>
    exact ⟨by decide, by decide⟩

/-- Every value needs at least one unit of literal fuel. -/
theorem pNodes_pos (v : PyVal) : 1 ≤ pNodes v := by
  cases v <;> simp only [pNodes] <;> omega

/-- The first character of repr output on a good value: never whitespace
and never a closing bracket. -/
theorem pValHead (v : PyVal) (hg : goodVal v = true) :
    ∃ c tl, pyReprVal v = c :: tl ∧
      (c = ' ' || c = '\t' || c = '\n' || c = '\r') = false ∧ c ≠ ']' ∧ c ≠ '}' := by
  cases v with
  | none => exact ⟨'N', _, rfl, rfl, by decide, by decide⟩
  | bool b =>
    cases b with
    | false => exact ⟨'F', _, rfl, rfl, by decide, by decide⟩
    | true => exact ⟨'T', _, rfl, rfl, by decide, by decide⟩
  | int n =>
    obtain ⟨d, tl, heq, hdig, _, _⟩ := natToChars_shape n.natAbs
    have hd : isDigitChar d = true := hdig d (heq ▸ List.mem_cons_self d tl)
    by_cases hneg : n < 0
    · refine ⟨'-', natToChars n.natAbs, ?_, rfl, by decide, by decide⟩
      show intToChars n = _
      simp [intToChars, if_pos hneg]
    · refine ⟨d, tl, ?_, digit_not_ws d hd, (digit_not_close d hd).1, (digit_not_close d hd).2⟩
      show intToChars n = _
      simp [intToChars, if_neg hneg, heq]
  | str s =>
    obtain ⟨q, hq, hshape⟩ := pyReprStr_shape s
    refine ⟨q, _, hshape, ?_, ?_, ?_⟩ <;> rcases hq with h | h <;> subst h <;> decide
  | float lit => simp [goodVal] at hg
  | complex lit => simp [goodVal] at hg
  | tuple xs => simp [goodVal] at hg
  | setv xs => simp [goodVal] at hg
  | list xs => exact ⟨'[', pyReprItems xs ++ [']'], rfl, rfl, by decide, by decide⟩
  | dict kvs => exact ⟨'{', pyReprMembers kvs ++ ['}'], rfl, rfl, by decide, by decide⟩

/-- The first character of a nonempty item list's repr output is the first
value's head character. -/
theorem pItemsHead (x : PyVal) (xs : List PyVal) (hg : goodValList (x :: xs) = true) :
    ∃ c tl, pyReprItems (x :: xs) = c :: tl ∧
      (c = ' ' || c = '\t' || c = '\n' || c = '\r') = false ∧ c ≠ ']' ∧ c ≠ '}' := by
  obtain ⟨hgx, _⟩ := goodValList_cons x xs hg
  obtain ⟨c, tl, hx, hf⟩ := pValHead x hgx
  cases xs with
  | nil => exact ⟨c, tl, hx, hf⟩
  | cons y ys =>
    refine ⟨c, tl ++ ',' :: ' ' :: pyReprItems (y :: ys), ?_, hf⟩
    simp only [pyReprItems, hx, List.cons_append]

/-- The repr output of a nonempty entry list opens with the quote of its
first (string) key. -/
theorem pMembersHead (e : PyVal × PyVal) (kvs : List (PyVal × PyVal))
    (hg : goodValKvs (e :: kvs) = true) :
    ∃ q tl, pyReprMembers (e :: kvs) = q :: tl ∧ (q = '\'' ∨ q = '"') := by
  obtain ⟨k, v⟩ := e
  obtain ⟨⟨s, hks, _⟩, _, _⟩ := goodValKvs_cons k v kvs hg
  subst hks
  obtain ⟨q, hq, hshape⟩ := pyReprStr_shape s
  cases kvs with
  | nil =>
    have hmm : pyReprMembers [(PyVal.str s, v)]
        = q :: ((s.data.flatMap (reprEscapeChar q) ++ [q]) ++ ':' :: ' ' :: pyReprVal v) := by
      simp only [pyReprMembers, pyReprVal]
      rw [hshape]
      simp
    exact ⟨q, _, hmm, hq⟩
  | cons m kvs2 =>
    have hmm : pyReprMembers ((PyVal.str s, v) :: m :: kvs2)
        = q :: ((s.data.flatMap (reprEscapeChar q) ++ [q])
            ++ ':' :: ' ' :: pyReprVal v ++ ',' :: ' ' :: pyReprMembers (m :: kvs2)) := by
      simp only [pyReprMembers, pyReprVal]
      rw [hshape]
      simp
    exact ⟨q, _, hmm, hq⟩



mutual

/-- The literal fuel a value needs is bounded by its repr length. -/
theorem pDumpLen : ∀ (v : PyVal), goodVal v = true → pNodes v ≤ (pyReprVal v).length
  | .none, _ => by decide
  | .bool b, _ => by cases b <;> decide
  | .int n, _ => by
      obtain ⟨d, tl, heq, _, _, _⟩ := natToChars_shape n.natAbs
      show pNodes (.int n) ≤ (intToChars n).length
      by_cases hneg : n < 0 <;>
        simp [pNodes, intToChars, hneg, heq]
  | .str s, _ => by
      obtain ⟨q, _, hshape⟩ := pyReprStr_shape s
      show pNodes (.str s) ≤ (pyReprStr s).length
      rw [hshape]
      simp only [pNodes, List.length_cons, List.length_append, List.length_singleton]
      omega
  | .float lit, hg => by simp [goodVal] at hg
  | .complex lit, hg => by simp [goodVal] at hg
  | .tuple xs, hg => by simp [goodVal] at hg
  | .setv xs, hg => by simp [goodVal] at hg
  | .list xs, hg => by
      have h1 := pDumpLenItems xs hg
      show pNodes (.list xs) ≤ (pyReprVal (.list xs)).length
      simp only [pNodes, pyReprVal, List.length_append, List.length_cons,
        List.length_singleton]
      omega
  | .dict kvs, hg => by
      have h1 := pDumpLenMembers kvs hg
      show pNodes (.dict kvs) ≤ (pyReprVal (.dict kvs)).length
      simp only [pNodes, pyReprVal, List.length_append, List.length_cons,
        List.length_singleton]
      omega

/-- The literal fuel the elements need is bounded by the items length plus
one. -/
theorem pDumpLenItems : ∀ (xs : List PyVal), goodValList xs = true →
    pNodesList xs ≤ (pyReprItems xs).length + 1
  | [], _ => by simp [pNodesList]
  | [x], hg => by
      have h1 := pDumpLen x (goodValList_cons x [] hg).1
      simp only [pNodesList, pyReprItems]
      omega
  | x :: y :: ys, hg => by
      obtain ⟨hgx, hgys⟩ := goodValList_cons x (y :: ys) hg
      have h1 := pDumpLen x hgx
      have h2 := pDumpLenItems (y :: ys) hgys
      simp only [pNodesList] at h2 ⊢
      simp only [pyReprItems, List.length_append, List.length_cons]
      omega

/-- The literal fuel the entries need is bounded by the members length
plus one. -/
theorem pDumpLenMembers : ∀ (kvs : List (PyVal × PyVal)), goodValKvs kvs = true →
    pNodesKvs kvs ≤ (pyReprMembers kvs).length + 1
  | [], _ => by simp [pNodesKvs]
  | [(k, v)], hg => by
      obtain ⟨⟨s, hks, _⟩, hgv, _⟩ := goodValKvs_cons k v [] hg
      have h1 := pDumpLen k (by rw [hks]; rfl)
      have h2 := pDumpLen v hgv
      simp only [pNodesKvs, pyReprMembers, List.length_append, List.length_cons]
      omega
  | (k, v) :: m :: kvs2, hg => by
      obtain ⟨⟨s, hks, _⟩, hgv, hgkvs⟩ := goodValKvs_cons k v (m :: kvs2) hg
      have h1 := pDumpLen k (by rw [hks]; rfl)
      have h2 := pDumpLen v hgv
      have h3 := pDumpLenMembers (m :: kvs2) hgkvs
      simp only [pNodesKvs] at h3 ⊢
      simp only [pyReprMembers, List.length_append, List.length_cons]
      omega

end



/-- The decimal print of an int parses back through the literal value
scanner when a stop suffix follows. -/
theorem pyParseVal_int (n : Int) (rest : List Char) (fuel : Nat) (hstop : pyStop rest) :
    pyParseVal (fuel + 1) (intToChars n ++ rest) = some (.int n, rest) := by
  obtain ⟨d, tl, heq, hdig, hz, hval⟩ := natToChars_shape n.natAbs
  have hd : isDigitChar d = true := hdig d (heq ▸ List.mem_cons_self d tl)
  have hnum := pyParseNumber_int n rest hstop
  by_cases hneg : n < 0
  · have h2 : intToChars n ++ rest = '-' :: (d :: tl ++ rest) := by
      simp [intToChars, if_pos hneg, heq]
    rw [h2] at hnum ⊢
    rw [pyParseVal_neg fuel _]
    exact hnum
  · have h2 : intToChars n ++ rest = d :: (tl ++ rest) := by
      simp [intToChars, if_neg hneg, heq]
    rw [h2] at hnum ⊢
    rw [pyParseVal_digit fuel d (tl ++ rest) hd]
    exact hnum

/-- One step of the literal item scanner once the first value is parsed. -/
theorem pyParseItems_step (fuel : Nat) (close : Char) (cs : List Char) (v : PyVal)
    (r' : List Char) (h : pyParseVal fuel cs = some (v, r')) :
    pyParseItems (fuel + 1) close cs =
      (match skipPyWs r' with
       | c :: rest2 =>
         if c = close then some ([v], rest2)
         else if c = ',' then
           (match skipPyWs rest2 with
            | c2 :: rest3 =>
              if c2 = close then some ([v], rest3)
              else (pyParseItems fuel close (c2 :: rest3)).map (fun p => (v :: p.1, p.2))
            | [] => Option.none)
         else Option.none
       | [] => Option.none) := by
  simp only [pyParseItems, h]

/-- One step of the literal entry scanner once the key is parsed. -/
theorem pyParseMembers_step (fuel : Nat) (cs : List Char) (acc : List (PyVal × PyVal))
    (k : PyVal) (r' : List Char) (h : pyParseVal fuel cs = some (k, r')) :
    pyParseMembers (fuel + 1) cs acc =
      (match skipPyWs r' with
       | ':' :: rest2 =>
         (match pyParseVal fuel (skipPyWs rest2) with
          | Option.none => Option.none
          | some (v, rest3) =>
            match skipPyWs rest3 with
            | '}' :: r => some (dictInsert acc k v, r)
            | ',' :: r =>
              (match skipPyWs r with
               | '}' :: r2 => some (dictInsert acc k v, r2)
               | cs4 => pyParseMembers fuel cs4 (dictInsert acc k v))
            | _ => Option.none)
       | _ => Option.none) := by
  simp only [pyParseMembers, h]



/-- The literal scanner on an open brace followed by a quote proceeds to
the inline first-entry parse. -/
theorem pyParseVal_dict_step (fuel : Nat) (T : List Char) (q : Char)
    (hq : q = '\'' ∨ q = '"') :
    pyParseVal (fuel + 1) ('{' :: (q :: T)) =
      (match pyParseVal fuel (q :: T) with
       | Option.none => Option.none
       | some (k, rest2) =>
         match skipPyWs rest2 with
         | ':' :: r =>
             (match pyParseVal fuel (skipPyWs r) with
              | Option.none => Option.none
              | some (v, rest3) =>
                match skipPyWs rest3 with
                | '}' :: r2 => some (PyVal.dict (dictInsert [] k v), r2)
                | ',' :: r2 =>
                    (match skipPyWs r2 with
                     | '}' :: r3 => some (PyVal.dict (dictInsert [] k v), r3)
                     | cs4 => (pyParseMembers fuel cs4 (dictInsert [] k v)).map
                                (fun p => (PyVal.dict p.1, p.2)))
                | _ => Option.none)
         | '}' :: r => some (PyVal.setv [k], r)
         | ',' :: r =>
             (match skipPyWs r with
              | '}' :: r2 => some (PyVal.setv [k], r2)
              | cs3 => (pyParseItems fuel '}' cs3).map (fun p => (PyVal.setv (k :: p.1), p.2)))
         | _ => Option.none) := by
  rcases hq with h | h <;> subst h <;> rfl

/-- Stop suffixes by head character. -/
theorem pyStop_comma (T : List Char) : pyStop (',' :: T) := Or.inl rfl

/-- Stop suffix: closing bracket. -/
theorem pyStop_rbrack (T : List Char) : pyStop (']' :: T) := Or.inr (Or.inl rfl)

/-- Stop suffix: closing brace. -/
theorem pyStop_rbrace (T : List Char) : pyStop ('}' :: T) := Or.inr (Or.inr (Or.inl rfl))

/-- Stop suffix: colon. -/
theorem pyStop_colon (T : List Char) : pyStop (':' :: T) := Or.inr (Or.inr (Or.inr (Or.inr rfl)))

/-- A quote character is not whitespace. -/
theorem quote_not_ws (q : Char) (hq : q = '\'' ∨ q = '"') :
    (q = ' ' || q = '\t' || q = '\n' || q = '\r') = false := by
  rcases hq with h | h <;> subst h <;> rfl

mutual

/-- repr output parses back to the value: the literal scanner on the repr
text followed by a stop suffix returns the value and the suffix. -/
theorem pyRoundVal : ∀ (v : PyVal) (rest : List Char) (fuel : Nat),
    goodVal v = true → pyStop rest → pNodes v ≤ fuel →
    pyParseVal fuel (pyReprVal v ++ rest) = some (v, rest)
  | .none, rest, fuel, _, hstop, hfuel => by
      cases fuel with
      | zero => exact absurd hfuel (by simp only [pNodes]; omega)
      | succ f =>
        cases rest with
        | nil => rfl
        | cons c0 r0 =>
          rcases pyStop_head c0 r0 hstop with h | h | h | h | h <;> subst h <;> rfl
  | .bool b, rest, fuel, _, hstop, hfuel => by
      cases fuel with
      | zero => exact absurd hfuel (by simp only [pNodes]; omega)
      | succ f =>
        cases b <;>
          (cases rest with
           | nil => rfl
           | cons c0 r0 =>
             rcases pyStop_head c0 r0 hstop with h | h | h | h | h <;> subst h <;> rfl)
  | .int n, rest, fuel, _, hstop, hfuel => by
      cases fuel with
      | zero => exact absurd hfuel (by simp only [pNodes]; omega)
      | succ f => exact pyParseVal_int n rest f hstop
  | .float lit, rest, fuel, hg, hstop, hfuel => by simp [goodVal] at hg
  | .complex lit, rest, fuel, hg, hstop, hfuel => by simp [goodVal] at hg
  | .tuple xs, rest, fuel, hg, hstop, hfuel => by simp [goodVal] at hg
  | .setv xs, rest, fuel, hg, hstop, hfuel => by simp [goodVal] at hg
  | .str s, rest, fuel, _, hstop, hfuel => by
      cases fuel with
      | zero => exact absurd hfuel (by simp only [pNodes]; omega)
      | succ f =>
        cases f with
        | zero => exact absurd hfuel (by simp only [pNodes]; omega)
        | succ f2 =>
          obtain ⟨q, hq, hshape⟩ := pyReprStr_shape s
          show pyParseVal (f2 + 1 + 1) (pyReprStr s ++ rest) = some (.str s, rest)
          rw [hshape]
          have hR : (q :: (s.data.flatMap (reprEscapeChar q) ++ [q])) ++ rest
              = q :: (s.data.flatMap (reprEscapeChar q) ++ (q :: rest)) := by simp
          rw [hR]
          rcases hq with h | h <;> subst h
          · show pyParseStrTail (f2 + 1) '\''
                (s.data.flatMap (reprEscapeChar '\'') ++ ('\'' :: rest)) []
                = some (PyVal.str s, rest)
            rw [pyParseStrTail_close f2 '\'' _ [] s.data rest
              (pyParseStrBody_enc '\'' (Or.inl rfl) s.data rest) hstop]
            rfl
          · show pyParseStrTail (f2 + 1) '"'
                (s.data.flatMap (reprEscapeChar '"') ++ ('"' :: rest)) []
                = some (PyVal.str s, rest)
            rw [pyParseStrTail_close f2 '"' _ [] s.data rest
              (pyParseStrBody_enc '"' (Or.inr rfl) s.data rest) hstop]
            rfl
  | .list [], rest, fuel, _, hstop, hfuel => by
      cases fuel with
      | zero => exact absurd hfuel (by simp only [pNodes]; omega)
      | succ f => rfl
  | .list (x :: xs'), rest, fuel, hg, hstop, hfuel => by
      cases fuel with
      | zero => exact absurd hfuel (by simp only [pNodes]; omega)
      | succ f =>
        have hgl : goodValList (x :: xs') = true := hg
        obtain ⟨c, tl, hbody, hws, hne1, _⟩ := pItemsHead x xs' hgl
        have hR : pyReprVal (.list (x :: xs')) ++ rest
            = '[' :: (pyReprItems (x :: xs') ++ (']' :: rest)) := by
          show ('[' :: pyReprItems (x :: xs') ++ [']']) ++ rest = _
          simp
        rw [hR]
        show (match skipPyWs (pyReprItems (x :: xs') ++ (']' :: rest)) with
              | ']' :: r => some (PyVal.list [], r)
              | cs2 => (pyParseItems f ']' cs2).map (fun p => (PyVal.list p.1, p.2)))
            = some (PyVal.list (x :: xs'), rest)
        rw [hbody, List.cons_append, skipPyWs_nows c (tl ++ ']' :: rest) hws]
        split
        · rename_i r heq
          injection heq with h1 _
          exact absurd h1 hne1
        · rw [← List.cons_append, ← hbody,
            pyRoundItems x xs' rest f hgl (by
              simp only [pNodes] at hfuel
              omega)]
          rfl
  | .dict [], rest, fuel, _, hstop, hfuel => by
      cases fuel with
      | zero => exact absurd hfuel (by simp only [pNodes]; omega)
      | succ f => rfl
  | .dict ((k0, v0) :: []), rest, fuel, hg, hstop, hfuel => by
      cases fuel with
      | zero => exact absurd hfuel (by simp only [pNodes]; omega)
      | succ f =>
        have hgk : goodValKvs ((k0, v0) :: []) = true := hg
        obtain ⟨⟨s, hks, hkey⟩, hgv, hgkvs⟩ := goodValKvs_cons k0 v0 [] hgk
        rw [hks] at hgk hfuel ⊢
        obtain ⟨q, mt, hmem, hq⟩ := pMembersHead (PyVal.str s, v0) [] hgk
        have hR : pyReprVal (.dict [(PyVal.str s, v0)]) ++ rest
            = '{' :: (pyReprMembers [(PyVal.str s, v0)] ++ ('}' :: rest)) := by
          show ('{' :: pyReprMembers [(PyVal.str s, v0)] ++ ['}']) ++ rest = _
          simp
        rw [hR, hmem, List.cons_append,
          pyParseVal_dict_step f (mt ++ '}' :: rest) q hq, ← List.cons_append, ← hmem]
        obtain ⟨c3, tl3, hvb, hws3, _, _⟩ := pValHead v0 hgv
        have hsplit : pyReprMembers [(PyVal.str s, v0)] ++ ('}' :: rest)
            = pyReprVal (PyVal.str s) ++ (':' :: ' ' :: (pyReprVal v0 ++ ('}' :: rest))) := by
          simp [pyReprMembers]
        rw [hsplit,
          pyRoundVal (PyVal.str s) _ f rfl (pyStop_colon _) (by
            have := pNodes_pos v0
            simp only [pNodes, pNodesKvs] at hfuel ⊢
            omega)]
        show (match pyParseVal f (skipPyWs (' ' :: (pyReprVal v0 ++ ('}' :: rest)))) with
              | Option.none => Option.none
              | some (v, rest3) =>
                match skipPyWs rest3 with
                | '}' :: r2 => some (PyVal.dict (dictInsert [] (PyVal.str s) v), r2)
                | ',' :: r2 =>
                    (match skipPyWs r2 with
                     | '}' :: r3 => some (PyVal.dict (dictInsert [] (PyVal.str s) v), r3)
                     | cs4 => (pyParseMembers f cs4 (dictInsert [] (PyVal.str s) v)).map
                                (fun p => (PyVal.dict p.1, p.2)))
                | _ => Option.none)
            = some (PyVal.dict [(PyVal.str s, v0)], rest)
        rw [skipPyWs_space, hvb, List.cons_append, skipPyWs_nows c3 _ hws3,
          ← List.cons_append, ← hvb,
          pyRoundVal v0 _ f hgv (pyStop_rbrace _) (by
            simp only [pNodes, pNodesKvs] at hfuel ⊢
            omega)]
        rfl
  | .dict ((k0, v0) :: m :: kvs2), rest, fuel, hg, hstop, hfuel => by
      cases fuel with
      | zero => exact absurd hfuel (by simp only [pNodes]; omega)
      | succ f =>
        have hgk : goodValKvs ((k0, v0) :: m :: kvs2) = true := hg
        obtain ⟨⟨s, hks, hkey⟩, hgv, hgkvs⟩ := goodValKvs_cons k0 v0 (m :: kvs2) hgk
        rw [hks] at hgk hfuel ⊢
        obtain ⟨q, mt, hmem, hq⟩ := pMembersHead (PyVal.str s, v0) (m :: kvs2) hgk
        have hR : pyReprVal (.dict ((PyVal.str s, v0) :: m :: kvs2)) ++ rest
            = '{' :: (pyReprMembers ((PyVal.str s, v0) :: m :: kvs2) ++ ('}' :: rest)) := by
          show ('{' :: pyReprMembers ((PyVal.str s, v0) :: m :: kvs2) ++ ['}']) ++ rest = _
          simp
        rw [hR, hmem, List.cons_append,
          pyParseVal_dict_step f (mt ++ '}' :: rest) q hq, ← List.cons_append, ← hmem]
        obtain ⟨c3, tl3, hvb, hws3, _, _⟩ := pValHead v0 hgv
        have hsplit : pyReprMembers ((PyVal.str s, v0) :: m :: kvs2) ++ ('}' :: rest)
            = pyReprVal (PyVal.str s) ++ (':' :: ' ' :: (pyReprVal v0 ++
                (',' :: ' ' :: (pyReprMembers (m :: kvs2) ++ ('}' :: rest))))) := by
          simp [pyReprMembers]
        rw [hsplit,
          pyRoundVal (PyVal.str s) _ f rfl (pyStop_colon _) (by
            have := pNodes_pos v0
            simp only [pNodes, pNodesKvs] at hfuel ⊢
            omega)]
        show (match pyParseVal f (skipPyWs (' ' :: (pyReprVal v0 ++
                (',' :: ' ' :: (pyReprMembers (m :: kvs2) ++ ('}' :: rest)))))) with
              | Option.none => Option.none
              | some (v, rest3) =>
                match skipPyWs rest3 with
                | '}' :: r2 => some (PyVal.dict (dictInsert [] (PyVal.str s) v), r2)
                | ',' :: r2 =>
                    (match skipPyWs r2 with
                     | '}' :: r3 => some (PyVal.dict (dictInsert [] (PyVal.str s) v), r3)
                     | cs4 => (pyParseMembers f cs4 (dictInsert [] (PyVal.str s) v)).map
                                (fun p => (PyVal.dict p.1, p.2)))
                | _ => Option.none)
            = some (PyVal.dict ((PyVal.str s, v0) :: m :: kvs2), rest)
        rw [skipPyWs_space, hvb, List.cons_append, skipPyWs_nows c3 _ hws3,
          ← List.cons_append, ← hvb,
          pyRoundVal v0 _ f hgv (pyStop_comma _) (by
            simp only [pNodes, pNodesKvs] at hfuel ⊢
            omega)]
        show (match skipPyWs (' ' :: (pyReprMembers (m :: kvs2) ++ ('}' :: rest))) with
              | '}' :: r3 => some (PyVal.dict (dictInsert [] (PyVal.str s) v0), r3)
              | cs4 => (pyParseMembers f cs4 (dictInsert [] (PyVal.str s) v0)).map
                         (fun p => (PyVal.dict p.1, p.2)))
            = some (PyVal.dict ((PyVal.str s, v0) :: m :: kvs2), rest)
        obtain ⟨q2, mt2, hm2, hq2⟩ := pMembersHead m kvs2 hgkvs
        rw [skipPyWs_space, hm2, List.cons_append, skipPyWs_nows q2 _ (quote_not_ws q2 hq2)]
        split
        · rename_i r3 heq
          injection heq with h1 _
          rcases hq2 with h | h <;> subst h <;> exact absurd h1 (by decide)
        · rw [← List.cons_append, ← hm2,
            pyRoundMembers m kvs2 rest (dictInsert [] (PyVal.str s) v0) f hgkvs
              (keysDisjoint_snoc [] (m :: kvs2) s v0 (keysDisjoint_nil _) hkey)
              (by
                have := pNodes_pos v0
                simp only [pNodes, pNodesKvs] at hfuel ⊢
                omega)]
          rfl
termination_by v _ _ _ _ _ => pNodes v
decreasing_by
  all_goals simp only [pNodes, pNodesList, pNodesKvs]
  all_goals try rw [hks]
  all_goals try simp only [pNodes]
  all_goals omega

/-- The literal item scanner parses the repr items back, consuming the
closing bracket. -/
theorem pyRoundItems : ∀ (x : PyVal) (xs : List PyVal) (rest : List Char) (fuel : Nat),
    goodValList (x :: xs) = true → pNodesList (x :: xs) ≤ fuel →
    pyParseItems fuel ']' (pyReprItems (x :: xs) ++ (']' :: rest)) = some (x :: xs, rest)
  | x, [], rest, fuel, hg, hfuel => by
      obtain ⟨hgx, _⟩ := goodValList_cons x [] hg
      cases fuel with
      | zero => exact absurd hfuel (by simp only [pNodesList]; omega)
      | succ f =>
        rw [show pyReprItems [x] ++ (']' :: rest) = pyReprVal x ++ (']' :: rest) from rfl,
          pyParseItems_step f ']' _ x (']' :: rest)
            (pyRoundVal x (']' :: rest) f hgx (pyStop_rbrack _) (by
              simp only [pNodesList] at hfuel
              omega))]
        rfl
  | x, y :: ys, rest, fuel, hg, hfuel => by
      obtain ⟨hgx, hgys⟩ := goodValList_cons x (y :: ys) hg
      cases fuel with
      | zero => exact absurd hfuel (by simp only [pNodesList]; omega)
      | succ f =>
        have hR : pyReprItems (x :: y :: ys) ++ (']' :: rest)
            = pyReprVal x ++ (',' :: ' ' :: (pyReprItems (y :: ys) ++ (']' :: rest))) := by
          simp [pyReprItems]
        rw [hR,
          pyParseItems_step f ']' _ x (',' :: ' ' :: (pyReprItems (y :: ys) ++ (']' :: rest)))
            (pyRoundVal x _ f hgx (pyStop_comma _) (by
              simp only [pNodesList] at hfuel
              omega))]
        show (match skipPyWs (' ' :: (pyReprItems (y :: ys) ++ (']' :: rest))) with
              | c2 :: rest3 =>
                if c2 = ']' then some ([x], rest3)
                else (pyParseItems f ']' (c2 :: rest3)).map (fun p => (x :: p.1, p.2))
              | [] => Option.none) = some (x :: y :: ys, rest)
        obtain ⟨c2, tl2, hib, hws2, hne2, _⟩ := pItemsHead y ys hgys
        rw [skipPyWs_space, hib, List.cons_append, skipPyWs_nows c2 _ hws2]
        show (if c2 = ']' then some ([x], tl2 ++ (']' :: rest))
              else (pyParseItems f ']' (c2 :: (tl2 ++ (']' :: rest)))).map
                     (fun p => (x :: p.1, p.2))) = some (x :: y :: ys, rest)
        rw [if_neg hne2, ← List.cons_append, ← hib,
          pyRoundItems y ys rest f hgys (by
            have := pNodes_pos x
            simp only [pNodesList] at hfuel ⊢
            omega)]
        rfl
termination_by x xs _ _ _ _ => pNodesList (x :: xs)
decreasing_by
  all_goals simp only [pNodes, pNodesList, pNodesKvs]
  all_goals omega

/-- The literal entry scanner parses the repr entries back onto a disjoint
accumulator, consuming the closing brace. -/
theorem pyRoundMembers : ∀ (e : PyVal × PyVal) (kvs : List (PyVal × PyVal))
    (rest : List Char) (acc : List (PyVal × PyVal)) (fuel : Nat),
    goodValKvs (e :: kvs) = true → keysDisjoint acc (e :: kvs) = true →
    pNodesKvs (e :: kvs) ≤ fuel →
    pyParseMembers fuel (pyReprMembers (e :: kvs) ++ ('}' :: rest)) acc
      = some (acc ++ (e :: kvs), rest)
  | (k, v), [], rest, acc, fuel, hg, hd, hfuel => by
      obtain ⟨⟨s, hks, hkey⟩, hgv, hgkvs⟩ := goodValKvs_cons k v [] hg
      rw [hks] at hd hfuel ⊢
      have hocc : keyOccurs s acc = false := keysDisjoint_head acc s v [] hd
      cases fuel with
      | zero => exact absurd hfuel (by simp only [pNodesKvs]; omega)
      | succ f =>
        obtain ⟨c3, tl3, hvb, hws3, _, _⟩ := pValHead v hgv
        have hsplit : pyReprMembers [(PyVal.str s, v)] ++ ('}' :: rest)
            = pyReprVal (PyVal.str s) ++ (':' :: ' ' :: (pyReprVal v ++ ('}' :: rest))) := by
          simp [pyReprMembers]
        rw [hsplit,
          pyParseMembers_step f _ acc (PyVal.str s) _
            (pyRoundVal (PyVal.str s) _ f rfl (pyStop_colon _) (by
              have := pNodes_pos v
              simp only [pNodes, pNodesKvs] at hfuel ⊢
              omega))]
        show (match pyParseVal f (skipPyWs (' ' :: (pyReprVal v ++ ('}' :: rest)))) with
              | Option.none => Option.none
              | some (v2, rest3) =>
                match skipPyWs rest3 with
                | '}' :: r => some (dictInsert acc (PyVal.str s) v2, r)
                | ',' :: r =>
                  (match skipPyWs r with
                   | '}' :: r2 => some (dictInsert acc (PyVal.str s) v2, r2)
                   | cs4 => pyParseMembers f cs4 (dictInsert acc (PyVal.str s) v2))
                | _ => Option.none)
            = some (acc ++ [(PyVal.str s, v)], rest)
        rw [skipPyWs_space, hvb, List.cons_append, skipPyWs_nows c3 _ hws3,
          ← List.cons_append, ← hvb,
          pyRoundVal v _ f hgv (pyStop_rbrace _) (by
            simp only [pNodes, pNodesKvs] at hfuel ⊢
            omega)]
        show some (dictInsert acc (PyVal.str s) v, rest) = some (acc ++ [(PyVal.str s, v)], rest)
        rw [dictInsert_fresh acc s v hocc]
  | (k, v), m :: kvs2, rest, acc, fuel, hg, hd, hfuel => by
      obtain ⟨⟨s, hks, hkey⟩, hgv, hgkvs⟩ := goodValKvs_cons k v (m :: kvs2) hg
      rw [hks] at hd hfuel ⊢
      have hocc : keyOccurs s acc = false := keysDisjoint_head acc s v (m :: kvs2) hd
      cases fuel with
      | zero => exact absurd hfuel (by simp only [pNodesKvs]; omega)
      | succ f =>
        obtain ⟨c3, tl3, hvb, hws3, _, _⟩ := pValHead v hgv
        have hsplit : pyReprMembers ((PyVal.str s, v) :: m :: kvs2) ++ ('}' :: rest)
            = pyReprVal (PyVal.str s) ++ (':' :: ' ' :: (pyReprVal v ++
                (',' :: ' ' :: (pyReprMembers (m :: kvs2) ++ ('}' :: rest))))) := by
          simp [pyReprMembers]
        rw [hsplit,
          pyParseMembers_step f _ acc (PyVal.str s) _
            (pyRoundVal (PyVal.str s) _ f rfl (pyStop_colon _) (by
              have := pNodes_pos v
              simp only [pNodes, pNodesKvs] at hfuel ⊢
              omega))]
        show (match pyParseVal f (skipPyWs (' ' :: (pyReprVal v ++
                (',' :: ' ' :: (pyReprMembers (m :: kvs2) ++ ('}' :: rest)))))) with
              | Option.none => Option.none
              | some (v2, rest3) =>
                match skipPyWs rest3 with
                | '}' :: r => some (dictInsert acc (PyVal.str s) v2, r)
                | ',' :: r =>
                  (match skipPyWs r with
                   | '}' :: r2 => some (dictInsert acc (PyVal.str s) v2, r2)
                   | cs4 => pyParseMembers f cs4 (dictInsert acc (PyVal.str s) v2))
                | _ => Option.none)
            = some (acc ++ ((PyVal.str s, v) :: m :: kvs2), rest)
        rw [skipPyWs_space, hvb, List.cons_append, skipPyWs_nows c3 _ hws3,
          ← List.cons_append, ← hvb,
          pyRoundVal v _ f hgv (pyStop_comma _) (by
            simp only [pNodes, pNodesKvs] at hfuel ⊢
            omega)]
        show (match skipPyWs (' ' :: (pyReprMembers (m :: kvs2) ++ ('}' :: rest))) with
              | '}' :: r2 => some (dictInsert acc (PyVal.str s) v, r2)
              | cs4 => pyParseMembers f cs4 (dictInsert acc (PyVal.str s) v))
            = some (acc ++ ((PyVal.str s, v) :: m :: kvs2), rest)
        rw [dictInsert_fresh acc s v hocc]
        obtain ⟨q2, mt2, hm2, hq2⟩ := pMembersHead m kvs2 hgkvs
        rw [skipPyWs_space, hm2, List.cons_append, skipPyWs_nows q2 _ (quote_not_ws q2 hq2)]
        split
        · rename_i r2 heq
          injection heq with h1 _
          rcases hq2 with h | h <;> subst h <;> exact absurd h1 (by decide)
        · rw [← List.cons_append, ← hm2,
            pyRoundMembers m kvs2 rest (acc ++ [(PyVal.str s, v)]) f hgkvs
              (keysDisjoint_snoc acc (m :: kvs2) s v (keysDisjoint_cons acc _ _ hd) hkey)
              (by
                have := pNodes_pos v
                simp only [pNodes, pNodesKvs] at hfuel ⊢
                omega)]
          rw [List.append_assoc]
          rfl
termination_by e kvs _ _ _ _ _ _ => pNodesKvs (e :: kvs)
decreasing_by
  all_goals simp only [pNodes, pNodesList, pNodesKvs]
  all_goals try rw [hks]
  all_goals try simp only [pNodes]
  all_goals omega

end



/-- The Python-literal handler round-trips every good value: literal_eval
of the repr text recovers the value exactly. -/
theorem pyRoundTrip (v : PyVal) (hg : goodVal v = true) :
    PyConverter.deserialise (PyConverter.serialise v) = .ok v := by
  have hparse : pyParseVal ((String.mk (pyReprVal v)).data.length + 1)
      (String.mk (pyReprVal v)).data = some (v, []) := by
    show pyParseVal ((pyReprVal v).length + 1) (pyReprVal v) = some (v, [])
    have h2 := pyRoundVal v [] ((pyReprVal v).length + 1) hg trivial (by
      have := pDumpLen v hg
      omega)
    rw [List.append_nil] at h2
    exact h2
  show pyLiteralEval (String.mk (pyReprVal v)) = .ok v
  rw [pyLiteralEval, hparse]
  rfl



/-- C1: round-trip within a format.  For every Record value built purely
from literal-compatible values shared by the two formats — None, booleans,
ints, strings, lists of such values and string-keyed dicts with distinct
keys (floats are excluded: shortest-round-trip IEEE printing is outside
this embedding) — the JSON handler's serialise succeeds and its
deserialise returns the value unchanged, and the Python-literal handler's
deserialise of its serialise output returns the value unchanged. -/
theorem round_trip_within_format (v w : PyVal)
    (hv : goodVal v = true) (hw : goodVal w = true) :
    (∃ out, JsonConverter.serialise v = .ok out ∧ JsonConverter.deserialise out = .ok v) ∧
    PyConverter.deserialise (PyConverter.serialise w) = .ok w :=
  ⟨jsonRoundTrip v hv, pyRoundTrip w hw⟩

/-- The round trip at a concrete one-row Record. -/
theorem round_trip_within_format_witness :
    goodVal (PyVal.list [PyVal.dict
      [(PyVal.str "name", PyVal.str "Joe"), (PyVal.str "age", PyVal.str "21")]]) = true ∧
    ((∃ out, JsonConverter.serialise (PyVal.list [PyVal.dict
        [(PyVal.str "name", PyVal.str "Joe"), (PyVal.str "age", PyVal.str "21")]]) = .ok out ∧
      JsonConverter.deserialise out = .ok (PyVal.list [PyVal.dict
        [(PyVal.str "name", PyVal.str "Joe"), (PyVal.str "age", PyVal.str "21")]])) ∧
     PyConverter.deserialise (PyConverter.serialise (PyVal.list [PyVal.dict
        [(PyVal.str "name", PyVal.str "Joe"), (PyVal.str "age", PyVal.str "21")]]))
       = .ok (PyVal.list [PyVal.dict
        [(PyVal.str "name", PyVal.str "Joe"), (PyVal.str "age", PyVal.str "21")]])) :=
  ⟨rfl, round_trip_within_format _ _ rfl rfl⟩

end Converter
